import Mathlib

/-!
Shallow embedding of the javd JVM class-file codec
(src/main.rs, src/read.rs, src/deserialization.rs, src/serialization.rs)
and proofs about it.

Modelling conventions:
* A byte stream is a `List Nat`; genuine inputs have every cell < 256
  (Rust's `Vec<u8>`), stated as a hypothesis (`ByteStream`) where needed.
* A decoder is a function `List Nat → Except DecErr (α × List Nat)` mirroring a
  `Cursor<Vec<u8>>`: the returned list is the unread remainder of the stream.
* A Rust `io::Error` is `DecErr.msg`; a Rust panic (a failing `unwrap`) is
  `DecErr.panic`.  Both abort the surrounding computation when propagated, but the
  `let _ = a.resolve(cp)` sites in the source swallow only `msg` errors — a panic
  unwinds through them.
* `i32`/`f32`/`i64`/`f64` constant payloads are kept as their big-endian bit
  patterns (a `Nat` below 2^32 or 2^64): `from_be_bytes`/`to_be_bytes` are mutually
  inverse bijections with byte arrays, and the codec never computes with the values.
* A Rust `String` is kept as its UTF-8 byte list; `String::from_utf8_lossy` is
  `utf8_lossy`, `str::len` is `List.length`, and `String::serialize` writes the list.
* `u16` arithmetic that can wrap (the constant-pool index counter) is taken mod
  2^16 exactly where the Rust `u16` operation sits.
-/

namespace Javd

/-- Severity of a failed Rust computation: a propagated `io::Error` with its
message, or a panic (an `unwrap` on `None`/`Err`). -/
inductive DecErr where
  | msg (s : String)
  | panic
  deriving DecidableEq, Repr

/-- The `io::ErrorKind::UnexpectedEof` message produced by `read_exact` on a
truncated buffer. -/
def eofMsg : String := "failed to fill whole buffer"

/-- read.rs `read_bytes` / `Cursor::read_exact`: take `size` bytes off the front of
the stream; on shortfall fail with `UnexpectedEof` (and the bytes that were
available are not handed out). -/
def read_bytes (s : List Nat) (size : Nat) : Except DecErr (List Nat × List Nat) :=
  if size ≤ s.length then .ok (s.take size, s.drop size) else .error (.msg eofMsg)

/-- Big-endian value of a byte list (`uN::from_be_bytes`). -/
def be_val (l : List Nat) : Nat := l.foldl (fun a b => 256 * a + b) 0

/-- read.rs `read_u8`. -/
def read_u8 (s : List Nat) : Except DecErr (Nat × List Nat) :=
  (read_bytes s 1).map fun p => (be_val p.1, p.2)

/-- read.rs `read_u16`. -/
def read_u16 (s : List Nat) : Except DecErr (Nat × List Nat) :=
  (read_bytes s 2).map fun p => (be_val p.1, p.2)

/-- read.rs `read_u32`. -/
def read_u32 (s : List Nat) : Except DecErr (Nat × List Nat) :=
  (read_bytes s 4).map fun p => (be_val p.1, p.2)

/-- read.rs `read_i32` (payload kept as the 32-bit big-endian bit pattern). -/
def read_i32 (s : List Nat) : Except DecErr (Nat × List Nat) :=
  (read_bytes s 4).map fun p => (be_val p.1, p.2)

/-- read.rs `read_i64` (64-bit bit pattern). -/
def read_i64 (s : List Nat) : Except DecErr (Nat × List Nat) :=
  (read_bytes s 8).map fun p => (be_val p.1, p.2)

/-- read.rs `read_f32` (32-bit bit pattern). -/
def read_f32 (s : List Nat) : Except DecErr (Nat × List Nat) :=
  (read_bytes s 4).map fun p => (be_val p.1, p.2)

/-- read.rs `read_f64` (64-bit bit pattern). -/
def read_f64 (s : List Nat) : Except DecErr (Nat × List Nat) :=
  (read_bytes s 8).map fun p => (be_val p.1, p.2)

/-- write.rs: `u16::to_be_bytes` of a value cast with `as u16` (mod 2^16). -/
def u16_be (n : Nat) : List Nat := [n / 256 % 256, n % 256]

/-- write.rs: `u32::to_be_bytes` of a value cast with `as u32` (mod 2^32). -/
def u32_be (n : Nat) : List Nat :=
  [n / 16777216 % 256, n / 65536 % 256, n / 256 % 256, n % 256]

/-- `u64::to_be_bytes` (used for the Long/Double bit patterns). -/
def u64_be (n : Nat) : List Nat :=
  [n / 72057594037927936 % 256, n / 281474976710656 % 256, n / 1099511627776 % 256,
   n / 4294967296 % 256, n / 16777216 % 256, n / 65536 % 256, n / 256 % 256, n % 256]

/-- main.rs `ReferenceKind`: the nine method-handle kinds, tag range 1–9. -/
inductive ReferenceKind where
  | GetField | GetStatic | PutField | PutStatic | InvokeVirtual
  | InvokeStatic | InvokeSpecial | NewInvokeSpecial | InvokeInterface
  deriving DecidableEq, Repr

/-- main.rs `impl TryFrom<u8> for ReferenceKind`. -/
def ReferenceKind.try_from (v : Nat) : Option ReferenceKind :=
  match v with
  | 1 => some .GetField
  | 2 => some .GetStatic
  | 3 => some .PutField
  | 4 => some .PutStatic
  | 5 => some .InvokeVirtual
  | 6 => some .InvokeStatic
  | 7 => some .InvokeSpecial
  | 8 => some .NewInvokeSpecial
  | 9 => some .InvokeInterface
  | _ => none

/-- main.rs `impl Into<u8> for ReferenceKind` (`self as u8`). -/
def ReferenceKind.toU8 : ReferenceKind → Nat
  | .GetField => 1
  | .GetStatic => 2
  | .PutField => 3
  | .PutStatic => 4
  | .InvokeVirtual => 5
  | .InvokeStatic => 6
  | .InvokeSpecial => 7
  | .NewInvokeSpecial => 8
  | .InvokeInterface => 9

/-- main.rs `impl Deserialize for ReferenceKind`. -/
def ReferenceKind.deserialize (s : List Nat) : Except DecErr (ReferenceKind × List Nat) :=
  match read_u8 s with
  | .error e => .error e
  | .ok (v, s) =>
    match ReferenceKind.try_from v with
    | some k => .ok (k, s)
    | none => .error (.msg "Error when trying to convert u8 to ReferenceKind")

/-- main.rs `impl Deserialize for CPIndex`: a 16-bit constant-pool index, value 0
refused (`TryFrom<u16> for CPIndex`). A `CPIndex` is kept as its `Nat` value. -/
def CPIndex.deserialize (s : List Nat) : Except DecErr (Nat × List Nat) :=
  match read_u16 s with
  | .error e => .error e
  | .ok (v, s) =>
    if v = 0 then
      .error (.msg "Error when trying to convert u16 to CPIndex (value is 0).")
    else .ok (v, s)

/-- The UTF-8 encoding of U+FFFD, the replacement character. -/
def replacementChar : List Nat := [239, 191, 189]

/-- Worker for `utf8_lossy`, structurally recursive on a fuel argument so that it
reduces in the kernel; one unit of fuel is spent per decoded scalar or
replacement, and consuming at least one byte each step means fuel equal to the
list length always suffices. -/
def utf8_lossy_fuel : Nat → List Nat → List Nat
  | 0, _ => []
  | _ + 1, [] => []
  | f + 1, b :: r =>
    if b < 128 then b :: utf8_lossy_fuel f r
    else if b < 194 then replacementChar ++ utf8_lossy_fuel f r
    else if b ≤ 223 then
      -- two-byte sequence: continuation 80..BF
      match r with
      | b1 :: r1 =>
        if 128 ≤ b1 ∧ b1 ≤ 191 then b :: b1 :: utf8_lossy_fuel f r1
        else replacementChar ++ utf8_lossy_fuel f r
      | [] => replacementChar ++ utf8_lossy_fuel f r
    else if b ≤ 239 then
      -- three-byte sequence: first continuation range depends on the lead
      match r with
      | b1 :: r1 =>
        if (if b = 224 then 160 ≤ b1 ∧ b1 ≤ 191
            else if b = 237 then 128 ≤ b1 ∧ b1 ≤ 159
            else 128 ≤ b1 ∧ b1 ≤ 191) then
          match r1 with
          | b2 :: r2 =>
            if 128 ≤ b2 ∧ b2 ≤ 191 then b :: b1 :: b2 :: utf8_lossy_fuel f r2
            else replacementChar ++ utf8_lossy_fuel f r1
          | [] => replacementChar ++ utf8_lossy_fuel f r1
        else replacementChar ++ utf8_lossy_fuel f r
      | [] => replacementChar ++ utf8_lossy_fuel f r
    else if b ≤ 244 then
      -- four-byte sequence
      match r with
      | b1 :: r1 =>
        if (if b = 240 then 144 ≤ b1 ∧ b1 ≤ 191
            else if b = 244 then 128 ≤ b1 ∧ b1 ≤ 143
            else 128 ≤ b1 ∧ b1 ≤ 191) then
          match r1 with
          | b2 :: r2 =>
            if 128 ≤ b2 ∧ b2 ≤ 191 then
              match r2 with
              | b3 :: r3 =>
                if 128 ≤ b3 ∧ b3 ≤ 191 then b :: b1 :: b2 :: b3 :: utf8_lossy_fuel f r3
                else replacementChar ++ utf8_lossy_fuel f r2
              | [] => replacementChar ++ utf8_lossy_fuel f r2
            else replacementChar ++ utf8_lossy_fuel f r1
          | [] => replacementChar ++ utf8_lossy_fuel f r1
        else replacementChar ++ utf8_lossy_fuel f r
      | [] => replacementChar ++ utf8_lossy_fuel f r
    else replacementChar ++ utf8_lossy_fuel f r

/-- `String::from_utf8_lossy`, on UTF-8 byte lists: valid scalar sequences are
copied, and each maximal subpart of an ill-formed sequence is replaced by one
U+FFFD (the substitution Rust's validator performs: an invalid lead byte or an
invalid first continuation costs one byte, a failure after a valid prefix of a
3- or 4-byte sequence consumes that prefix). -/
def utf8_lossy (l : List Nat) : List Nat := utf8_lossy_fuel l.length l

/-- main.rs `ConstantPoolEntry`: the closed 12-variant union of pool constants.
`CPIndex` fields are their `Nat` values; `Integer`/`Float`/`Long`/`Double` hold
their big-endian bit patterns; `Utf8` holds the string's UTF-8 byte list. -/
inductive ConstantPoolEntry where
  | Class (name_index : Nat)
  | FieldRef (class_index : Nat) (name_and_type_index : Nat)
  | MethodRef (class_index : Nat) (name_and_type_index : Nat)
  | InterfaceMethodRef (class_index : Nat) (name_and_type_index : Nat)
  | String (string_index : Nat)
  | Integer (v : Nat)
  | Float (v : Nat)
  | Long (v : Nat)
  | Double (v : Nat)
  | NameAndType (name_index : Nat) (descriptor_index : Nat)
  | Utf8 (s : List Nat)
  | MethodHandle (reference_kind : ReferenceKind) (reference_index : Nat)
  | MethodType (descriptor_index : Nat)
  | InvokeDynamic (bootstrap_method_attr_index : Nat) (name_and_type_index : Nat)
  deriving DecidableEq, Repr

/-- main.rs `ConstantPoolEntry::size` (line 148): the index width of an entry,
2 for Long/Double and 1 for everything else. -/
def ConstantPoolEntry.size : ConstantPoolEntry → Nat
  | .Long _ | .Double _ => 2
  | _ => 1

/-- main.rs / deserialization.rs `impl Deserialize for ConstantPoolEntry`:
dispatch on the leading tag byte; an unknown tag is a fatal error. -/
def ConstantPoolEntry.deserialize (s : List Nat) :
    Except DecErr (ConstantPoolEntry × List Nat) := do
  let (tag, s) ← read_u8 s
  match tag with
  | 7 => do
    let (name_index, s) ← CPIndex.deserialize s
    .ok (.Class name_index, s)
  | 9 => do
    let (class_index, s) ← CPIndex.deserialize s
    let (name_and_type_index, s) ← CPIndex.deserialize s
    .ok (.FieldRef class_index name_and_type_index, s)
  | 10 => do
    let (class_index, s) ← CPIndex.deserialize s
    let (name_and_type_index, s) ← CPIndex.deserialize s
    .ok (.MethodRef class_index name_and_type_index, s)
  | 11 => do
    let (class_index, s) ← CPIndex.deserialize s
    let (name_and_type_index, s) ← CPIndex.deserialize s
    .ok (.InterfaceMethodRef class_index name_and_type_index, s)
  | 8 => do
    let (string_index, s) ← CPIndex.deserialize s
    .ok (.String string_index, s)
  | 3 => do
    let (v, s) ← read_i32 s
    .ok (.Integer v, s)
  | 4 => do
    let (v, s) ← read_f32 s
    .ok (.Float v, s)
  | 5 => do
    let (v, s) ← read_i64 s
    .ok (.Long v, s)
  | 6 => do
    let (v, s) ← read_f64 s
    .ok (.Double v, s)
  | 12 => do
    let (name_index, s) ← CPIndex.deserialize s
    let (descriptor_index, s) ← CPIndex.deserialize s
    .ok (.NameAndType name_index descriptor_index, s)
  | 1 => do
    let (length, s) ← read_u16 s
    let (buf, s) ← read_bytes s length
    .ok (.Utf8 (utf8_lossy buf), s)
  | 15 => do
    let (reference_kind, s) ← ReferenceKind.deserialize s
    let (reference_index, s) ← CPIndex.deserialize s
    .ok (.MethodHandle reference_kind reference_index, s)
  | 16 => do
    let (descriptor_index, s) ← CPIndex.deserialize s
    .ok (.MethodType descriptor_index, s)
  | 18 => do
    let (bootstrap_method_attr_index, s) ← read_u16 s
    let (name_and_type_index, s) ← CPIndex.deserialize s
    .ok (.InvokeDynamic bootstrap_method_attr_index name_and_type_index, s)
  | _ => .error (.msg "Unkown tag on ConstantPoolEntry")

/-- serialization.rs `impl Serialize for ConstantPoolEntry`: the tag byte then the
payload.  The Utf8 payload writes `s.len() as u16` (the 16-bit cast is inside
`u16_be`) followed by the raw string bytes. -/
def ConstantPoolEntry.serialize : ConstantPoolEntry → List Nat
  | .Class name_index => 7 :: u16_be name_index
  | .FieldRef ci nti => 9 :: (u16_be ci ++ u16_be nti)
  | .MethodRef ci nti => 10 :: (u16_be ci ++ u16_be nti)
  | .InterfaceMethodRef ci nti => 11 :: (u16_be ci ++ u16_be nti)
  | .String string_index => 8 :: u16_be string_index
  | .Integer v => 3 :: u32_be v
  | .Float v => 4 :: u32_be v
  | .Long v => 5 :: u64_be v
  | .Double v => 6 :: u64_be v
  | .NameAndType ni di => 12 :: (u16_be ni ++ u16_be di)
  | .Utf8 s => 1 :: (u16_be s.length ++ s)
  | .MethodHandle k ri => 15 :: (k.toU8 :: u16_be ri)
  | .MethodType di => 16 :: u16_be di
  | .InvokeDynamic bmai nti => 18 :: (u16_be bmai ++ u16_be nti)

/-- main.rs `ConstantPool`: the `HashMap<CPIndex, ConstantPoolEntry>` is modeled
as the association list of its (key, entry) pairs in insertion order; the decoder
inserts strictly increasing fresh keys, so keys never repeat and `List.lookup`
is exactly `HashMap::get`. -/
abbrev ConstantPool := List (Nat × ConstantPoolEntry)

/-- The decode loop of `impl Deserialize for ConstantPool` (deserialization.rs
line 173): while `index < count`, decode an entry, insert it at `index`, and
advance `index` by the entry's width.  `index` is a Rust `u16`: the increment is
taken mod 2^16 (release-mode wrapping), and the only wrapped value reachable is
0, where `index.try_into().unwrap()` panics on the `CPIndex(0)` conversion.  The
structural fuel (first argument) is `count + 1`, which the loop can never
exhaust; running out is modeled as a panic. -/
def ConstantPool.entries_loop :
    Nat → Nat → Nat → List Nat → Except DecErr (ConstantPool × List Nat)
  | 0, _, _, _ => .error .panic
  | f + 1, count, index, s =>
    if index < count then
      match ConstantPoolEntry.deserialize s with
      | .error e => .error e
      | .ok (entry, s) =>
        if index = 0 then .error .panic
        else
          match ConstantPool.entries_loop f count ((index + entry.size) % 65536) s with
          | .error e => .error e
          | .ok (rest, s) => .ok ((index, entry) :: rest, s)
    else .ok ([], s)

/-- deserialization.rs `impl Deserialize for ConstantPool`: read the 16-bit
count, then run the entry loop from index 1. -/
def ConstantPool.deserialize (s : List Nat) : Except DecErr (ConstantPool × List Nat) := do
  let (count, s) ← read_u16 s
  ConstantPool.entries_loop (count + 1) count 1 s

/-- Modelled from the spec: `ConstantPool::size`, called by
`impl Serialize for ConstantPool` (serialization.rs line 176) but defined in a
part of main.rs that is not present under src/.  Spec 4.2: "emit the total
width-weighted count (sum of each entry's width, plus 1 for the 1-based offset)
as a 16-bit count". -/
def ConstantPool.size (cp : ConstantPool) : Nat :=
  (cp.map fun p => p.2.size).sum + 1

/-- serialization.rs `impl Serialize for ConstantPool`: write the width-weighted
count, then the entries sorted by ascending index (`sort_by` on the key is the
stable insertion sort). -/
def ConstantPool.serialize (cp : ConstantPool) : List Nat :=
  u16_be (ConstantPool.size cp) ++
    ((List.insertionSort (fun p q => p.1 ≤ q.1) cp).flatMap fun p => p.2.serialize)

/-- main.rs `AccessFlags`: the known flag constants together cover exactly the
contiguous bit mask 0x7FFF, so `AccessFlags::from_bits` on a `u16` succeeds
precisely when the value is below 0x8000.  A flags value is kept as its `Nat`
bit pattern. -/
def AccessFlags.deserialize (s : List Nat) : Except DecErr (Nat × List Nat) :=
  match read_u16 s with
  | .error e => .error e
  | .ok (v, s) =>
    if v < 32768 then .ok (v, s)
    else .error (.msg "Error when trying to convert u16 to AccessFlags")

/-- deserialization.rs `impl<T> Deserialize for Vec<T>` body after the count read
(also main.rs `deserialize_vec`): decode `count` elements in order. -/
def deserialize_vec (d : List Nat → Except DecErr (α × List Nat)) :
    Nat → List Nat → Except DecErr (List α × List Nat)
  | 0, s => .ok ([], s)
  | n + 1, s => do
    let (x, s) ← d s
    let (xs, s) ← deserialize_vec d n s
    .ok (x :: xs, s)

/-- deserialization.rs `impl<T> Deserialize for Vec<T>`: a 16-bit count then that
many elements. -/
def Vec.deserialize (d : List Nat → Except DecErr (α × List Nat)) (s : List Nat) :
    Except DecErr (List α × List Nat) := do
  let (count, s) ← read_u16 s
  deserialize_vec d count s

/-- serialization.rs `impl<T> Serialize for Vec<T>`: the element count cast
`as u16`, then each element in order. -/
def serialize_vec (ser : α → List Nat) (l : List α) : List Nat :=
  u16_be l.length ++ l.flatMap ser

/-- main.rs `ExceptionTableEntry`.  The Rust field `end` is `end_` here (`end` is
a Lean keyword). -/
structure ExceptionTableEntry where
  start : Nat
  end_ : Nat
  handler : Nat
  catch_type : Nat
  deriving DecidableEq, Repr

/-- deserialization.rs `impl Deserialize for ExceptionTableEntry`: three raw
code offsets, then `catch_type` through `CPIndex::deserialize` (which rejects
0). -/
def ExceptionTableEntry.deserialize (s : List Nat) :
    Except DecErr (ExceptionTableEntry × List Nat) := do
  let (start, s) ← read_u16 s
  let (end_, s) ← read_u16 s
  let (handler, s) ← read_u16 s
  let (catch_type, s) ← CPIndex.deserialize s
  .ok (⟨start, end_, handler, catch_type⟩, s)

/-- serialization.rs `impl Serialize for ExceptionTableEntry`. -/
def ExceptionTableEntry.serialize (e : ExceptionTableEntry) : List Nat :=
  u16_be e.start ++ u16_be e.end_ ++ u16_be e.handler ++ u16_be e.catch_type

/-- main.rs `CodeByte` is a newtype over `u8`; its codec moves one byte. -/
def CodeByte.deserialize (s : List Nat) : Except DecErr (Nat × List Nat) :=
  read_u8 s

/-- main.rs `AttributeInfo`: the two-phase attribute payload — an opaque blob
(`Any`) before resolution, or one of the three typed kinds after.  A nested
`Attribute` is its `(name_index, info)` pair. -/
inductive AttributeInfo where
  | Any (b : List Nat)
  | ConstantValue (index : Nat)
  | Code (max_stack : Nat) (max_locals : Nat) (code : List Nat)
      (exception_table : List ExceptionTableEntry)
      (attributes : List (Nat × AttributeInfo))
  | Exceptions (exception_index_table : List Nat)

/-- main.rs `Attribute`: name index plus two-phase info payload. -/
abbrev Attribute := Nat × AttributeInfo

/-- deserialization.rs `impl Deserialize for AttributeInfo`: a 32-bit size then
that many opaque bytes. -/
def AttributeInfo.deserialize (s : List Nat) : Except DecErr (AttributeInfo × List Nat) := do
  let (size, s) ← read_u32 s
  let (buf, s) ← read_bytes s size
  .ok (.Any buf, s)

/-- deserialization.rs `impl Deserialize for Attribute`. -/
def Attribute.deserialize (s : List Nat) : Except DecErr (Attribute × List Nat) := do
  let (name_index, s) ← CPIndex.deserialize s
  let (info, s) ← AttributeInfo.deserialize s
  .ok ((name_index, info), s)

mutual

/-- serialization.rs `impl Serialize for AttributeInfo`: an unresolved blob is
written verbatim; `Code` rewrites `max_stack`, `max_locals`, the 32-bit code
length and code bytes, the exception table, and the nested attribute vector. -/
def AttributeInfo.serialize : AttributeInfo → List Nat
  | .Any b => b
  | .Code ms ml code et attrs =>
    u16_be ms ++ (u16_be ml ++ (u32_be code.length ++ (code ++
      (serialize_vec ExceptionTableEntry.serialize et ++
        (u16_be attrs.length ++ serialize_attr_list attrs)))))
  | .Exceptions t => u16_be t.length ++ t.flatMap u16_be
  | .ConstantValue i => u16_be i

/-- serialization.rs `impl Serialize for Attribute`: serialize the info into a
scratch buffer, then write the name index, the buffer's length as a u32, and the
buffer. -/
def Attribute.serialize : Attribute → List Nat
  | (ni, info) => u16_be ni ++ (u32_be (AttributeInfo.serialize info).length ++
      AttributeInfo.serialize info)

/-- Element walk of `Vec<Attribute>::serialize` (the count prefix is written by
the caller). -/
def serialize_attr_list : List (Nat × AttributeInfo) → List Nat
  | [] => []
  | a :: r => Attribute.serialize a ++ serialize_attr_list r

end

/-- main.rs `Field`. -/
structure Field where
  access_flags : Nat
  name_index : Nat
  descriptor_index : Nat
  attributes : List Attribute

/-- main.rs `Method` (same shape as `Field`, a distinct type in the source). -/
structure Method where
  access_flags : Nat
  name_index : Nat
  descriptor_index : Nat
  attributes : List Attribute

/-- deserialization.rs `impl Deserialize for Field`. -/
def Field.deserialize (s : List Nat) : Except DecErr (Field × List Nat) := do
  let (access_flags, s) ← AccessFlags.deserialize s
  let (name_index, s) ← CPIndex.deserialize s
  let (descriptor_index, s) ← CPIndex.deserialize s
  let (attributes, s) ← Vec.deserialize Attribute.deserialize s
  .ok (⟨access_flags, name_index, descriptor_index, attributes⟩, s)

/-- deserialization.rs `impl Deserialize for Method`. -/
def Method.deserialize (s : List Nat) : Except DecErr (Method × List Nat) := do
  let (access_flags, s) ← AccessFlags.deserialize s
  let (name_index, s) ← CPIndex.deserialize s
  let (descriptor_index, s) ← CPIndex.deserialize s
  let (attributes, s) ← Vec.deserialize Attribute.deserialize s
  .ok (⟨access_flags, name_index, descriptor_index, attributes⟩, s)

/-- serialization.rs `impl Serialize for Field`. -/
def Field.serialize (f : Field) : List Nat :=
  u16_be f.access_flags ++ u16_be f.name_index ++ u16_be f.descriptor_index ++
    serialize_vec Attribute.serialize f.attributes

/-- serialization.rs `impl Serialize for Method`. -/
def Method.serialize (m : Method) : List Nat :=
  u16_be m.access_flags ++ u16_be m.name_index ++ u16_be m.descriptor_index ++
    serialize_vec Attribute.serialize m.attributes

/-- The UTF-8 bytes of "ConstantValue". -/
def constantValueName : List Nat := [67, 111, 110, 115, 116, 97, 110, 116, 86, 97, 108, 117, 101]

/-- The UTF-8 bytes of "Code". -/
def codeName : List Nat := [67, 111, 100, 101]

/-- The UTF-8 bytes of "Exceptions". -/
def exceptionsName : List Nat := [69, 120, 99, 101, 112, 116, 105, 111, 110, 115]

/-- The `for a in attributes.iter_mut() { let _ = a.resolve(cp); }` pattern: run
the resolver on each attribute in order; a resolution `io::Error` is swallowed
(the attribute is kept unchanged), while a panic unwinds. -/
def resolve_each (res : Attribute → Except DecErr Attribute) :
    List Attribute → Except DecErr (List Attribute)
  | [] => .ok []
  | a :: r =>
    match res a with
    | .ok a2 => (resolve_each res r).map fun l => a2 :: l
    | .error (.msg _) => (resolve_each res r).map fun l => a :: l
    | .error .panic => .error .panic

/-- The name-dispatched body re-decode of main.rs `Attribute::resolve` (the
`match name.as_str()` expression, line 463), abstracted over the resolver used
for a `Code` attribute's nested attribute list (in the source that resolver is
the recursive `a.resolve(cp)` itself). -/
def Attribute.resolve_body (resolver : Attribute → Except DecErr Attribute)
    (name : List Nat) (bytes : List Nat) : Except DecErr AttributeInfo :=
  if name = constantValueName then
    match CPIndex.deserialize bytes with
    | .error e => .error e
    | .ok (index, _) => .ok (.ConstantValue index)
  else if name = codeName then do
    let (max_stack, s) ← read_u16 bytes
    let (max_locals, s) ← read_u16 s
    let (code_length, s) ← read_u32 s
    let (code, s) ← deserialize_vec CodeByte.deserialize code_length s
    let (exception_table, s) ← Vec.deserialize ExceptionTableEntry.deserialize s
    let (attributes, _) ← Vec.deserialize Attribute.deserialize s
    let attributes ← resolve_each resolver attributes
    .ok (.Code max_stack max_locals code exception_table attributes)
  else if name = exceptionsName then
    match Vec.deserialize CPIndex.deserialize bytes with
    | .error e => .error e
    | .ok (exception_index_table, _) => .ok (.Exceptions exception_index_table)
  else .error (.msg "unkown attribute")

/-- main.rs `Attribute::resolve` (line 456), structurally recursive on a fuel
argument so that it reduces in the kernel.  An `Any` payload is re-read from a
fresh cursor over the blob: the name index is looked up through the panicking
`Index` impl (`self.inner.get(&index).unwrap()`, main.rs line 286), so a missing
key is a panic; a non-Utf8 entry or an unknown name string is an `io::Error`;
a recognized kind re-decodes its body via `resolve_body`, with `Code` resolving
its nested attributes recursively.  Fuel `blob length + 1` always suffices (each
recursion level strictly shrinks the blob, see `resolve_fuel_congr`); exhaustion
is modeled as a panic. -/
def Attribute.resolve_fuel : Nat → ConstantPool → Attribute → Except DecErr Attribute
  | 0, _, _ => .error .panic
  | f + 1, cp, (ni, info) =>
    match info with
    | .Any a =>
      match cp.lookup ni with
      | some (.Utf8 name) =>
        match Attribute.resolve_body (fun a2 => Attribute.resolve_fuel f cp a2) name a with
        | .ok info2 => .ok (ni, info2)
        | .error e => .error e
      | some _ => .error (.msg "Error when trying to access Attribute name.")
      | none => .error .panic
    | _ => .ok (ni, info)

/-- Sufficient fuel for `Attribute.resolve_fuel` on one attribute. -/
def Attribute.fuel : Attribute → Nat
  | (_, .Any b) => b.length + 1
  | _ => 1

/-- main.rs `Attribute::resolve`: the fueled resolver at its sufficient fuel. -/
def Attribute.resolve (cp : ConstantPool) (a : Attribute) : Except DecErr Attribute :=
  Attribute.resolve_fuel (Attribute.fuel a) cp a

/-- The field loop of `JavaClass::deserialize`: resolve every attribute of every
field (errors swallowed per attribute). -/
def resolve_fields (cp : ConstantPool) : List Field → Except DecErr (List Field)
  | [] => .ok []
  | f :: r => do
    let attrs ← resolve_each (fun a => Attribute.resolve cp a) f.attributes
    let r2 ← resolve_fields cp r
    .ok ({ f with attributes := attrs } :: r2)

/-- The method loop of `JavaClass::deserialize`. -/
def resolve_methods (cp : ConstantPool) : List Method → Except DecErr (List Method)
  | [] => .ok []
  | m :: r => do
    let attrs ← resolve_each (fun a => Attribute.resolve cp a) m.attributes
    let r2 ← resolve_methods cp r
    .ok ({ m with attributes := attrs } :: r2)

/-- main.rs `JavaClass`.  `super_class` is the optional reference. -/
structure JavaClass where
  magic_bytes : Nat
  minor_version : Nat
  major_version : Nat
  constant_pool : ConstantPool
  access_flags : Nat
  this_class : Nat
  super_class : Option Nat
  interfaces : List Nat
  fields : List Field
  methods : List Method
  attributes : List Attribute

/-- The `let super_class = CPIndex::deserialize(bytes).ok()` step of
`JavaClass::deserialize`: any failure is absorbed into `None`.  The cursor
motion of the failed call persists: when the underlying `read_u16` succeeded
(the value was 0), its two bytes stay consumed; on truncation nothing was handed
out. -/
def JavaClass.deserialize_super (s : List Nat) : Option Nat × List Nat :=
  match CPIndex.deserialize s with
  | .ok (v, s2) => (some v, s2)
  | .error _ =>
    match read_u16 s with
    | .ok (_, s2) => (none, s2)
    | .error _ => (none, s)

/-- deserialization.rs `impl Deserialize for JavaClass` (line 261): the fixed
top-down structural decode followed by the in-place resolution pass over field,
method, and class-level attributes. -/
def JavaClass.deserialize (s : List Nat) : Except DecErr (JavaClass × List Nat) := do
  let (magic_bytes, s) ← read_u32 s
  let (minor_version, s) ← read_u16 s
  let (major_version, s) ← read_u16 s
  let (constant_pool, s) ← ConstantPool.deserialize s
  let (access_flags, s) ← AccessFlags.deserialize s
  let (this_class, s) ← CPIndex.deserialize s
  let (super_class, s) := JavaClass.deserialize_super s
  let (interfaces, s) ← Vec.deserialize CPIndex.deserialize s
  let (fields, s) ← Vec.deserialize Field.deserialize s
  let (methods, s) ← Vec.deserialize Method.deserialize s
  let (attributes, s) ← Vec.deserialize Attribute.deserialize s
  let fields ← resolve_fields constant_pool fields
  let methods ← resolve_methods constant_pool methods
  let attributes ← resolve_each (fun a => Attribute.resolve constant_pool a) attributes
  .ok (⟨magic_bytes, minor_version, major_version, constant_pool, access_flags,
        this_class, super_class, interfaces, fields, methods, attributes⟩, s)

/-- The structural phase of `JavaClass::deserialize` alone (everything before the
`// resolve the attributes` comment): a specification-side decoder used to state
that the resolution pass never fails the decode. -/
def JavaClass.deserialize_struct (s : List Nat) : Except DecErr (JavaClass × List Nat) := do
  let (magic_bytes, s) ← read_u32 s
  let (minor_version, s) ← read_u16 s
  let (major_version, s) ← read_u16 s
  let (constant_pool, s) ← ConstantPool.deserialize s
  let (access_flags, s) ← AccessFlags.deserialize s
  let (this_class, s) ← CPIndex.deserialize s
  let (super_class, s) := JavaClass.deserialize_super s
  let (interfaces, s) ← Vec.deserialize CPIndex.deserialize s
  let (fields, s) ← Vec.deserialize Field.deserialize s
  let (methods, s) ← Vec.deserialize Method.deserialize s
  let (attributes, s) ← Vec.deserialize Attribute.deserialize s
  .ok (⟨magic_bytes, minor_version, major_version, constant_pool, access_flags,
        this_class, super_class, interfaces, fields, methods, attributes⟩, s)

/-- serialization.rs `impl Serialize for JavaClass` (line 266): the mirrored
writer; an absent super class writes `CPIndex(0)` (`unwrap_or`). -/
def JavaClass.serialize (c : JavaClass) : List Nat :=
  u32_be c.magic_bytes ++ u16_be c.minor_version ++ u16_be c.major_version ++
    ConstantPool.serialize c.constant_pool ++ u16_be c.access_flags ++
    u16_be c.this_class ++ u16_be (c.super_class.getD 0) ++
    serialize_vec u16_be c.interfaces ++ serialize_vec Field.serialize c.fields ++
    serialize_vec Method.serialize c.methods ++
    serialize_vec Attribute.serialize c.attributes

/-- A genuine byte stream: every cell is a `u8` value. -/
abbrev ByteStream (s : List Nat) : Prop := ∀ b ∈ s, b < 256

/-- The successive pool keys produced by the decode loop when it starts at
index `i`: each entry sits at the running index and advances it by its width. -/
def pool_shape : Nat → ConstantPool → Prop
  | _, [] => True
  | i, (j, e) :: rest => j = i ∧ pool_shape (i + ConstantPoolEntry.size e) rest

/-- The index at which the decode loop stands after the listed entries. -/
def pool_final : Nat → ConstantPool → Nat
  | i, [] => i
  | i, (_, e) :: rest => pool_final (i + ConstantPoolEntry.size e) rest

/-! ### Byte-primitive lemmas -/

theorem read_bytes_append (l t : List Nat) : read_bytes (l ++ t) l.length = .ok (l, t) := by
  simp [read_bytes]

theorem be_val_pair (a b : Nat) : be_val [a, b] = 256 * a + b := by
  simp [be_val, List.foldl]

theorem read_u16_u16_be (n : Nat) (t : List Nat) :
    read_u16 (u16_be n ++ t) = .ok (n % 65536, t) := by
  have h := read_bytes_append (u16_be n) t
  simp only [u16_be, List.length_cons, List.length_nil] at h
  simp only [read_u16, u16_be] at *
  rw [h]
  simp only [Except.map, be_val_pair]
  congr 2
  omega

theorem read_u16_u16_be_lt {n : Nat} (hn : n < 65536) (t : List Nat) :
    read_u16 (u16_be n ++ t) = .ok (n, t) := by
  rw [read_u16_u16_be, Nat.mod_eq_of_lt hn]

theorem read_u8_cons (b : Nat) (t : List Nat) : read_u8 (b :: t) = .ok (b, t) := by
  simp [read_u8, read_bytes, be_val, Except.map]

theorem be_val_quad (a b c d : Nat) :
    be_val [a, b, c, d] = 16777216 * a + 65536 * b + 256 * c + d := by
  simp [be_val, List.foldl]; ring

theorem read_u32_u32_be (n : Nat) (t : List Nat) :
    read_u32 (u32_be n ++ t) = .ok (n % 4294967296, t) := by
  have h := read_bytes_append (u32_be n) t
  simp only [u32_be, List.length_cons, List.length_nil] at h
  simp only [read_u32, u32_be] at *
  rw [h]
  simp only [Except.map, be_val_quad]
  congr 2
  omega

theorem read_u32_u32_be_lt {n : Nat} (hn : n < 4294967296) (t : List Nat) :
    read_u32 (u32_be n ++ t) = .ok (n, t) := by
  rw [read_u32_u32_be, Nat.mod_eq_of_lt hn]

theorem be_val_oct (a b c d e f g h : Nat) :
    be_val [a, b, c, d, e, f, g, h] =
      72057594037927936 * a + 281474976710656 * b + 1099511627776 * c +
      4294967296 * d + 16777216 * e + 65536 * f + 256 * g + h := by
  simp [be_val, List.foldl]; ring

theorem read_u64_u64_be (n : Nat) (t : List Nat) :
    read_i64 (u64_be n ++ t) = .ok (n % 18446744073709551616, t) := by
  have h := read_bytes_append (u64_be n) t
  simp only [u64_be, List.length_cons, List.length_nil] at h
  simp only [read_i64, u64_be] at *
  rw [h]
  simp only [Except.map, be_val_oct]
  congr 2
  omega

theorem read_u64_u64_be_lt {n : Nat} (hn : n < 18446744073709551616) (t : List Nat) :
    read_i64 (u64_be n ++ t) = .ok (n, t) := by
  rw [read_u64_u64_be, Nat.mod_eq_of_lt hn]

/-! ### Byte-stream bookkeeping -/

theorem ByteStream.take {s : List Nat} (h : ByteStream s) (n : Nat) :
    ByteStream (s.take n) := fun b hb => h b (List.take_subset n s hb)

theorem ByteStream.drop {s : List Nat} (h : ByteStream s) (n : Nat) :
    ByteStream (s.drop n) := fun b hb => h b (List.drop_subset n s hb)

theorem ByteStream.append_iff {s t : List Nat} :
    ByteStream (s ++ t) ↔ ByteStream s ∧ ByteStream t := by
  constructor
  · exact fun h => ⟨fun b hb => h b (List.mem_append_left _ hb),
      fun b hb => h b (List.mem_append_right _ hb)⟩
  · rintro ⟨h1, h2⟩ b hb
    rcases List.mem_append.1 hb with hb | hb
    · exact h1 b hb
    · exact h2 b hb

theorem be_val_lt {s : List Nat} (h : ByteStream s) : be_val s < 256 ^ s.length := by
  suffices H : ∀ acc, List.foldl (fun a b => 256 * a + b) acc s < (acc + 1) * 256 ^ s.length by
    have := H 0
    simpa [be_val] using this
  induction s with
  | nil => intro acc; simp
  | cons b r ih =>
    intro acc
    have hb : b < 256 := h b (List.mem_cons_self _ _)
    have hr : ByteStream r := fun x hx => h x (List.mem_cons_of_mem _ hx)
    have := (ih hr) (256 * acc + b)
    simp only [List.foldl_cons, List.length_cons]
    calc List.foldl (fun a b => 256 * a + b) (256 * acc + b) r
        < (256 * acc + b + 1) * 256 ^ r.length := this
      _ ≤ (acc + 1) * 256 ^ (r.length + 1) := by
          rw [pow_succ]
          nlinarith [Nat.pos_pow_of_pos r.length (show 0 < 256 by norm_num)]

theorem read_bytes_ok_of {s l r : List Nat} {n : Nat}
    (h : read_bytes s n = .ok (l, r)) :
    l = s.take n ∧ r = s.drop n ∧ l.length = n ∧ n ≤ s.length := by
  by_cases hn : n ≤ s.length
  · simp only [read_bytes, if_pos hn, Except.ok.injEq, Prod.mk.injEq] at h
    obtain ⟨h1, h2⟩ := h
    subst h1
    subst h2
    exact ⟨rfl, rfl, by rw [List.length_take]; exact Nat.min_eq_left hn, hn⟩
  · simp [read_bytes, if_neg hn] at h

theorem read_u16_ok_of {s r : List Nat} {v : Nat}
    (h : read_u16 s = .ok (v, r)) (hs : ByteStream s) :
    v < 65536 ∧ ByteStream r ∧ r = s.drop 2 := by
  simp only [read_u16] at h
  cases hrb : read_bytes s 2 with
  | error e => rw [hrb] at h; simp [Except.map] at h
  | ok p =>
    rw [hrb] at h
    simp only [Except.map, Except.ok.injEq, Prod.mk.injEq] at h
    obtain ⟨hl, hr, hlen, _⟩ := read_bytes_ok_of hrb
    have hbs : ByteStream p.1 := hl ▸ hs.take 2
    have := be_val_lt hbs
    rw [hlen] at this
    exact ⟨h.1 ▸ (by norm_num at this ⊢; exact this), h.2 ▸ hr ▸ hs.drop 2, h.2 ▸ hr⟩

/-! ### Constant-pool decode-loop invariants -/

theorem except_bind_ok {α β : Type} (x : α) (f : α → Except DecErr β) :
    ((Except.ok x : Except DecErr α) >>= f) = f x := rfl

theorem except_bind_error {α β : Type} (e : DecErr) (f : α → Except DecErr β) :
    ((Except.error e : Except DecErr α) >>= f) = .error e := rfl

/-- Reaching index 0 (a wrapped `u16` counter) while the loop is still running
never yields a result: the `CPIndex(0)` insert panics, and any entry-decode
failure before it propagates. -/
theorem entries_loop_zero_not_ok {f count : Nat} {s : List Nat} (h0 : 0 < count)
    {pool : ConstantPool} {r : List Nat} :
    ConstantPool.entries_loop f count 0 s ≠ .ok (pool, r) := by
  intro h
  cases f with
  | zero => simp [ConstantPool.entries_loop] at h
  | succ f =>
    simp only [ConstantPool.entries_loop, if_pos h0] at h
    cases hde : ConstantPoolEntry.deserialize s with
    | error e => rw [hde] at h; simp at h
    | ok p => rw [hde] at h; simp at h

/-- Main invariant of the pool decode loop: a successful run records entries at
the running index, advancing by each entry's width with no wrap, stops at an
index at or past `count`, and every key lies in `[index, count)`. -/
theorem entries_loop_ok {fuel count index : Nat} {s : List Nat} {pool : ConstantPool}
    {r : List Nat} (hcount : count < 65536) (hidx : 1 ≤ index) (hub : index < 65536)
    (h : ConstantPool.entries_loop fuel count index s = .ok (pool, r)) :
    pool_shape index pool ∧ pool_final index pool < 65536 ∧
      count ≤ pool_final index pool ∧ ∀ p ∈ pool, index ≤ p.1 ∧ p.1 < count := by
  induction fuel generalizing index s pool r with
  | zero => simp [ConstantPool.entries_loop] at h
  | succ f ih =>
    by_cases hlt : index < count
    · simp only [ConstantPool.entries_loop, if_pos hlt] at h
      cases hde : ConstantPoolEntry.deserialize s with
      | error e => rw [hde] at h; simp at h
      | ok p =>
        obtain ⟨entry, s1⟩ := p
        rw [hde] at h
        have hidx0 : ¬(index = 0) := by omega
        simp only [if_neg hidx0] at h
        by_cases hw : index + entry.size < 65536
        · rw [Nat.mod_eq_of_lt hw] at h
          cases hrec : ConstantPool.entries_loop f count (index + entry.size) s1 with
          | error e => rw [hrec] at h; simp at h
          | ok q =>
            obtain ⟨rest, r1⟩ := q
            rw [hrec] at h
            simp only [Except.ok.injEq, Prod.mk.injEq] at h
            obtain ⟨hpool, hr⟩ := h
            have hsz : 1 ≤ entry.size := by
              cases entry <;> simp [ConstantPoolEntry.size]
            obtain ⟨sh, fin, cnt, mem⟩ := ih (by omega) hw hrec
            subst hpool
            refine ⟨⟨rfl, sh⟩, ?_, ?_, ?_⟩
            · simpa [pool_final] using fin
            · simpa [pool_final] using cnt
            · intro q hqmem
              rcases List.mem_cons.mp hqmem with hq | hq
              · simp [hq]
                omega
              · have := mem q hq
                exact ⟨by omega, this.2⟩
        · -- the increment wrapped to 0: the next loop step cannot succeed
          have hsz2 : entry.size ≤ 2 := by
            cases entry <;> simp [ConstantPoolEntry.size]
          have h0 : (index + entry.size) % 65536 = 0 := by omega
          rw [h0] at h
          cases hrec : ConstantPool.entries_loop f count 0 s1 with
          | error e => rw [hrec] at h; simp at h
          | ok q =>
            exact absurd hrec (entries_loop_zero_not_ok (by omega))
    · simp only [ConstantPool.entries_loop, if_neg hlt, Except.ok.injEq,
        Prod.mk.injEq] at h
      obtain ⟨hpool, hr⟩ := h
      subst hpool
      exact ⟨trivial, by simpa [pool_final] using hub, by simp [pool_final]; omega,
        by simp⟩

theorem pool_shape_mem_ge {i : Nat} {l : ConstantPool} (h : pool_shape i l) :
    ∀ p ∈ l, i ≤ p.1 := by
  induction l generalizing i with
  | nil => simp
  | cons hd rest ih =>
    obtain ⟨j, e⟩ := hd
    obtain ⟨hj, hrest⟩ := h
    intro p hpmem
    rcases List.mem_cons.mp hpmem with hp | hp
    · simp [hp, hj]
    · have := ih hrest p hp
      have hsz : 1 ≤ ConstantPoolEntry.size e := by
        cases e <;> simp [ConstantPoolEntry.size]
      omega

theorem pool_shape_succ_not_mem {i : Nat} {l : ConstantPool} (h : pool_shape i l) :
    ∀ p ∈ l, p.2.size = 2 → ∀ q ∈ l, q.1 ≠ p.1 + 1 := by
  induction l generalizing i with
  | nil => simp
  | cons hd rest ih =>
    obtain ⟨j, e⟩ := hd
    obtain ⟨hj, hrest⟩ := h
    subst hj
    intro p hpmem hp2 q hqmem
    rcases List.mem_cons.mp hpmem with hp | hp <;>
      rcases List.mem_cons.mp hqmem with hq | hq
    · subst hp; subst hq; omega
    · subst hp
      have := pool_shape_mem_ge hrest q hq
      simp only at hp2
      rw [hp2] at this
      omega
    · subst hq
      have := pool_shape_mem_ge hrest p hp
      have hsz : 1 ≤ ConstantPoolEntry.size e := by
        cases e <;> simp [ConstantPoolEntry.size]
      simp only
      omega
    · exact ih hrest p hp hp2 q hq

theorem pool_shape_consecutive {i : Nat} {l : ConstantPool} (h : pool_shape i l) :
    ∀ k a b, l[k]? = some a → l[k + 1]? = some b → b.1 = a.1 + a.2.size := by
  induction l generalizing i with
  | nil => simp
  | cons hd rest ih =>
    obtain ⟨j, e⟩ := hd
    obtain ⟨hj, hrest⟩ := h
    subst hj
    intro k a b ha hb
    cases k with
    | zero =>
      simp only [List.getElem?_cons_zero, Option.some.injEq] at ha
      simp only [List.getElem?_cons_succ] at hb
      cases rest with
      | nil => simp at hb
      | cons c r2 =>
        simp only [List.getElem?_cons_zero, Option.some.injEq] at hb
        obtain ⟨hc, _⟩ := hrest
        subst ha
        subst hb
        simpa using hc
    | succ k2 =>
      simp only [List.getElem?_cons_succ] at ha hb
      exact ih hrest k2 a b ha hb

/-- C2 — Constant-pool width invariant: in any successfully decoded pool, a
Long/Double entry at index `i` leaves `i + 1` absent from the key set, and any
two consecutively decoded entries sit at indices that differ by exactly the
first entry's width (1 for every non-Long/Double variant), so those entries
occupy consecutive indices. -/
theorem constant_pool_width_invariant {s : List Nat} {pool : ConstantPool}
    {r : List Nat} (hs : ByteStream s)
    (h : ConstantPool.deserialize s = .ok (pool, r)) :
    (∀ p ∈ pool, p.2.size = 2 → ∀ q ∈ pool, q.1 ≠ p.1 + 1) ∧
    (∀ k a b, pool[k]? = some a → pool[k + 1]? = some b → b.1 = a.1 + a.2.size) := by
  simp only [ConstantPool.deserialize, bind, Except.bind] at h
  cases hcnt : read_u16 s with
  | error e => rw [hcnt] at h; simp at h
  | ok p =>
    obtain ⟨count, s1⟩ := p
    rw [hcnt] at h
    have hc : count < 65536 := (read_u16_ok_of hcnt hs).1
    have inv := entries_loop_ok hc (by norm_num) (by norm_num) h
    exact ⟨pool_shape_succ_not_mem inv.1, pool_shape_consecutive inv.1⟩

/-- Concrete input for the C2 witness: pool count 4, a Long at index 1 (width 2)
and an Integer at index 3. -/
def c2s : List Nat := [0, 4, 5, 0, 0, 0, 0, 0, 0, 0, 1, 3, 0, 0, 0, 2]

/-- The pool decoded from `c2s`. -/
def c2pool : ConstantPool := [(1, .Long 1), (3, .Integer 2)]

theorem constant_pool_width_invariant_witness :
    ConstantPool.deserialize c2s = .ok (c2pool, []) ∧
    ((∀ p ∈ c2pool, p.2.size = 2 → ∀ q ∈ c2pool, q.1 ≠ p.1 + 1) ∧
     (∀ k a b, c2pool[k]? = some a → c2pool[k + 1]? = some b →
       b.1 = a.1 + a.2.size)) :=
  ⟨rfl, @constant_pool_width_invariant c2s c2pool [] (by decide) rfl⟩

/-! ### C4: constant-pool encoding — count and entry order -/

/-- The key ordering used by `ConstantPool::serialize` (`sort_by` on `CPIndex`). -/
theorem cp_sort_total :
    IsTotal (Nat × ConstantPoolEntry) (fun p q => p.1 ≤ q.1) :=
  ⟨fun a b => Nat.le_total a.1 b.1⟩

theorem cp_sort_trans :
    IsTrans (Nat × ConstantPoolEntry) (fun p q => p.1 ≤ q.1) :=
  ⟨fun _ _ _ h1 h2 => Nat.le_trans h1 h2⟩

theorem cp_key_lt_antisymm :
    IsAntisymm (Nat × ConstantPoolEntry) (fun p q => p.1 < q.1) :=
  ⟨fun a b h1 h2 => absurd h2 (Nat.lt_asymm h1)⟩

/-- Under pairwise-distinct keys, the sorted form of a pool list is determined by
its contents alone: any two permutations of each other serialize identically. -/
theorem insertionSort_eq_of_perm {cp cp2 : ConstantPool} (hperm : cp.Perm cp2)
    (hnd : (cp.map Prod.fst).Nodup) :
    List.insertionSort (fun p q => p.1 ≤ q.1) cp =
      List.insertionSort (fun p q => p.1 ≤ q.1) cp2 := by
  haveI := cp_sort_total
  haveI := cp_sort_trans
  haveI := cp_key_lt_antisymm
  have hp1 := List.perm_insertionSort (fun p q : Nat × ConstantPoolEntry => p.1 ≤ q.1) cp
  have hp2 := List.perm_insertionSort (fun p q : Nat × ConstantPoolEntry => p.1 ≤ q.1) cp2
  have hs1 := List.sorted_insertionSort (fun p q : Nat × ConstantPoolEntry => p.1 ≤ q.1) cp
  have hs2 := List.sorted_insertionSort (fun p q : Nat × ConstantPoolEntry => p.1 ≤ q.1) cp2
  have hperm12 : (List.insertionSort (fun p q => p.1 ≤ q.1) cp).Perm
      (List.insertionSort (fun p q => p.1 ≤ q.1) cp2) :=
    (hp1.trans hperm).trans hp2.symm
  -- distinct keys upgrade the ≤ sortedness to strict sortedness
  have hnd1 : ((List.insertionSort (fun p q => p.1 ≤ q.1) cp).map Prod.fst).Nodup :=
    (hp1.map Prod.fst).nodup_iff.mpr hnd
  have hnd2 : ((List.insertionSort (fun p q => p.1 ≤ q.1) cp2).map Prod.fst).Nodup :=
    (hperm12.map Prod.fst).symm.nodup_iff.mpr hnd1
  have strict : ∀ l : ConstantPool, List.Sorted (fun p q => p.1 ≤ q.1) l →
      (l.map Prod.fst).Nodup → List.Sorted (fun p q : Nat × ConstantPoolEntry => p.1 < q.1) l := by
    intro l hs hn
    have hn2 : l.Pairwise (fun p q : Nat × ConstantPoolEntry => p.1 ≠ q.1) :=
      (List.pairwise_map.mp hn)
    exact (hs.and hn2).imp fun h => Nat.lt_of_le_of_ne h.1 h.2
  exact List.eq_of_perm_of_sorted hperm12 (strict _ hs1 hnd1) (strict _ hs2 hnd2)

/-- C4 — Constant-pool encoding: the leading 16-bit count is the width sum of
all entries plus 1 (taken as a `u16`), the entries follow in ascending index
order (some sorted, index-ascending rearrangement of the pool), and the output
does not depend on the unordered map's iteration order (any permutation with the
pool's distinct keys serializes identically). -/
theorem constant_pool_encoding_count_and_order :
    (∀ (cp : ConstantPool) (t : List Nat),
      read_u16 (ConstantPool.serialize cp ++ t) =
        .ok (((cp.map fun p => p.2.size).sum + 1) % 65536,
          (((List.insertionSort (fun p q => p.1 ≤ q.1) cp).flatMap
            fun p => p.2.serialize) ++ t))) ∧
    (∀ cp : ConstantPool, ∃ l : ConstantPool,
      ConstantPool.serialize cp =
        u16_be (ConstantPool.size cp) ++ (l.flatMap fun p => p.2.serialize) ∧
      l.Perm cp ∧ List.Sorted (fun p q => p.1 ≤ q.1) l) ∧
    (∀ cp cp2 : ConstantPool, cp.Perm cp2 → (cp.map Prod.fst).Nodup →
      ConstantPool.serialize cp = ConstantPool.serialize cp2) := by
  refine ⟨?_, ?_, ?_⟩
  · intro cp t
    rw [ConstantPool.serialize, List.append_assoc]
    exact read_u16_u16_be _ _
  · intro cp
    haveI := cp_sort_total
    haveI := cp_sort_trans
    exact ⟨List.insertionSort (fun p q => p.1 ≤ q.1) cp, rfl,
      List.perm_insertionSort _ cp, List.sorted_insertionSort _ cp⟩
  · intro cp cp2 hperm hnd
    have hsz : ConstantPool.size cp = ConstantPool.size cp2 := by
      unfold ConstantPool.size
      rw [List.Perm.sum_eq (hperm.map _)]
    rw [ConstantPool.serialize, ConstantPool.serialize, hsz,
      insertionSort_eq_of_perm hperm hnd]

/-- Witness pools for C4: the same two entries listed in both orders. -/
def c4pool : ConstantPool := [(3, .Long 5), (1, .Utf8 codeName)]

/-- `c4pool` reversed. -/
def c4pool2 : ConstantPool := [(1, .Utf8 codeName), (3, .Long 5)]

theorem constant_pool_encoding_count_and_order_witness :
    ConstantPool.serialize c4pool = ConstantPool.serialize c4pool2 ∧
    read_u16 (ConstantPool.serialize c4pool ++ []) =
      .ok (((c4pool.map fun p => p.2.size).sum + 1) % 65536,
        (((List.insertionSort (fun p q => p.1 ≤ q.1) c4pool).flatMap
          fun p => p.2.serialize) ++ [])) :=
  ⟨constant_pool_encoding_count_and_order.2.2 c4pool c4pool2 (by decide) (by decide),
   constant_pool_encoding_count_and_order.1 c4pool []⟩

/-! ### C10, C8, C9: length prefixes and the optional super class -/

theorem read_u16_cons (a b : Nat) (t : List Nat) :
    read_u16 (a :: b :: t) = .ok (256 * a + b, t) := by
  have h := read_bytes_append [a, b] t
  simp only [List.length_cons, List.length_nil] at h
  have e : a :: b :: t = [a, b] ++ t := rfl
  rw [read_u16, e, h]
  simp [Except.map, be_val_pair]

theorem read_u32_cons (a b c d : Nat) (t : List Nat) :
    read_u32 (a :: b :: c :: d :: t) =
      .ok (16777216 * a + 65536 * b + 256 * c + d, t) := by
  have h := read_bytes_append [a, b, c, d] t
  simp only [List.length_cons, List.length_nil] at h
  have e : a :: b :: c :: d :: t = [a, b, c, d] ++ t := rfl
  rw [read_u32, e, h]
  simp [Except.map, be_val_quad]

/-- C10 — every length-prefixed sequence emits its element count cast to 16 bits
(`count % 2^16`, so the exact count whenever it is at most 65535), with all the
elements still written after the prefix; a Utf8 constant likewise emits its byte
length cast to 16 bits followed by every byte of the text. -/
theorem length_prefix_u16_cast :
    (∀ (α : Type) (ser : α → List Nat) (l : List α) (t : List Nat),
      read_u16 (serialize_vec ser l ++ t) =
        .ok (l.length % 65536, l.flatMap ser ++ t)) ∧
    (∀ (α : Type) (ser : α → List Nat) (l : List α) (t : List Nat),
      l.length ≤ 65535 →
      read_u16 (serialize_vec ser l ++ t) = .ok (l.length, l.flatMap ser ++ t)) ∧
    (∀ s : List Nat,
      ConstantPoolEntry.serialize (.Utf8 s) = 1 :: (u16_be s.length ++ s) ∧
      ∀ t, read_u16 (u16_be s.length ++ t) = .ok (s.length % 65536, t)) := by
  refine ⟨?_, ?_, ?_⟩
  · intro α ser l t
    rw [serialize_vec, List.append_assoc]
    exact read_u16_u16_be _ _
  · intro α ser l t hl
    rw [serialize_vec, List.append_assoc, read_u16_u16_be, Nat.mod_eq_of_lt (by omega)]
  · intro s
    exact ⟨rfl, fun t => read_u16_u16_be _ _⟩

theorem length_prefix_u16_cast_witness :
    read_u16 (serialize_vec u16_be [7] ++ []) =
      .ok ((7 :: ([] : List Nat)).length, [7].flatMap u16_be ++ []) :=
  length_prefix_u16_cast.2.1 Nat u16_be [7] [] (by norm_num)

/-- C8 — optional-reference boundary: a 16-bit 0 at the super-class position
decodes to an absent super class with the two bytes consumed, and serializing a
class whose super class is absent writes the sentinel 0 at exactly that
position. -/
theorem super_class_zero_sentinel :
    (∀ t : List Nat, JavaClass.deserialize_super (0 :: 0 :: t) = (none, t)) ∧
    (∀ c : JavaClass, c.super_class = none →
      JavaClass.serialize c =
        u32_be c.magic_bytes ++ u16_be c.minor_version ++ u16_be c.major_version ++
        ConstantPool.serialize c.constant_pool ++ u16_be c.access_flags ++
        u16_be c.this_class ++ [0, 0] ++
        serialize_vec u16_be c.interfaces ++ serialize_vec Field.serialize c.fields ++
        serialize_vec Method.serialize c.methods ++
        serialize_vec Attribute.serialize c.attributes) := by
  constructor
  · intro t
    have h16 : read_u16 (0 :: 0 :: t) = .ok (0, t) := by
      simpa using read_u16_cons 0 0 t
    simp [JavaClass.deserialize_super, CPIndex.deserialize, h16]
  · intro c hc
    rw [JavaClass.serialize, hc]
    norm_num [u16_be, Option.getD]

/-- A minimal class with no super class, for the C8 witness. -/
def c8class : JavaClass := ⟨0, 0, 0, [], 0, 1, none, [], [], [], []⟩

theorem super_class_zero_sentinel_witness :
    JavaClass.deserialize_super (0 :: 0 :: [5, 6]) = (none, [5, 6]) ∧
    JavaClass.serialize c8class =
      u32_be c8class.magic_bytes ++ u16_be c8class.minor_version ++
      u16_be c8class.major_version ++ ConstantPool.serialize c8class.constant_pool ++
      u16_be c8class.access_flags ++ u16_be c8class.this_class ++ [0, 0] ++
      serialize_vec u16_be c8class.interfaces ++
      serialize_vec Field.serialize c8class.fields ++
      serialize_vec Method.serialize c8class.methods ++
      serialize_vec Attribute.serialize c8class.attributes :=
  ⟨super_class_zero_sentinel.1 [5, 6], super_class_zero_sentinel.2 c8class rfl⟩

/-- A well-formed class prefix that ends exactly after the this-class index:
magic 0, versions 0, an empty pool (count 1), flags 0, this-class 1. -/
def c9bytes : List Nat := [0, 0, 0, 0, 0, 0, 0, 0, 0, 1, 0, 0, 0, 1]

/-- C9 — a truncation at the super-class position is not an error: the failed
optional-index read is absorbed into an absent super class (with nothing
consumed), the decode then behaves exactly as if the value 0 had been read
there (appending the two sentinel bytes changes nothing), and it proceeds to
the interfaces, where the truncated stream produces the eventual EOF error. -/
theorem truncation_at_super_absorbed :
    (∀ s : List Nat, s.length < 2 → JavaClass.deserialize_super s = (none, s)) ∧
    JavaClass.deserialize c9bytes = JavaClass.deserialize (c9bytes ++ [0, 0]) ∧
    JavaClass.deserialize c9bytes = .error (.msg eofMsg) := by
  refine ⟨?_, rfl, rfl⟩
  intro s hs
  have hrb : read_bytes s 2 = .error (.msg eofMsg) := by
    rw [read_bytes, if_neg (by omega)]
  have h16 : read_u16 s = .error (.msg eofMsg) := by
    rw [read_u16, hrb]; rfl
  simp [JavaClass.deserialize_super, CPIndex.deserialize, h16]

theorem truncation_at_super_absorbed_witness :
    JavaClass.deserialize_super [9] = (none, [9]) :=
  truncation_at_super_absorbed.1 [9] (by norm_num)

/-! ### Cursor-consumption lemmas -/

theorem read_u16_consumes {s : List Nat} {v : Nat} {r : List Nat}
    (h : read_u16 s = .ok (v, r)) : r = s.drop 2 ∧ 2 ≤ s.length := by
  rw [read_u16] at h
  cases hrb : read_bytes s 2 with
  | error e => rw [hrb] at h; simp [Except.map] at h
  | ok p =>
    rw [hrb] at h
    simp only [Except.map, Except.ok.injEq, Prod.mk.injEq] at h
    obtain ⟨-, hd, -, hle⟩ := read_bytes_ok_of hrb
    exact ⟨h.2 ▸ hd, hle⟩

theorem read_u32_consumes {s : List Nat} {v : Nat} {r : List Nat}
    (h : read_u32 s = .ok (v, r)) : r = s.drop 4 ∧ 4 ≤ s.length := by
  rw [read_u32] at h
  cases hrb : read_bytes s 4 with
  | error e => rw [hrb] at h; simp [Except.map] at h
  | ok p =>
    rw [hrb] at h
    simp only [Except.map, Except.ok.injEq, Prod.mk.injEq] at h
    obtain ⟨-, hd, -, hle⟩ := read_bytes_ok_of hrb
    exact ⟨h.2 ▸ hd, hle⟩

theorem read_u8_consumes {s : List Nat} {v : Nat} {r : List Nat}
    (h : read_u8 s = .ok (v, r)) : r = s.drop 1 ∧ 1 ≤ s.length := by
  rw [read_u8] at h
  cases hrb : read_bytes s 1 with
  | error e => rw [hrb] at h; simp [Except.map] at h
  | ok p =>
    rw [hrb] at h
    simp only [Except.map, Except.ok.injEq, Prod.mk.injEq] at h
    obtain ⟨-, hd, -, hle⟩ := read_bytes_ok_of hrb
    exact ⟨h.2 ▸ hd, hle⟩

theorem CPIndex_deserialize_consumes {s : List Nat} {v : Nat} {r : List Nat}
    (h : CPIndex.deserialize s = .ok (v, r)) :
    r = s.drop 2 ∧ 2 ≤ s.length ∧ v ≠ 0 := by
  rw [CPIndex.deserialize] at h
  cases h16 : read_u16 s with
  | error e => rw [h16] at h; simp at h
  | ok p =>
    obtain ⟨v0, r0⟩ := p
    simp only [h16] at h
    by_cases hv : v0 = 0
    · rw [if_pos hv] at h; simp at h
    · rw [if_neg hv] at h
      simp only [Except.ok.injEq, Prod.mk.injEq] at h
      obtain ⟨hd, hle⟩ := read_u16_consumes h16
      exact ⟨h.2 ▸ hd, hle, h.1 ▸ hv⟩

theorem AttributeInfo_deserialize_ok {s : List Nat} {info : AttributeInfo} {r : List Nat}
    (h : AttributeInfo.deserialize s = .ok (info, r)) :
    ∃ b, info = .Any b ∧ s.length = 4 + b.length + r.length := by
  simp only [AttributeInfo.deserialize, bind, Except.bind] at h
  cases h32 : read_u32 s with
  | error e => rw [h32] at h; simp at h
  | ok p =>
    obtain ⟨size, s1⟩ := p
    simp only [h32] at h
    cases hrb : read_bytes s1 size with
    | error e => rw [hrb] at h; simp at h
    | ok q =>
      obtain ⟨b, r1⟩ := q
      simp only [hrb] at h
      simp only [Except.ok.injEq, Prod.mk.injEq] at h
      obtain ⟨hd4, hle4⟩ := read_u32_consumes h32
      obtain ⟨-, hdrop, hlen, hle⟩ := read_bytes_ok_of hrb
      refine ⟨b, h.1.symm, ?_⟩
      have h1 : s1.length = s.length - 4 := by rw [hd4, List.length_drop]
      have h2 : r1.length = s1.length - size := by rw [hdrop, List.length_drop]
      have := h.2
      subst this
      omega

theorem Attribute_deserialize_ok {s : List Nat} {a : Attribute} {r : List Nat}
    (h : Attribute.deserialize s = .ok (a, r)) :
    ∃ ni b, a = (ni, .Any b) ∧ ni ≠ 0 ∧ s.length = 6 + b.length + r.length := by
  simp only [Attribute.deserialize, bind, Except.bind] at h
  cases hni : CPIndex.deserialize s with
  | error e => rw [hni] at h; simp at h
  | ok p =>
    obtain ⟨ni, s1⟩ := p
    simp only [hni] at h
    cases hinfo : AttributeInfo.deserialize s1 with
    | error e => rw [hinfo] at h; simp at h
    | ok q =>
      obtain ⟨info, r1⟩ := q
      simp only [hinfo] at h
      simp only [Except.ok.injEq, Prod.mk.injEq] at h
      obtain ⟨hd2, hle2, hni0⟩ := CPIndex_deserialize_consumes hni
      obtain ⟨b, hb, hlen⟩ := AttributeInfo_deserialize_ok hinfo
      refine ⟨ni, b, ?_, hni0, ?_⟩
      · rw [← h.1, hb]
      · have h1 : s1.length = s.length - 2 := by rw [hd2, List.length_drop]
        have := h.2
        subst this
        omega

theorem deserialize_vec_consumes {α : Type}
    {d : List Nat → Except DecErr (α × List Nat)}
    (hd : ∀ s x r, d s = .ok (x, r) → r.length ≤ s.length) :
    ∀ {n : Nat} {s : List Nat} {l : List α} {r : List Nat},
      deserialize_vec d n s = .ok (l, r) → r.length ≤ s.length := by
  intro n
  induction n with
  | zero =>
    intro s l r h
    simp only [deserialize_vec, Except.ok.injEq, Prod.mk.injEq] at h
    rw [← h.2]
  | succ n ih =>
    intro s l r h
    simp only [deserialize_vec, bind, Except.bind] at h
    cases h1 : d s with
    | error e => rw [h1] at h; simp at h
    | ok p =>
      obtain ⟨x, s1⟩ := p
      simp only [h1] at h
      cases h2 : deserialize_vec d n s1 with
      | error e => rw [h2] at h; simp at h
      | ok q =>
        obtain ⟨xs, r1⟩ := q
        simp only [h2] at h
        simp only [Except.ok.injEq, Prod.mk.injEq] at h
        have := ih h2
        have := hd s x s1 h1
        have := h.2
        subst this
        omega

theorem ETE_deserialize_consumes {s : List Nat} {e : ExceptionTableEntry} {r : List Nat}
    (h : ExceptionTableEntry.deserialize s = .ok (e, r)) : r.length ≤ s.length := by
  simp only [ExceptionTableEntry.deserialize, bind, Except.bind] at h
  cases h1 : read_u16 s with
  | error e2 => rw [h1] at h; simp at h
  | ok p =>
    obtain ⟨v1, s1⟩ := p
    simp only [h1] at h
    cases h2 : read_u16 s1 with
    | error e2 => rw [h2] at h; simp at h
    | ok q =>
      obtain ⟨v2, s2⟩ := q
      simp only [h2] at h
      cases h3 : read_u16 s2 with
      | error e2 => rw [h3] at h; simp at h
      | ok q3 =>
        obtain ⟨v3, s3⟩ := q3
        simp only [h3] at h
        cases h4 : CPIndex.deserialize s3 with
        | error e2 => rw [h4] at h; simp at h
        | ok q4 =>
          obtain ⟨v4, s4⟩ := q4
          simp only [h4] at h
          simp only [Except.ok.injEq, Prod.mk.injEq] at h
          obtain ⟨hd1, hl1⟩ := read_u16_consumes h1
          obtain ⟨hd2, hl2⟩ := read_u16_consumes h2
          obtain ⟨hd3, hl3⟩ := read_u16_consumes h3
          obtain ⟨hd4, hl4, -⟩ := CPIndex_deserialize_consumes h4
          have e1 : s1.length = s.length - 2 := by rw [hd1, List.length_drop]
          have e2 : s2.length = s1.length - 2 := by rw [hd2, List.length_drop]
          have e3 : s3.length = s2.length - 2 := by rw [hd3, List.length_drop]
          have e4 : s4.length = s3.length - 2 := by rw [hd4, List.length_drop]
          have := h.2
          subst this
          omega

theorem Vec_deserialize_consumes {α : Type}
    {d : List Nat → Except DecErr (α × List Nat)}
    (hd : ∀ s x r, d s = .ok (x, r) → r.length ≤ s.length)
    {s : List Nat} {l : List α} {r : List Nat}
    (h : Vec.deserialize d s = .ok (l, r)) : r.length ≤ s.length := by
  simp only [Vec.deserialize, bind, Except.bind] at h
  cases h1 : read_u16 s with
  | error e => rw [h1] at h; simp at h
  | ok p =>
    obtain ⟨count, s1⟩ := p
    simp only [h1] at h
    obtain ⟨hd1, hl1⟩ := read_u16_consumes h1
    have := deserialize_vec_consumes hd h
    have e1 : s1.length = s.length - 2 := by rw [hd1, List.length_drop]
    omega

theorem deserialize_vec_attr_mem :
    ∀ {n : Nat} {s : List Nat} {attrs : List Attribute} {r : List Nat},
      deserialize_vec Attribute.deserialize n s = .ok (attrs, r) →
      ∀ a ∈ attrs, ∃ ni b, a = (ni, .Any b) ∧ ni ≠ 0 ∧ b.length + 6 ≤ s.length := by
  intro n
  induction n with
  | zero =>
    intro s attrs r h
    simp only [deserialize_vec, Except.ok.injEq, Prod.mk.injEq] at h
    rw [← h.1]
    simp
  | succ n ih =>
    intro s attrs r h
    simp only [deserialize_vec, bind, Except.bind] at h
    cases h1 : Attribute.deserialize s with
    | error e => rw [h1] at h; simp at h
    | ok p =>
      obtain ⟨a0, s1⟩ := p
      simp only [h1] at h
      cases h2 : deserialize_vec Attribute.deserialize n s1 with
      | error e => rw [h2] at h; simp at h
      | ok q =>
        obtain ⟨rest, r1⟩ := q
        simp only [h2] at h
        simp only [Except.ok.injEq, Prod.mk.injEq] at h
        intro a ha
        rw [← h.1] at ha
        rcases List.mem_cons.mp ha with ha | ha
        · obtain ⟨ni, b, hab, hni, hlen⟩ := Attribute_deserialize_ok h1
          exact ⟨ni, b, ha ▸ hab, hni, by omega⟩
        · obtain ⟨ni, b, hab, hni, hlen⟩ := ih h2 a ha
          obtain ⟨ni0, b0, -, -, hslen⟩ := Attribute_deserialize_ok h1
          exact ⟨ni, b, hab, hni, by omega⟩

theorem Vec_deserialize_attr_mem {s : List Nat} {attrs : List Attribute} {r : List Nat}
    (h : Vec.deserialize Attribute.deserialize s = .ok (attrs, r)) :
    ∀ a ∈ attrs, ∃ ni b, a = (ni, .Any b) ∧ ni ≠ 0 ∧ b.length + 6 ≤ s.length := by
  simp only [Vec.deserialize, bind, Except.bind] at h
  cases h1 : read_u16 s with
  | error e => rw [h1] at h; simp at h
  | ok p =>
    obtain ⟨count, s1⟩ := p
    simp only [h1] at h
    obtain ⟨hd1, hl1⟩ := read_u16_consumes h1
    intro a ha
    obtain ⟨ni, b, hab, hni, hlen⟩ := deserialize_vec_attr_mem h a ha
    have e1 : s1.length = s.length - 2 := by rw [hd1, List.length_drop]
    exact ⟨ni, b, hab, hni, by omega⟩

/-! ### Fuel congruence for the resolver -/

theorem resolve_each_congr {res1 res2 : Attribute → Except DecErr Attribute}
    {l : List Attribute} (h : ∀ a ∈ l, res1 a = res2 a) :
    resolve_each res1 l = resolve_each res2 l := by
  induction l with
  | nil => rfl
  | cons a r ih =>
    have ha := h a (List.mem_cons_self _ _)
    have hr := ih fun x hx => h x (List.mem_cons_of_mem _ hx)
    simp only [resolve_each, ha, hr]

theorem resolve_body_congr {res1 res2 : Attribute → Except DecErr Attribute}
    {name bytes : List Nat}
    (h : ∀ ni b, b.length + 6 ≤ bytes.length →
      res1 (ni, .Any b) = res2 (ni, .Any b)) :
    Attribute.resolve_body res1 name bytes = Attribute.resolve_body res2 name bytes := by
  unfold Attribute.resolve_body
  by_cases h1 : name = constantValueName
  · rw [if_pos h1, if_pos h1]
  rw [if_neg h1, if_neg h1]
  by_cases h2 : name = codeName
  case neg => rw [if_neg h2, if_neg h2]
  rw [if_pos h2, if_pos h2]
  simp only [bind, Except.bind]
  cases hms : read_u16 bytes with
  | error e => rfl
  | ok p =>
    obtain ⟨ms, s1⟩ := p
    dsimp only
    cases hml : read_u16 s1 with
    | error e => rfl
    | ok q =>
      obtain ⟨ml, s2⟩ := q
      dsimp only
      cases hcl : read_u32 s2 with
      | error e => rfl
      | ok q2 =>
        obtain ⟨cl, s3⟩ := q2
        dsimp only
        cases hcode : deserialize_vec CodeByte.deserialize cl s3 with
        | error e => rfl
        | ok q3 =>
          obtain ⟨code, s4⟩ := q3
          dsimp only
          cases het : Vec.deserialize ExceptionTableEntry.deserialize s4 with
          | error e => rfl
          | ok q4 =>
            obtain ⟨et, s5⟩ := q4
            dsimp only
            cases hattrs : Vec.deserialize Attribute.deserialize s5 with
            | error e => rfl
            | ok q5 =>
              obtain ⟨attrs, s6⟩ := q5
              dsimp only
              have hbound : ∀ a ∈ attrs, res1 a = res2 a := by
                intro a ha
                obtain ⟨ni, b, hab, -, hlen⟩ := Vec_deserialize_attr_mem hattrs a ha
                -- chain the cursor consumption back to `bytes`
                obtain ⟨hd1, hl1⟩ := read_u16_consumes hms
                obtain ⟨hd2, hl2⟩ := read_u16_consumes hml
                obtain ⟨hd3, hl3⟩ := read_u32_consumes hcl
                have hv4 : s4.length ≤ s3.length :=
                  deserialize_vec_consumes
                    (fun s x r hx => by
                      obtain ⟨hd, hl⟩ := read_u8_consumes hx
                      rw [hd, List.length_drop]; omega) hcode
                have hv5 : s5.length ≤ s4.length :=
                  Vec_deserialize_consumes (fun s x r hx => ETE_deserialize_consumes hx) het
                have e1 : s1.length = bytes.length - 2 := by rw [hd1, List.length_drop]
                have e2 : s2.length = s1.length - 2 := by rw [hd2, List.length_drop]
                have e3 : s3.length = s2.length - 4 := by rw [hd3, List.length_drop]
                rw [hab]
                exact h ni b (by omega)
              rw [resolve_each_congr hbound]

theorem resolve_fuel_congr :
    ∀ f g : Nat, ∀ (cp : ConstantPool) (a : Attribute),
      Attribute.fuel a ≤ f → Attribute.fuel a ≤ g →
      Attribute.resolve_fuel f cp a = Attribute.resolve_fuel g cp a := by
  intro f
  induction f using Nat.strong_induction_on with
  | _ f ih =>
    intro g cp a hf hg
    obtain ⟨ni, info⟩ := a
    cases info with
    | Any b =>
      have hfuel : Attribute.fuel (ni, .Any b) = b.length + 1 := rfl
      rw [hfuel] at hf hg
      cases f with
      | zero => omega
      | succ f1 =>
        cases g with
        | zero => omega
        | succ g1 =>
          simp only [Attribute.resolve_fuel]
          cases hlk : List.lookup ni cp with
          | none => rfl
          | some e =>
            cases e <;> try rfl
            case Utf8 name =>
              dsimp only
              have hbody :
                  Attribute.resolve_body (fun a2 => Attribute.resolve_fuel f1 cp a2) name b =
                  Attribute.resolve_body (fun a2 => Attribute.resolve_fuel g1 cp a2) name b := by
                apply resolve_body_congr
                intro ni2 b2 hlen
                exact ih f1 (by omega) g1 cp (ni2, .Any b2) (by simp [Attribute.fuel]; omega)
                  (by simp [Attribute.fuel]; omega)
              rw [hbody]
    | ConstantValue i =>
      cases f with
      | zero => simp [Attribute.fuel] at hf
      | succ f1 =>
        cases g with
        | zero => simp [Attribute.fuel] at hg
        | succ g1 => simp only [Attribute.resolve_fuel]
    | Code ms ml code et attrs =>
      cases f with
      | zero => simp [Attribute.fuel] at hf
      | succ f1 =>
        cases g with
        | zero => simp [Attribute.fuel] at hg
        | succ g1 => simp only [Attribute.resolve_fuel]
    | Exceptions t =>
      cases f with
      | zero => simp [Attribute.fuel] at hf
      | succ f1 =>
        cases g with
        | zero => simp [Attribute.fuel] at hg
        | succ g1 => simp only [Attribute.resolve_fuel]

/-- `Attribute::resolve` equals the fueled resolver at any sufficient fuel. -/
theorem resolve_eq_fuel {g : Nat} {cp : ConstantPool} {a : Attribute}
    (hg : Attribute.fuel a ≤ g) :
    Attribute.resolve cp a = Attribute.resolve_fuel g cp a :=
  resolve_fuel_congr (Attribute.fuel a) g cp a (le_refl _) hg

/-! ### C5: zero constant-pool index — fatal in structural decode, confined
inside attribute resolution -/

/-- The Code-attribute payload whose exception-table entry carries
`catch_type` 0: max_stack 0, max_locals 0, code length 0, one exception-table
entry `(0, 0, 0, 0)`. -/
def c5blob : List Nat := [0, 0, 0, 0, 0, 0, 0, 0, 0, 1, 0, 0, 0, 0, 0, 0, 0, 0]

/-- A complete class file whose single method carries a "Code" attribute with a
zero `catch_type` in its exception table. -/
def c5in : List Nat :=
  [202, 254, 186, 190, 0, 0, 0, 0,
   0, 2, 1, 0, 4, 67, 111, 100, 101,
   0, 0, 0, 1, 0, 0,
   0, 0, 0, 0, 0, 1,
   0, 0, 0, 1, 0, 1, 0, 1,
   0, 1, 0, 0, 0, 18] ++ c5blob ++ [0, 0]

/-- What `c5in` decodes to: the "Code" attribute stays an opaque blob because
its resolution hit the zero `catch_type` and was swallowed. -/
def c5out : JavaClass :=
  ⟨0xCAFEBABE, 0, 0, [(1, .Utf8 codeName)], 0, 1, none, [], [],
   [⟨0, 1, 1, [(1, .Any c5blob)]⟩], []⟩

/-- C5 counterexample: a zero `catch_type` inside a Code attribute's exception
table does NOT abort the whole decode — the class decodes successfully; the
zero index only fails that attribute's resolution (with the CPIndex error),
which is swallowed, leaving the attribute as its original opaque blob. -/
theorem zero_catch_type_not_fatal_cex :
    JavaClass.deserialize c5in = .ok (c5out, []) ∧
    Attribute.resolve c5out.constant_pool (1, .Any c5blob) =
      .error (.msg "Error when trying to convert u16 to CPIndex (value is 0).") :=
  ⟨rfl, rfl⟩

/-- A class truncated to end at a zero this-class index. -/
def c5thisZero : List Nat := [0, 0, 0, 0, 0, 0, 0, 0, 0, 1, 0, 0, 0, 0]

/-- C5 amended: a zero index where a non-optional `CPIndex` is read is always
rejected, and on the structural decode path (pool entries, this-class, field and
method indices — here: the this-class read) the error propagates and aborts the
whole decode; the exception-table parse also rejects it, but a zero `catch_type`
is only ever parsed inside `Attribute::resolve`, whose caller swallows the error
and keeps the attribute unchanged. -/
theorem zero_cpindex_fatal_structural_only :
    (∀ t : List Nat, CPIndex.deserialize (0 :: 0 :: t) =
      .error (.msg "Error when trying to convert u16 to CPIndex (value is 0).")) ∧
    (∀ (v1 v2 v3 v4 v5 v6 : Nat) (t : List Nat),
      ExceptionTableEntry.deserialize (v1 :: v2 :: v3 :: v4 :: v5 :: v6 :: 0 :: 0 :: t) =
        .error (.msg "Error when trying to convert u16 to CPIndex (value is 0).")) ∧
    JavaClass.deserialize c5thisZero =
      .error (.msg "Error when trying to convert u16 to CPIndex (value is 0).") ∧
    (∀ (cp : ConstantPool) (a : Attribute) (m : String) (l : List Attribute),
      Attribute.resolve cp a = .error (.msg m) →
      resolve_each (fun x => Attribute.resolve cp x) (a :: l) =
        (resolve_each (fun x => Attribute.resolve cp x) l).map fun l2 => a :: l2) := by
  refine ⟨?_, ?_, rfl, ?_⟩
  · intro t
    simp [CPIndex.deserialize, read_u16_cons]
  · intro v1 v2 v3 v4 v5 v6 t
    simp [ExceptionTableEntry.deserialize, bind, Except.bind, read_u16_cons,
      CPIndex.deserialize]
  · intro cp a m l h
    simp only [resolve_each, h]

theorem zero_cpindex_fatal_structural_only_witness :
    CPIndex.deserialize [0, 0] =
      .error (.msg "Error when trying to convert u16 to CPIndex (value is 0).") ∧
    ExceptionTableEntry.deserialize [0, 0, 0, 0, 0, 0, 0, 0] =
      .error (.msg "Error when trying to convert u16 to CPIndex (value is 0).") ∧
    resolve_each (fun x => Attribute.resolve c5out.constant_pool x) [(1, .Any c5blob)] =
      (resolve_each (fun x => Attribute.resolve c5out.constant_pool x) []).map
        fun l2 => (1, .Any c5blob) :: l2 :=
  ⟨zero_cpindex_fatal_structural_only.1 [],
   zero_cpindex_fatal_structural_only.2.1 0 0 0 0 0 0 [],
   zero_cpindex_fatal_structural_only.2.2.2 c5out.constant_pool (1, .Any c5blob)
     "Error when trying to convert u16 to CPIndex (value is 0)." [] rfl⟩

/-! ### C6: attribute name lookup — error for non-textual entries, panic for
missing keys -/

/-- A complete class file with an empty constant pool and one class-level
attribute whose name index 1 is not a key of the pool. -/
def c6in : List Nat :=
  [0, 0, 0, 0, 0, 0, 0, 0, 0, 1, 0, 0, 0, 1, 0, 0,
   0, 0, 0, 0, 0, 0, 0, 1, 0, 1, 0, 0, 0, 0]

/-- C6 counterexample: when the attribute's name index is missing from the pool,
resolution does not return an error — the `Index` impl's
`self.inner.get(&index).unwrap()` panics, and the panic aborts the whole class
decode (it is not swallowed by the `let _ = a.resolve(..)` caller). -/
theorem resolve_missing_name_panics_cex :
    Attribute.resolve ([] : ConstantPool) (1, .Any []) = .error .panic ∧
    JavaClass.deserialize c6in = .error .panic :=
  ⟨rfl, rfl⟩

/-- C6 amended: if the pool entry at the attribute's name index exists but is
not a Utf8 (textual) entry, resolution returns an error and the swallowing
caller keeps the attribute's info unchanged; but if the name index is not a key
of the pool at all, the lookup panics (aborting the decode) instead of
returning an error. -/
theorem resolve_name_lookup_amended :
    (∀ (cp : ConstantPool) (ni : Nat) (b : List Nat) (e : ConstantPoolEntry),
      cp.lookup ni = some e → (∀ s, e ≠ .Utf8 s) →
      Attribute.resolve cp (ni, .Any b) =
        .error (.msg "Error when trying to access Attribute name.") ∧
      resolve_each (fun a => Attribute.resolve cp a) [(ni, .Any b)] =
        .ok [(ni, .Any b)]) ∧
    (∀ (cp : ConstantPool) (ni : Nat) (b : List Nat),
      cp.lookup ni = none → Attribute.resolve cp (ni, .Any b) = .error .panic) := by
  constructor
  · intro cp ni b e hlk hne
    have h1 : Attribute.resolve cp (ni, .Any b) =
        .error (.msg "Error when trying to access Attribute name.") := by
      show Attribute.resolve_fuel (b.length + 1) cp (ni, .Any b) = _
      simp only [Attribute.resolve_fuel]
      rw [hlk]
      cases e with
      | Utf8 s => exact absurd rfl (hne s)
      | _ => rfl
    exact ⟨h1, by simp only [resolve_each, h1]; rfl⟩
  · intro cp ni b hlk
    show Attribute.resolve_fuel (b.length + 1) cp (ni, .Any b) = _
    simp only [Attribute.resolve_fuel]
    rw [hlk]

theorem resolve_name_lookup_amended_witness :
    (Attribute.resolve [(1, .Integer 5)] (1, .Any []) =
      .error (.msg "Error when trying to access Attribute name.") ∧
     resolve_each (fun a => Attribute.resolve [(1, .Integer 5)] a) [(1, .Any [])] =
      .ok [(1, .Any [])]) ∧
    Attribute.resolve ([(2, .Integer 5)] : ConstantPool) (1, .Any []) = .error .panic :=
  ⟨resolve_name_lookup_amended.1 [(1, .Integer 5)] 1 [] (.Integer 5) rfl
      (fun s h => ConstantPoolEntry.noConfusion h),
   resolve_name_lookup_amended.2 [(2, .Integer 5)] 1 [] rfl⟩

/-! ### C7: recursive resolution of Code attributes -/

/-- C7 — when an attribute's name resolves to "Code" and its body parses, the
resolver is invoked (through the swallowing per-element walk) on each attribute
of the nested list; a nested attribute with an unrecognized name stays an opaque
blob, while one named "ConstantValue" becomes typed. -/
theorem code_attribute_recursive_resolution :
    (∀ (cp : ConstantPool) (ni : Nat) (b : List Nat) (ms ml cl : Nat)
       (s1 s2 s3 s4 s5 s6 : List Nat) (code : List Nat)
       (et : List ExceptionTableEntry) (attrs attrs2 : List Attribute),
      cp.lookup ni = some (.Utf8 codeName) →
      read_u16 b = .ok (ms, s1) →
      read_u16 s1 = .ok (ml, s2) →
      read_u32 s2 = .ok (cl, s3) →
      deserialize_vec CodeByte.deserialize cl s3 = .ok (code, s4) →
      Vec.deserialize ExceptionTableEntry.deserialize s4 = .ok (et, s5) →
      Vec.deserialize Attribute.deserialize s5 = .ok (attrs, s6) →
      resolve_each (fun a => Attribute.resolve cp a) attrs = .ok attrs2 →
      Attribute.resolve cp (ni, .Any b) = .ok (ni, .Code ms ml code et attrs2)) ∧
    (∀ (cp : ConstantPool) (ni : Nat) (b : List Nat) (s : List Nat),
      cp.lookup ni = some (.Utf8 s) →
      s ≠ constantValueName → s ≠ codeName → s ≠ exceptionsName →
      Attribute.resolve cp (ni, .Any b) = .error (.msg "unkown attribute") ∧
      resolve_each (fun a => Attribute.resolve cp a) [(ni, .Any b)] =
        .ok [(ni, .Any b)]) ∧
    (∀ (cp : ConstantPool) (ni i : Nat) (t : List Nat),
      cp.lookup ni = some (.Utf8 constantValueName) → 0 < i → i < 65536 →
      Attribute.resolve cp (ni, .Any (u16_be i ++ t)) = .ok (ni, .ConstantValue i)) := by
  refine ⟨?_, ?_, ?_⟩
  · intro cp ni b ms ml cl s1 s2 s3 s4 s5 s6 code et attrs attrs2
    intro hlk hms hml hcl hcode het hattrs hres
    show Attribute.resolve_fuel (b.length + 1) cp (ni, .Any b) = _
    simp only [Attribute.resolve_fuel]
    rw [hlk]
    dsimp only
    have hcong : resolve_each (fun a2 => Attribute.resolve_fuel b.length cp a2) attrs =
        resolve_each (fun a => Attribute.resolve cp a) attrs := by
      apply resolve_each_congr
      intro a ha
      obtain ⟨ni2, b2, hab, -, hlen⟩ := Vec_deserialize_attr_mem hattrs a ha
      obtain ⟨hd1, hl1⟩ := read_u16_consumes hms
      obtain ⟨hd2, hl2⟩ := read_u16_consumes hml
      obtain ⟨hd3, hl3⟩ := read_u32_consumes hcl
      have hv4 : s4.length ≤ s3.length :=
        deserialize_vec_consumes
          (fun s x r hx => by
            obtain ⟨hd, hl⟩ := read_u8_consumes hx
            rw [hd, List.length_drop]; omega) hcode
      have hv5 : s5.length ≤ s4.length :=
        Vec_deserialize_consumes (fun s x r hx => ETE_deserialize_consumes hx) het
      have e1 : s1.length = b.length - 2 := by rw [hd1, List.length_drop]
      have e2 : s2.length = s1.length - 2 := by rw [hd2, List.length_drop]
      have e3 : s3.length = s2.length - 4 := by rw [hd3, List.length_drop]
      rw [hab]
      exact (resolve_eq_fuel (by simp only [Attribute.fuel]; omega)).symm
    rw [Attribute.resolve_body, if_neg (by decide), if_pos rfl]
    simp only [bind, Except.bind, hms]
    try dsimp only
    rw [hml]
    try dsimp only
    rw [hcl]
    try dsimp only
    rw [hcode]
    try dsimp only
    rw [het]
    try dsimp only
    rw [hattrs]
    try dsimp only
    rw [hcong, hres]
  · intro cp ni b s hlk hn1 hn2 hn3
    have h1 : Attribute.resolve cp (ni, .Any b) = .error (.msg "unkown attribute") := by
      show Attribute.resolve_fuel (b.length + 1) cp (ni, .Any b) = _
      simp only [Attribute.resolve_fuel]
      rw [hlk]
      try dsimp only
      rw [Attribute.resolve_body, if_neg hn1, if_neg hn2, if_neg hn3]
    exact ⟨h1, by simp only [resolve_each, h1]; rfl⟩
  · intro cp ni i t hlk hi0 hi
    show Attribute.resolve_fuel ((u16_be i ++ t).length + 1) cp (ni, .Any (u16_be i ++ t)) = _
    simp only [Attribute.resolve_fuel]
    rw [hlk]
    dsimp only
    rw [Attribute.resolve_body, if_pos rfl]
    have hidx : CPIndex.deserialize (u16_be i ++ t) = .ok (i, t) := by
      simp only [CPIndex.deserialize, read_u16_u16_be_lt hi]
      rw [if_neg (show ¬ i = 0 by omega)]
    rw [hidx]

/-- The pool for the C7 witness: "Code" at 1, "ConstantValue" at 2, and the
unrecognized name "X" at 3. -/
def c7cp : ConstantPool :=
  [(1, .Utf8 codeName), (2, .Utf8 constantValueName), (3, .Utf8 [88])]

/-- A Code payload whose nested attribute list holds a "ConstantValue" attribute
(body `[0, 5]`) and an attribute named "X" (body `[7]`). -/
def c7blob : List Nat :=
  [0, 0, 0, 0, 0, 0, 0, 0, 0, 0, 0, 2,
   0, 2, 0, 0, 0, 2, 0, 5,
   0, 3, 0, 0, 0, 1, 7]

theorem code_attribute_recursive_resolution_witness :
    Attribute.resolve c7cp (1, .Any c7blob) =
      .ok (1, .Code 0 0 [] [] [(2, .ConstantValue 5), (3, .Any [7])]) :=
  code_attribute_recursive_resolution.1 c7cp 1 c7blob 0 0 0
    (c7blob.drop 2) (c7blob.drop 4) (c7blob.drop 8) (c7blob.drop 8)
    (c7blob.drop 10) [] [] [] [(2, .Any [0, 5]), (3, .Any [7])]
    [(2, .ConstantValue 5), (3, .Any [7])]
    rfl rfl rfl rfl rfl rfl rfl rfl

/-! ### C3: resolution failures are non-fatal -/

/-- `JavaClass::deserialize` is its structural phase followed by the resolution
pass (the code after the `// resolve the attributes` comment). -/
theorem deserialize_eq_struct_resolve (bytes : List Nat) :
    JavaClass.deserialize bytes =
      match JavaClass.deserialize_struct bytes with
      | .error e => .error e
      | .ok (c, r) =>
        match resolve_fields c.constant_pool c.fields with
        | .error e => .error e
        | .ok fields =>
          match resolve_methods c.constant_pool c.methods with
          | .error e => .error e
          | .ok methods =>
            match resolve_each (fun a => Attribute.resolve c.constant_pool a)
                c.attributes with
            | .error e => .error e
            | .ok attributes =>
              .ok ({ c with
                      fields := fields,
                      methods := methods,
                      attributes := attributes }, r) := by
  simp only [JavaClass.deserialize, JavaClass.deserialize_struct, bind, Except.bind]
  cases h1 : read_u32 bytes with
  | error e => rfl
  | ok p1 =>
    obtain ⟨magic, s1⟩ := p1
    try dsimp only
    cases h2 : read_u16 s1 with
    | error e => rfl
    | ok p2 =>
      obtain ⟨minor, s2⟩ := p2
      try dsimp only
      cases h3 : read_u16 s2 with
      | error e => rfl
      | ok p3 =>
        obtain ⟨major, s3⟩ := p3
        try dsimp only
        cases h4 : ConstantPool.deserialize s3 with
        | error e => rfl
        | ok p4 =>
          obtain ⟨cpool, s4⟩ := p4
          try dsimp only
          cases h5 : AccessFlags.deserialize s4 with
          | error e => rfl
          | ok p5 =>
            obtain ⟨flags, s5⟩ := p5
            try dsimp only
            cases h6 : CPIndex.deserialize s5 with
            | error e => rfl
            | ok p6 =>
              obtain ⟨thisc, s6⟩ := p6
              try dsimp only
              cases h7 : JavaClass.deserialize_super s6 with
              | mk superc s7 =>
                try dsimp only
                cases h8 : Vec.deserialize CPIndex.deserialize s7 with
                | error e => rfl
                | ok p8 =>
                  obtain ⟨ifaces, s8⟩ := p8
                  try dsimp only
                  cases h9 : Vec.deserialize Field.deserialize s8 with
                  | error e => rfl
                  | ok p9 =>
                    obtain ⟨fls, s9⟩ := p9
                    try dsimp only
                    cases h10 : Vec.deserialize Method.deserialize s9 with
                    | error e => rfl
                    | ok p10 =>
                      obtain ⟨mts, s10⟩ := p10
                      try dsimp only
                      cases h11 : Vec.deserialize Attribute.deserialize s10 with
                      | error e => rfl
                      | ok p11 =>
                        obtain ⟨ats, s11⟩ := p11
                        try dsimp only
                        cases h12 : resolve_fields cpool fls with
                        | error e => rfl
                        | ok fls2 =>
                          try dsimp only
                          cases h13 : resolve_methods cpool mts with
                          | error e => rfl
                          | ok mts2 =>
                            try dsimp only
                            cases h14 : resolve_each
                                (fun a => Attribute.resolve cpool a) ats with
                            | error e => rfl
                            | ok ats2 => rfl

/-- C3 — non-fatal resolution: when the structural decode succeeds and the
resolution pass finishes (every failure being one of the claim's swallowed
kinds, i.e. an `io::Error`, not a panic), the class decode succeeds with exactly
the resolved trees and the structural remainder; and an attribute whose own
resolution fails with an `io::Error` is kept with its original opaque info while
all of its siblings (before and after it) are still processed, no error reaching
the caller. -/
theorem resolution_failures_nonfatal :
    (∀ (bytes : List Nat) (c : JavaClass) (r : List Nat) (fields2 : List Field)
       (methods2 : List Method) (attrs2 : List Attribute),
      JavaClass.deserialize_struct bytes = .ok (c, r) →
      resolve_fields c.constant_pool c.fields = .ok fields2 →
      resolve_methods c.constant_pool c.methods = .ok methods2 →
      resolve_each (fun a => Attribute.resolve c.constant_pool a) c.attributes =
        .ok attrs2 →
      JavaClass.deserialize bytes =
        .ok ({ c with
                fields := fields2,
                methods := methods2,
                attributes := attrs2 }, r)) ∧
    (∀ (cp : ConstantPool) (pre post : List Attribute) (a : Attribute) (m : String)
       (pre2 post2 : List Attribute),
      Attribute.resolve cp a = .error (.msg m) →
      resolve_each (fun x => Attribute.resolve cp x) pre = .ok pre2 →
      resolve_each (fun x => Attribute.resolve cp x) post = .ok post2 →
      resolve_each (fun x => Attribute.resolve cp x) (pre ++ a :: post) =
        .ok (pre2 ++ a :: post2)) := by
  constructor
  · intro bytes c r fields2 methods2 attrs2 hstruct hf hm ha
    rw [deserialize_eq_struct_resolve bytes, hstruct]
    try dsimp only
    rw [hf]
    try dsimp only
    rw [hm]
    try dsimp only
    rw [ha]
  · intro cp pre post a m pre2 post2 hres hpre hpost
    induction pre generalizing pre2 with
    | nil =>
      simp only [resolve_each, Except.ok.injEq] at hpre
      subst hpre
      simp only [List.nil_append, resolve_each, hres, hpost, Except.map]
    | cons p pr ih =>
      simp only [resolve_each] at hpre
      cases hp : Attribute.resolve cp p with
      | ok p2 =>
        rw [hp] at hpre
        cases hpr : resolve_each (fun x => Attribute.resolve cp x) pr with
        | error e => rw [hpr] at hpre; simp [Except.map] at hpre
        | ok pr2 =>
          rw [hpr] at hpre
          simp only [Except.map, Except.ok.injEq] at hpre
          subst hpre
          simp only [List.cons_append, resolve_each, hp, List.append_eq,
            ih pr2 hpr, Except.map]
      | error e =>
        cases e with
        | msg m2 =>
          rw [hp] at hpre
          cases hpr : resolve_each (fun x => Attribute.resolve cp x) pr with
          | error e2 => rw [hpr] at hpre; simp [Except.map] at hpre
          | ok pr2 =>
            rw [hpr] at hpre
            simp only [Except.map, Except.ok.injEq] at hpre
            subst hpre
            simp only [List.cons_append, resolve_each, hp, List.append_eq,
            ih pr2 hpr, Except.map]
        | panic =>
          rw [hp] at hpre
          simp at hpre

theorem resolution_failures_nonfatal_witness :
    JavaClass.deserialize c5in =
      .ok ({ c5out with
              fields := [],
              methods := c5out.methods,
              attributes := [] }, []) ∧
    resolve_each (fun x => Attribute.resolve c5out.constant_pool x)
      ([] ++ (1, .Any c5blob) :: []) = .ok ([] ++ (1, .Any c5blob) :: []) :=
  ⟨resolution_failures_nonfatal.1 c5in c5out [] [] c5out.methods [] rfl rfl rfl rfl,
   resolution_failures_nonfatal.2 c5out.constant_pool [] [] (1, .Any c5blob)
     "Error when trying to convert u16 to CPIndex (value is 0)." [] [] rfl rfl rfl⟩

/-! ### UTF-8 lossy decoding: fuel irrelevance, validity, idempotence -/

theorem utf8_fuel_congr :
    ∀ f g : Nat, ∀ l : List Nat, l.length ≤ f → l.length ≤ g →
      utf8_lossy_fuel f l = utf8_lossy_fuel g l := by
  intro f
  induction f using Nat.strong_induction_on with
  | _ f ih =>
    intro g l hf hg
    cases l with
    | nil => cases f <;> cases g <;> rfl
    | cons b r =>
      cases f with
      | zero => simp at hf
      | succ f1 =>
        cases g with
        | zero => simp at hg
        | succ g1 =>
          have hr1 : r.length ≤ f1 := by simpa using hf
          have hr2 : r.length ≤ g1 := by simpa using hg
          have ihr := ih f1 (by omega) g1 r hr1 hr2
          simp only [utf8_lossy_fuel]
          by_cases hA : b < 128
          · simp only [if_pos hA, ihr]
          simp only [if_neg hA]
          by_cases hB : b < 194
          · simp only [if_pos hB, ihr]
          simp only [if_neg hB]
          by_cases hC : b ≤ 223
          · simp only [if_pos hC]
            cases r with
            | nil => simp only [ihr]
            | cons b1 r1 =>
              have ih1 := ih f1 (by omega) g1 r1 (by simp at hr1 ⊢; omega)
                (by simp at hr2 ⊢; omega)
              by_cases hc1 : 128 ≤ b1 ∧ b1 ≤ 191
              · simp only [if_pos hc1, ih1]
              · simp only [if_neg hc1, ihr]
          simp only [if_neg hC]
          by_cases hD : b ≤ 239
          · simp only [if_pos hD]
            cases r with
            | nil => simp only [ihr]
            | cons b1 r1 =>
              have ih1 := ih f1 (by omega) g1 r1 (by simp at hr1 ⊢; omega)
                (by simp at hr2 ⊢; omega)
              by_cases hc1 : (if b = 224 then 160 ≤ b1 ∧ b1 ≤ 191
                  else if b = 237 then 128 ≤ b1 ∧ b1 ≤ 159
                  else 128 ≤ b1 ∧ b1 ≤ 191)
              · simp only [if_pos hc1]
                cases r1 with
                | nil => simp only [ih1]
                | cons b2 r2 =>
                  have ih2 := ih f1 (by omega) g1 r2 (by simp at hr1 ⊢; omega)
                    (by simp at hr2 ⊢; omega)
                  by_cases hc2 : 128 ≤ b2 ∧ b2 ≤ 191
                  · simp only [if_pos hc2, ih2]
                  · simp only [if_neg hc2, ih1]
              · simp only [if_neg hc1, ihr]
          simp only [if_neg hD]
          by_cases hE : b ≤ 244
          · simp only [if_pos hE]
            cases r with
            | nil => simp only [ihr]
            | cons b1 r1 =>
              have ih1 := ih f1 (by omega) g1 r1 (by simp at hr1 ⊢; omega)
                (by simp at hr2 ⊢; omega)
              by_cases hc1 : (if b = 240 then 144 ≤ b1 ∧ b1 ≤ 191
                  else if b = 244 then 128 ≤ b1 ∧ b1 ≤ 143
                  else 128 ≤ b1 ∧ b1 ≤ 191)
              · simp only [if_pos hc1]
                cases r1 with
                | nil => simp only [ih1]
                | cons b2 r2 =>
                  have ih2 := ih f1 (by omega) g1 r2 (by simp at hr1 ⊢; omega)
                    (by simp at hr2 ⊢; omega)
                  by_cases hc2 : 128 ≤ b2 ∧ b2 ≤ 191
                  · simp only [if_pos hc2]
                    cases r2 with
                    | nil => simp only [ih2]
                    | cons b3 r3 =>
                      have ih3 := ih f1 (by omega) g1 r3 (by simp at hr1 ⊢; omega)
                        (by simp at hr2 ⊢; omega)
                      by_cases hc3 : 128 ≤ b3 ∧ b3 ≤ 191
                      · simp only [if_pos hc3, ih3]
                      · simp only [if_neg hc3, ih2]
                  · simp only [if_neg hc2, ih1]
              · simp only [if_neg hc1, ihr]
          · simp only [if_neg hE, ihr]

theorem utf8_lossy_eq_fuel {l : List Nat} {f : Nat} (h : l.length ≤ f) :
    utf8_lossy l = utf8_lossy_fuel f l :=
  utf8_fuel_congr l.length f l (le_refl _) h

/-- Well-formed UTF-8 byte lists, by the same scalar grammar `utf8_lossy`
validates: ASCII, and 2/3/4-byte sequences with their lead-dependent first
continuation ranges. -/
inductive Utf8Valid : List Nat → Prop
  | nil : Utf8Valid []
  | one {b : Nat} {r : List Nat} : b < 128 → Utf8Valid r → Utf8Valid (b :: r)
  | two {b b1 : Nat} {r : List Nat} : 194 ≤ b → b ≤ 223 → 128 ≤ b1 → b1 ≤ 191 →
      Utf8Valid r → Utf8Valid (b :: b1 :: r)
  | three {b b1 b2 : Nat} {r : List Nat} : 224 ≤ b → b ≤ 239 →
      (if b = 224 then 160 ≤ b1 ∧ b1 ≤ 191
       else if b = 237 then 128 ≤ b1 ∧ b1 ≤ 159
       else 128 ≤ b1 ∧ b1 ≤ 191) →
      128 ≤ b2 → b2 ≤ 191 → Utf8Valid r → Utf8Valid (b :: b1 :: b2 :: r)
  | four {b b1 b2 b3 : Nat} {r : List Nat} : 240 ≤ b → b ≤ 244 →
      (if b = 240 then 144 ≤ b1 ∧ b1 ≤ 191
       else if b = 244 then 128 ≤ b1 ∧ b1 ≤ 143
       else 128 ≤ b1 ∧ b1 ≤ 191) →
      128 ≤ b2 → b2 ≤ 191 → 128 ≤ b3 → b3 ≤ 191 → Utf8Valid r →
      Utf8Valid (b :: b1 :: b2 :: b3 :: r)

/-- Every output of the lossy decoder is valid UTF-8: copied sequences were
validated, and the replacement character EF BF BD is itself a valid 3-byte
sequence. -/
theorem utf8_fuel_valid : ∀ f : Nat, ∀ l : List Nat, l.length ≤ f →
    Utf8Valid (utf8_lossy_fuel f l) := by
  intro f
  induction f with
  | zero => intro l h; cases l with
    | nil => exact .nil
    | cons b r => simp at h
  | succ f1 ih =>
    intro l hl
    have replValid : ∀ m : List Nat, Utf8Valid m → Utf8Valid (replacementChar ++ m) := by
      intro m hm
      exact .three (by norm_num) (by norm_num) (by norm_num) (by norm_num)
        (by norm_num) hm
    cases l with
    | nil => exact .nil
    | cons b r =>
      have hr : r.length ≤ f1 := by simpa using hl
      simp only [utf8_lossy_fuel]
      by_cases hA : b < 128
      · simp only [if_pos hA]; exact .one hA (ih r hr)
      simp only [if_neg hA]
      by_cases hB : b < 194
      · simp only [if_pos hB]; exact replValid _ (ih r hr)
      simp only [if_neg hB]
      by_cases hC : b ≤ 223
      · simp only [if_pos hC]
        cases r with
        | nil => exact replValid _ (ih _ (by simp))
        | cons b1 r1 =>
          have hr1 : r1.length ≤ f1 := by simp at hr ⊢; omega
          by_cases hc1 : 128 ≤ b1 ∧ b1 ≤ 191
          · simp only [if_pos hc1]
            exact .two (by omega) hC hc1.1 hc1.2 (ih r1 hr1)
          · simp only [if_neg hc1]; exact replValid _ (ih _ hr)
      simp only [if_neg hC]
      by_cases hD : b ≤ 239
      · simp only [if_pos hD]
        cases r with
        | nil => exact replValid _ (ih _ (by simp))
        | cons b1 r1 =>
          have hr1 : r1.length ≤ f1 := by simp at hr ⊢; omega
          by_cases hc1 : (if b = 224 then 160 ≤ b1 ∧ b1 ≤ 191
              else if b = 237 then 128 ≤ b1 ∧ b1 ≤ 159
              else 128 ≤ b1 ∧ b1 ≤ 191)
          · simp only [if_pos hc1]
            cases r1 with
            | nil => exact replValid _ (ih _ hr1)
            | cons b2 r2 =>
              have hr2 : r2.length ≤ f1 := by simp at hr ⊢; omega
              by_cases hc2 : 128 ≤ b2 ∧ b2 ≤ 191
              · simp only [if_pos hc2]
                exact .three (by omega) hD hc1 hc2.1 hc2.2 (ih r2 hr2)
              · simp only [if_neg hc2]; exact replValid _ (ih _ hr1)
          · simp only [if_neg hc1]; exact replValid _ (ih _ hr)
      simp only [if_neg hD]
      by_cases hE : b ≤ 244
      · simp only [if_pos hE]
        cases r with
        | nil => exact replValid _ (ih _ (by simp))
        | cons b1 r1 =>
          have hr1 : r1.length ≤ f1 := by simp at hr ⊢; omega
          by_cases hc1 : (if b = 240 then 144 ≤ b1 ∧ b1 ≤ 191
              else if b = 244 then 128 ≤ b1 ∧ b1 ≤ 143
              else 128 ≤ b1 ∧ b1 ≤ 191)
          · simp only [if_pos hc1]
            cases r1 with
            | nil => exact replValid _ (ih _ hr1)
            | cons b2 r2 =>
              have hr2 : r2.length ≤ f1 := by simp at hr ⊢; omega
              by_cases hc2 : 128 ≤ b2 ∧ b2 ≤ 191
              · simp only [if_pos hc2]
                cases r2 with
                | nil => exact replValid _ (ih _ hr2)
                | cons b3 r3 =>
                  have hr3 : r3.length ≤ f1 := by simp at hr ⊢; omega
                  by_cases hc3 : 128 ≤ b3 ∧ b3 ≤ 191
                  · simp only [if_pos hc3]
                    exact .four (by omega) hE hc1 hc2.1 hc2.2 hc3.1 hc3.2 (ih r3 hr3)
                  · simp only [if_neg hc3]; exact replValid _ (ih _ hr2)
              · simp only [if_neg hc2]; exact replValid _ (ih _ hr1)
          · simp only [if_neg hc1]; exact replValid _ (ih _ hr)
      · simp only [if_neg hE]; exact replValid _ (ih _ hr)

theorem utf8_lossy_valid (l : List Nat) : Utf8Valid (utf8_lossy l) :=
  utf8_fuel_valid l.length l (le_refl _)

theorem utf8_lossy_one {b : Nat} (r : List Nat) (h : b < 128) :
    utf8_lossy (b :: r) = b :: utf8_lossy r := by
  show utf8_lossy_fuel (b :: r).length (b :: r) = _
  simp only [List.length_cons, utf8_lossy_fuel, if_pos h]
  rfl

theorem utf8_lossy_two {b b1 : Nat} (r : List Nat) (h1 : 194 ≤ b) (h2 : b ≤ 223)
    (h3 : 128 ≤ b1) (h4 : b1 ≤ 191) :
    utf8_lossy (b :: b1 :: r) = b :: b1 :: utf8_lossy r := by
  show utf8_lossy_fuel (b :: b1 :: r).length (b :: b1 :: r) = _
  simp only [List.length_cons, utf8_lossy_fuel, if_neg (by omega : ¬b < 128),
    if_neg (by omega : ¬b < 194), if_pos h2, if_pos (⟨h3, h4⟩ : 128 ≤ b1 ∧ b1 ≤ 191)]
  rw [← utf8_lossy_eq_fuel (by omega)]

theorem utf8_lossy_three {b b1 b2 : Nat} (r : List Nat) (h1 : 224 ≤ b) (h2 : b ≤ 239)
    (h3 : if b = 224 then 160 ≤ b1 ∧ b1 ≤ 191
          else if b = 237 then 128 ≤ b1 ∧ b1 ≤ 159
          else 128 ≤ b1 ∧ b1 ≤ 191)
    (h4 : 128 ≤ b2) (h5 : b2 ≤ 191) :
    utf8_lossy (b :: b1 :: b2 :: r) = b :: b1 :: b2 :: utf8_lossy r := by
  show utf8_lossy_fuel (b :: b1 :: b2 :: r).length (b :: b1 :: b2 :: r) = _
  simp only [List.length_cons, utf8_lossy_fuel, if_neg (by omega : ¬b < 128),
    if_neg (by omega : ¬b < 194), if_neg (by omega : ¬b ≤ 223), if_pos h2,
    if_pos h3, if_pos (⟨h4, h5⟩ : 128 ≤ b2 ∧ b2 ≤ 191)]
  rw [← utf8_lossy_eq_fuel (by omega)]

theorem utf8_lossy_four {b b1 b2 b3 : Nat} (r : List Nat) (h1 : 240 ≤ b) (h2 : b ≤ 244)
    (h3 : if b = 240 then 144 ≤ b1 ∧ b1 ≤ 191
          else if b = 244 then 128 ≤ b1 ∧ b1 ≤ 143
          else 128 ≤ b1 ∧ b1 ≤ 191)
    (h4 : 128 ≤ b2) (h5 : b2 ≤ 191) (h6 : 128 ≤ b3) (h7 : b3 ≤ 191) :
    utf8_lossy (b :: b1 :: b2 :: b3 :: r) = b :: b1 :: b2 :: b3 :: utf8_lossy r := by
  show utf8_lossy_fuel (b :: b1 :: b2 :: b3 :: r).length (b :: b1 :: b2 :: b3 :: r) = _
  simp only [List.length_cons, utf8_lossy_fuel, if_neg (by omega : ¬b < 128),
    if_neg (by omega : ¬b < 194), if_neg (by omega : ¬b ≤ 223),
    if_neg (by omega : ¬b ≤ 239), if_pos h2, if_pos h3,
    if_pos (⟨h4, h5⟩ : 128 ≤ b2 ∧ b2 ≤ 191), if_pos (⟨h6, h7⟩ : 128 ≤ b3 ∧ b3 ≤ 191)]
  rw [← utf8_lossy_eq_fuel (by omega)]

/-- The lossy decoder is the identity on valid UTF-8. -/
theorem utf8_lossy_id_of_valid {l : List Nat} (h : Utf8Valid l) : utf8_lossy l = l := by
  induction h with
  | nil => rfl
  | one hb _ ih => rw [utf8_lossy_one _ hb, ih]
  | two h1 h2 h3 h4 _ ih => rw [utf8_lossy_two _ h1 h2 h3 h4, ih]
  | three h1 h2 h3 h4 h5 _ ih => rw [utf8_lossy_three _ h1 h2 h3 h4 h5, ih]
  | four h1 h2 h3 h4 h5 h6 h7 _ ih => rw [utf8_lossy_four _ h1 h2 h3 h4 h5 h6 h7, ih]

/-- `from_utf8_lossy` is idempotent: re-decoding an already lossily decoded
string changes nothing. -/
theorem utf8_lossy_idem (l : List Nat) : utf8_lossy (utf8_lossy l) = utf8_lossy l :=
  utf8_lossy_id_of_valid (utf8_lossy_valid l)

/-- An invalid lead byte like 0xFF becomes one replacement character. -/
theorem utf8_lossy_255 (r : List Nat) :
    utf8_lossy (255 :: r) = replacementChar ++ utf8_lossy r := by
  show utf8_lossy_fuel (255 :: r).length (255 :: r) = _
  simp only [List.length_cons, utf8_lossy_fuel, if_neg (by omega : ¬(255 : Nat) < 128),
    if_neg (by omega : ¬(255 : Nat) < 194), if_neg (by omega : ¬(255 : Nat) ≤ 223),
    if_neg (by omega : ¬(255 : Nat) ≤ 239), if_neg (by omega : ¬(255 : Nat) ≤ 244)]
  rfl

theorem utf8_lossy_replicate_255 (n : Nat) :
    utf8_lossy (List.replicate n 255) =
      (List.replicate n replacementChar).flatten := by
  induction n with
  | zero => rfl
  | succ m ih => rw [List.replicate_succ, utf8_lossy_255, ih, List.replicate_succ,
      List.flatten_cons]

theorem utf8_lossy_replicate_255_length (n : Nat) :
    (utf8_lossy (List.replicate n 255)).length = 3 * n := by
  induction n with
  | zero => rfl
  | succ m ih =>
    rw [List.replicate_succ, utf8_lossy_255, List.length_append, ih]
    simp [replacementChar]
    omega

/-! ### Well-formedness invariants established by decoding -/

/-- A value that fits a `CPIndex`: 16 bits, nonzero. -/
def cpindex_wf (n : Nat) : Prop := 0 < n ∧ n < 65536

/-- The field bounds a decoded `ConstantPoolEntry` satisfies; the Utf8 clause
records that the stored text is a fixed point of the lossy decoder. -/
def entry_wf : ConstantPoolEntry → Prop
  | .Class ni => cpindex_wf ni
  | .FieldRef ci nti => cpindex_wf ci ∧ cpindex_wf nti
  | .MethodRef ci nti => cpindex_wf ci ∧ cpindex_wf nti
  | .InterfaceMethodRef ci nti => cpindex_wf ci ∧ cpindex_wf nti
  | .String si => cpindex_wf si
  | .Integer v => v < 4294967296
  | .Float v => v < 4294967296
  | .Long v => v < 18446744073709551616
  | .Double v => v < 18446744073709551616
  | .NameAndType ni di => cpindex_wf ni ∧ cpindex_wf di
  | .Utf8 s => utf8_lossy s = s
  | .MethodHandle _ ri => cpindex_wf ri
  | .MethodType di => cpindex_wf di
  | .InvokeDynamic b nti => b < 65536 ∧ cpindex_wf nti

/-- Shape of a decoded constant pool: sequential keys from 1 stepped by entry
widths, final index still in `u16` range, all entries well-formed. -/
def pool_wf (cp : ConstantPool) : Prop :=
  pool_shape 1 cp ∧ pool_final 1 cp < 65536 ∧ ∀ p ∈ cp, entry_wf p.2

/-- Field bounds of a decoded exception-table entry. -/
def ete_wf (e : ExceptionTableEntry) : Prop :=
  e.start < 65536 ∧ e.end_ < 65536 ∧ e.handler < 65536 ∧ cpindex_wf e.catch_type

mutual

/-- State of an attribute after the resolution pass, with the bounds decoding
guarantees: a still-opaque attribute is one whose (re-)resolution leaves it
unchanged — it returns it as-is or fails with a swallowed `io::Error`; a typed
attribute records the pool name that selected its kind, field bounds, and (for
`Code`) recursively resolved nested attributes. -/
def attr_resolved (cp : ConstantPool) : Attribute → Prop
  | (ni, .Any b) => cpindex_wf ni ∧ b.length < 4294967296 ∧
      (Attribute.resolve cp (ni, .Any b) = .ok (ni, .Any b) ∨
       ∃ m, Attribute.resolve cp (ni, .Any b) = .error (.msg m))
  | (ni, .ConstantValue i) => cpindex_wf ni ∧
      cp.lookup ni = some (.Utf8 constantValueName) ∧ cpindex_wf i
  | (ni, .Code ms ml code et attrs) => cpindex_wf ni ∧
      cp.lookup ni = some (.Utf8 codeName) ∧ ms < 65536 ∧ ml < 65536 ∧
      code.length < 4294967296 ∧ et.length < 65536 ∧ (∀ e ∈ et, ete_wf e) ∧
      attrs.length < 65536 ∧ attrs_resolved cp attrs ∧
      (AttributeInfo.serialize (.Code ms ml code et attrs)).length < 4294967296
  | (ni, .Exceptions t) => cpindex_wf ni ∧
      cp.lookup ni = some (.Utf8 exceptionsName) ∧ t.length < 65536 ∧
      ∀ i ∈ t, cpindex_wf i

/-- `attr_resolved` over a list. -/
def attrs_resolved (cp : ConstantPool) : List Attribute → Prop
  | [] => True
  | a :: r => attr_resolved cp a ∧ attrs_resolved cp r

end

/-- Bounds of a decoded field. -/
def field_wf (cp : ConstantPool) (f : Field) : Prop :=
  f.access_flags < 32768 ∧ cpindex_wf f.name_index ∧ cpindex_wf f.descriptor_index ∧
  f.attributes.length < 65536 ∧ attrs_resolved cp f.attributes

/-- Bounds of a decoded method. -/
def method_wf (cp : ConstantPool) (m : Method) : Prop :=
  m.access_flags < 32768 ∧ cpindex_wf m.name_index ∧ cpindex_wf m.descriptor_index ∧
  m.attributes.length < 65536 ∧ attrs_resolved cp m.attributes

/-- Everything a successful decode guarantees about the resulting class (the
Utf8 byte-length bound is deliberately NOT here: decoding does not guarantee
it, which is exactly the round-trip counterexample). -/
def class_wf (c : JavaClass) : Prop :=
  c.magic_bytes < 4294967296 ∧ c.minor_version < 65536 ∧ c.major_version < 65536 ∧
  pool_wf c.constant_pool ∧ c.access_flags < 32768 ∧ cpindex_wf c.this_class ∧
  (∀ i, c.super_class = some i → cpindex_wf i) ∧
  c.interfaces.length < 65536 ∧ (∀ i ∈ c.interfaces, cpindex_wf i) ∧
  c.fields.length < 65536 ∧ (∀ f ∈ c.fields, field_wf c.constant_pool f) ∧
  c.methods.length < 65536 ∧ (∀ m ∈ c.methods, method_wf c.constant_pool m) ∧
  c.attributes.length < 65536 ∧ attrs_resolved c.constant_pool c.attributes

/-- Every Utf8 constant's text fits the 16-bit length prefix it is written
with.  This is the hypothesis the round-trip needs beyond `class_wf`. -/
def pool_utf8_short (cp : ConstantPool) : Prop :=
  ∀ p ∈ cp, ∀ s, p.2 = ConstantPoolEntry.Utf8 s → s.length < 65536

/-! ### Serialize-then-decode inverses for the leaf codecs -/

theorem CPIndex_inverse {n : Nat} (h : cpindex_wf n) (t : List Nat) :
    CPIndex.deserialize (u16_be n ++ t) = .ok (n, t) := by
  obtain ⟨h1, h2⟩ := h
  simp only [CPIndex.deserialize, read_u16_u16_be_lt h2]
  rw [if_neg (by omega : ¬n = 0)]

theorem RefKind_inverse (k : ReferenceKind) (t : List Nat) :
    ReferenceKind.deserialize (k.toU8 :: t) = .ok (k, t) := by
  cases k <;>
    simp [ReferenceKind.deserialize, ReferenceKind.toU8, read_u8_cons,
      ReferenceKind.try_from]

theorem entry_inverse {e : ConstantPoolEntry} (h : entry_wf e)
    (hshort : ∀ s, e = .Utf8 s → s.length < 65536) (t : List Nat) :
    ConstantPoolEntry.deserialize (e.serialize ++ t) = .ok (e, t) := by
  cases e with
  | Class ni =>
    simp only [ConstantPoolEntry.serialize, List.cons_append,
      ConstantPoolEntry.deserialize, bind, Except.bind, read_u8_cons,
      CPIndex_inverse h]
  | FieldRef ci nti =>
    simp only [ConstantPoolEntry.serialize, List.cons_append, List.append_assoc,
      ConstantPoolEntry.deserialize, bind, Except.bind, read_u8_cons,
      CPIndex_inverse h.1, CPIndex_inverse h.2]
  | MethodRef ci nti =>
    simp only [ConstantPoolEntry.serialize, List.cons_append, List.append_assoc,
      ConstantPoolEntry.deserialize, bind, Except.bind, read_u8_cons,
      CPIndex_inverse h.1, CPIndex_inverse h.2]
  | InterfaceMethodRef ci nti =>
    simp only [ConstantPoolEntry.serialize, List.cons_append, List.append_assoc,
      ConstantPoolEntry.deserialize, bind, Except.bind, read_u8_cons,
      CPIndex_inverse h.1, CPIndex_inverse h.2]
  | String si =>
    simp only [ConstantPoolEntry.serialize, List.cons_append,
      ConstantPoolEntry.deserialize, bind, Except.bind, read_u8_cons,
      CPIndex_inverse h]
  | Integer v =>
    simp only [ConstantPoolEntry.serialize, List.cons_append,
      ConstantPoolEntry.deserialize, bind, Except.bind, read_u8_cons]
    have := read_u32_u32_be_lt h t
    simp only [read_i32, read_u32] at this ⊢
    simp only [this]
  | Float v =>
    simp only [ConstantPoolEntry.serialize, List.cons_append,
      ConstantPoolEntry.deserialize, bind, Except.bind, read_u8_cons]
    have := read_u32_u32_be_lt h t
    simp only [read_f32, read_u32] at this ⊢
    simp only [this]
  | Long v =>
    simp only [ConstantPoolEntry.serialize, List.cons_append,
      ConstantPoolEntry.deserialize, bind, Except.bind, read_u8_cons,
      read_u64_u64_be_lt h]
  | Double v =>
    simp only [ConstantPoolEntry.serialize, List.cons_append,
      ConstantPoolEntry.deserialize, bind, Except.bind, read_u8_cons]
    have := read_u64_u64_be_lt h t
    simp only [read_f64, read_i64] at this ⊢
    simp only [this]
  | NameAndType ni di =>
    simp only [ConstantPoolEntry.serialize, List.cons_append, List.append_assoc,
      ConstantPoolEntry.deserialize, bind, Except.bind, read_u8_cons,
      CPIndex_inverse h.1, CPIndex_inverse h.2]
  | Utf8 s =>
    have hs : s.length < 65536 := hshort s rfl
    simp only [ConstantPoolEntry.serialize, List.cons_append, List.append_assoc,
      ConstantPoolEntry.deserialize, bind, Except.bind, read_u8_cons,
      read_u16_u16_be_lt hs, read_bytes_append]
    have : entry_wf (ConstantPoolEntry.Utf8 s) = (utf8_lossy s = s) := rfl
    rw [this] at h
    rw [h]
  | MethodHandle k ri =>
    simp only [ConstantPoolEntry.serialize, List.cons_append,
      ConstantPoolEntry.deserialize, bind, Except.bind, read_u8_cons,
      RefKind_inverse, CPIndex_inverse h]
  | MethodType di =>
    simp only [ConstantPoolEntry.serialize, List.cons_append,
      ConstantPoolEntry.deserialize, bind, Except.bind, read_u8_cons,
      CPIndex_inverse h]
  | InvokeDynamic b nti =>
    simp only [ConstantPoolEntry.serialize, List.cons_append, List.append_assoc,
      ConstantPoolEntry.deserialize, bind, Except.bind, read_u8_cons,
      read_u16_u16_be_lt h.1, CPIndex_inverse h.2]

/-! ### Constant-pool round trip -/

theorem pool_final_ge : ∀ (cp : ConstantPool) (i : Nat), i ≤ pool_final i cp := by
  intro cp
  induction cp with
  | nil => intro i; simp [pool_final]
  | cons p rest ih =>
    intro i
    obtain ⟨j, e⟩ := p
    have hsz : 1 ≤ e.size := by cases e <;> simp [ConstantPoolEntry.size]
    have := ih (i + e.size)
    simp only [pool_final]
    omega

theorem pool_final_eq : ∀ (cp : ConstantPool) (i : Nat),
    pool_final i cp = i + (cp.map fun p => p.2.size).sum := by
  intro cp
  induction cp with
  | nil => intro i; simp [pool_final]
  | cons p rest ih =>
    intro i
    obtain ⟨j, e⟩ := p
    simp only [pool_final, List.map_cons, List.sum_cons, ih (i + e.size)]
    omega

theorem pool_length_le_sum : ∀ cp : ConstantPool,
    cp.length ≤ (cp.map fun p => p.2.size).sum := by
  intro cp
  induction cp with
  | nil => simp
  | cons p rest ih =>
    obtain ⟨j, e⟩ := p
    have hsz : 1 ≤ e.size := by cases e <;> simp [ConstantPoolEntry.size]
    simp only [List.length_cons, List.map_cons, List.sum_cons]
    omega

theorem pool_shape_pairwise {i : Nat} {cp : ConstantPool} (h : pool_shape i cp) :
    List.Pairwise (fun p q : Nat × ConstantPoolEntry => p.1 ≤ q.1) cp := by
  induction cp generalizing i with
  | nil => exact .nil
  | cons p rest ih =>
    obtain ⟨j, e⟩ := p
    obtain ⟨hj, hrest⟩ := h
    subst hj
    refine .cons ?_ (ih hrest)
    intro q hq
    have := pool_shape_mem_ge hrest q hq
    have hsz : 1 ≤ e.size := by cases e <;> simp [ConstantPoolEntry.size]
    simp only
    omega

theorem entries_loop_inverse :
    ∀ (cp : ConstantPool) (i fuel : Nat) (t : List Nat) (fin : Nat),
      pool_shape i cp → 1 ≤ i → fin = pool_final i cp → fin < 65536 →
      (∀ p ∈ cp, entry_wf p.2) →
      (∀ p ∈ cp, ∀ s, p.2 = .Utf8 s → s.length < 65536) →
      cp.length < fuel →
      ConstantPool.entries_loop fuel fin i
        ((cp.flatMap fun p => p.2.serialize) ++ t) = .ok (cp, t) := by
  intro cp
  induction cp with
  | nil =>
    intro i fuel t fin hsh hi hfin hfin2 hwf hshort hfuel
    have : fin = i := by rw [hfin]; rfl
    subst this
    cases fuel with
    | zero => omega
    | succ f =>
      simp only [List.flatMap_nil, List.nil_append, ConstantPool.entries_loop]
      rw [if_neg (by omega)]
  | cons p rest ih =>
    intro i fuel t fin hsh hi hfin hfin2 hwf hshort hfuel
    obtain ⟨j, e⟩ := p
    obtain ⟨hj, hrest⟩ := hsh
    subst hj
    cases fuel with
    | zero => omega
    | succ f =>
      have hsz : 1 ≤ e.size := by cases e <;> simp [ConstantPoolEntry.size]
      have hge := pool_final_ge rest (j + e.size)
      have hfin3 : fin = pool_final (j + e.size) rest := by rw [hfin]; rfl
      have hstep : j < fin := by omega
      simp only [List.flatMap_cons, List.append_assoc, ConstantPool.entries_loop,
        if_pos hstep]
      rw [entry_inverse (hwf (j, e) (List.mem_cons_self _ _))
        (hshort (j, e) (List.mem_cons_self _ _))]
      dsimp only
      rw [if_neg (by omega : ¬j = 0)]
      have hmod : (j + e.size) % 65536 = j + e.size := Nat.mod_eq_of_lt (by omega)
      rw [hmod, ih (j + e.size) f t fin hrest (by omega) hfin3 hfin2
        (fun q hq => hwf q (List.mem_cons_of_mem _ hq))
        (fun q hq => hshort q (List.mem_cons_of_mem _ hq))
        (by simpa using Nat.lt_of_succ_lt_succ (by simpa using hfuel))]

theorem pool_inverse {cp : ConstantPool} (h : pool_wf cp)
    (hshort : pool_utf8_short cp) (t : List Nat) :
    ConstantPool.deserialize (ConstantPool.serialize cp ++ t) = .ok (cp, t) := by
  obtain ⟨hsh, hfin, hwf⟩ := h
  have hsort_eq : List.insertionSort (fun p q => p.1 ≤ q.1) cp = cp :=
    List.Sorted.insertionSort_eq (pool_shape_pairwise hsh)
  have hsize : ConstantPool.size cp = pool_final 1 cp := by
    rw [pool_final_eq]
    simp only [ConstantPool.size]
    omega
  have hsz_lt : ConstantPool.size cp < 65536 := by omega
  simp only [ConstantPool.serialize, hsort_eq, List.append_assoc,
    ConstantPool.deserialize, bind, Except.bind, read_u16_u16_be_lt hsz_lt]
  rw [hsize]
  exact entries_loop_inverse cp 1 (pool_final 1 cp + 1) t (pool_final 1 cp) hsh
    (le_refl _) rfl hfin hwf hshort
    (by have h1 := pool_length_le_sum cp
        have h2 := pool_final_eq cp 1
        omega)

/-! ### Structural inverses for sequences, attributes, fields, methods -/

/-- What the structural decoder sees of a serialized attribute: its name index
with the info flattened back to an opaque blob. -/
def structAny (a : Attribute) : Attribute := (a.1, .Any (AttributeInfo.serialize a.2))

theorem deserialize_vec_inverse_map {α β : Type}
    {d : List Nat → Except DecErr (β × List Nat)} {ser : α → List Nat} {g : α → β} :
    ∀ (l : List α) (t : List Nat),
      (∀ a ∈ l, ∀ t2, d (ser a ++ t2) = .ok (g a, t2)) →
      deserialize_vec d l.length (l.flatMap ser ++ t) = .ok (l.map g, t) := by
  intro l
  induction l with
  | nil => intro t h; simp [deserialize_vec]
  | cons a r ih =>
    intro t h
    simp only [List.flatMap_cons, List.append_assoc, List.length_cons,
      deserialize_vec, bind, Except.bind,
      h a (List.mem_cons_self _ _) ((r.flatMap ser) ++ t)]
    rw [ih t fun x hx => h x (List.mem_cons_of_mem _ hx)]
    rfl

theorem vec_inverse_map {α β : Type}
    {d : List Nat → Except DecErr (β × List Nat)} {ser : α → List Nat} {g : α → β}
    {l : List α} (hlen : l.length < 65536) (t : List Nat)
    (h : ∀ a ∈ l, ∀ t2, d (ser a ++ t2) = .ok (g a, t2)) :
    Vec.deserialize d (serialize_vec ser l ++ t) = .ok (l.map g, t) := by
  simp only [serialize_vec, List.append_assoc, Vec.deserialize, bind, Except.bind,
    read_u16_u16_be_lt hlen]
  exact deserialize_vec_inverse_map l t h

theorem vec_inverse {α : Type}
    {d : List Nat → Except DecErr (α × List Nat)} {ser : α → List Nat}
    {l : List α} (hlen : l.length < 65536) (t : List Nat)
    (h : ∀ a ∈ l, ∀ t2, d (ser a ++ t2) = .ok (a, t2)) :
    Vec.deserialize d (serialize_vec ser l ++ t) = .ok (l, t) := by
  have := vec_inverse_map (g := id) hlen t h
  simpa using this

theorem ete_inverse {e : ExceptionTableEntry} (h : ete_wf e) (t : List Nat) :
    ExceptionTableEntry.deserialize (e.serialize ++ t) = .ok (e, t) := by
  obtain ⟨h1, h2, h3, h4⟩ := h
  simp only [ExceptionTableEntry.serialize, List.append_assoc,
    ExceptionTableEntry.deserialize, bind, Except.bind, read_u16_u16_be_lt h1,
    read_u16_u16_be_lt h2, read_u16_u16_be_lt h3, CPIndex_inverse h4]

theorem code_vec_inverse : ∀ (code : List Nat) (t : List Nat),
    deserialize_vec CodeByte.deserialize code.length (code ++ t) = .ok (code, t) := by
  intro code
  induction code with
  | nil => intro t; simp [deserialize_vec]
  | cons b r ih =>
    intro t
    simp only [List.cons_append, List.length_cons, deserialize_vec, bind,
      Except.bind, CodeByte.deserialize, read_u8_cons, ih t]

theorem flatMap_u16_be_length (l : List Nat) : (l.flatMap u16_be).length = 2 * l.length := by
  induction l with
  | nil => rfl
  | cons a r ih => simp only [List.flatMap_cons, List.length_append, ih, u16_be]; simp; omega

theorem attr_resolved_bounds {cp : ConstantPool} {a : Attribute}
    (h : attr_resolved cp a) :
    cpindex_wf a.1 ∧ (AttributeInfo.serialize a.2).length < 4294967296 := by
  obtain ⟨ni, info⟩ := a
  cases info with
  | Any b =>
    simp only [attr_resolved] at h
    obtain ⟨h1, h2, -⟩ := h
    exact ⟨h1, h2⟩
  | ConstantValue i =>
    simp only [attr_resolved] at h
    obtain ⟨h1, -⟩ := h
    exact ⟨h1, by simp [AttributeInfo.serialize, u16_be]⟩
  | Code ms ml code et attrs =>
    simp only [attr_resolved] at h
    obtain ⟨h1, -, -, -, -, -, -, -, -, h10⟩ := h
    exact ⟨h1, h10⟩
  | Exceptions tl =>
    simp only [attr_resolved] at h
    obtain ⟨h1, -, h3, -⟩ := h
    refine ⟨h1, ?_⟩
    simp only [AttributeInfo.serialize, List.length_append, flatMap_u16_be_length]
    simp [u16_be]
    omega

theorem attrs_resolved_forall {cp : ConstantPool} :
    ∀ {l : List Attribute}, attrs_resolved cp l ↔ ∀ a ∈ l, attr_resolved cp a := by
  intro l
  induction l with
  | nil => simp [attrs_resolved]
  | cons a r ih =>
    simp only [attrs_resolved, ih]
    constructor
    · rintro ⟨h1, h2⟩ x hx
      rcases List.mem_cons.mp hx with hx | hx
      · exact hx ▸ h1
      · exact h2 x hx
    · intro h
      exact ⟨h a (List.mem_cons_self _ _), fun x hx => h x (List.mem_cons_of_mem _ hx)⟩

theorem attr_struct_inverse {cp : ConstantPool} {a : Attribute}
    (h : attr_resolved cp a) (t : List Nat) :
    Attribute.deserialize (Attribute.serialize a ++ t) = .ok (structAny a, t) := by
  obtain ⟨hni, hlen⟩ := attr_resolved_bounds h
  obtain ⟨ni, info⟩ := a
  show Attribute.deserialize
    ((u16_be ni ++ (u32_be (AttributeInfo.serialize info).length ++
      AttributeInfo.serialize info)) ++ t) = _
  simp only [List.append_assoc, Attribute.deserialize, bind, Except.bind,
    CPIndex_inverse hni, AttributeInfo.deserialize, read_u32_u32_be_lt hlen,
    read_bytes_append]
  rfl

theorem AccessFlags_inverse {v : Nat} (h : v < 32768) (t : List Nat) :
    AccessFlags.deserialize (u16_be v ++ t) = .ok (v, t) := by
  simp only [AccessFlags.deserialize, read_u16_u16_be_lt (by omega : v < 65536)]
  rw [if_pos h]

theorem field_struct_inverse {cp : ConstantPool} {f : Field} (h : field_wf cp f)
    (t : List Nat) :
    Field.deserialize (Field.serialize f ++ t) =
      .ok (⟨f.access_flags, f.name_index, f.descriptor_index,
            f.attributes.map structAny⟩, t) := by
  obtain ⟨h1, h2, h3, h4, h5⟩ := h
  simp only [Field.serialize, List.append_assoc, Field.deserialize, bind,
    Except.bind, AccessFlags_inverse h1, CPIndex_inverse h2, CPIndex_inverse h3]
  rw [vec_inverse_map h4 t
    (fun a ha t2 => attr_struct_inverse (attrs_resolved_forall.mp h5 a ha) t2)]

theorem method_struct_inverse {cp : ConstantPool} {m : Method} (h : method_wf cp m)
    (t : List Nat) :
    Method.deserialize (Method.serialize m ++ t) =
      .ok (⟨m.access_flags, m.name_index, m.descriptor_index,
            m.attributes.map structAny⟩, t) := by
  obtain ⟨h1, h2, h3, h4, h5⟩ := h
  simp only [Method.serialize, List.append_assoc, Method.deserialize, bind,
    Except.bind, AccessFlags_inverse h1, CPIndex_inverse h2, CPIndex_inverse h3]
  rw [vec_inverse_map h4 t
    (fun a ha t2 => attr_struct_inverse (attrs_resolved_forall.mp h5 a ha) t2)]

/-! ### Re-resolution of reserialized attributes -/

theorem serialize_attr_list_eq_flatMap :
    ∀ l : List Attribute, serialize_attr_list l = l.flatMap Attribute.serialize := by
  intro l
  induction l with
  | nil => rfl
  | cons a r ih => simp only [serialize_attr_list, List.flatMap_cons, ih]

theorem attribute_serialize_length (a : Attribute) :
    (Attribute.serialize a).length = (AttributeInfo.serialize a.2).length + 6 := by
  obtain ⟨ni, info⟩ := a
  simp only [Attribute.serialize, List.length_append, u16_be, u32_be]
  simp
  omega

theorem mem_serialize_attr_list_le {a : Attribute} :
    ∀ {l : List Attribute}, a ∈ l →
      (AttributeInfo.serialize a.2).length + 6 ≤ (serialize_attr_list l).length := by
  intro l
  induction l with
  | nil => simp
  | cons x r ih =>
    intro hm
    rcases List.mem_cons.mp hm with hm | hm
    · subst hm
      simp only [serialize_attr_list, List.length_append, attribute_serialize_length]
      omega
    · have := ih hm
      simp only [serialize_attr_list, List.length_append]
      omega

theorem resolve_each_of_steps {cp : ConstantPool} :
    ∀ attrs : List Attribute,
      (∀ a ∈ attrs, Attribute.resolve cp (structAny a) = .ok a ∨
        (structAny a = a ∧ ∃ m, Attribute.resolve cp a = .error (.msg m))) →
      resolve_each (fun x => Attribute.resolve cp x) (attrs.map structAny) =
        .ok attrs := by
  intro attrs
  induction attrs with
  | nil => intro h; rfl
  | cons a r ih =>
    intro h
    have hr := ih fun x hx => h x (List.mem_cons_of_mem _ hx)
    rcases h a (List.mem_cons_self _ _) with hok | ⟨heq, m, herr⟩
    · simp only [List.map_cons, resolve_each, hok, hr, Except.map]
    · simp only [List.map_cons, resolve_each, heq, herr, hr, Except.map]

/-- Re-resolving the structural (opaque) form of an already resolved attribute
recovers it exactly: a typed attribute re-resolves to itself from its
serialized body, and a still-opaque attribute is either returned unchanged or
fails with the swallowed `io::Error` it failed with before. -/
theorem re_resolve_one :
    ∀ n : Nat, ∀ (cp : ConstantPool) (ni : Nat) (info : AttributeInfo),
      attr_resolved cp (ni, info) → (AttributeInfo.serialize info).length < n →
      Attribute.resolve cp (structAny (ni, info)) = .ok (ni, info) ∨
      (structAny (ni, info) = (ni, info) ∧
        ∃ m, Attribute.resolve cp (ni, info) = .error (.msg m)) := by
  intro n
  induction n using Nat.strong_induction_on with
  | _ n ih =>
    intro cp ni info h hlen
    cases info with
    | Any b =>
      simp only [attr_resolved] at h
      rcases h.2.2 with hok | ⟨m, herr⟩
      · exact Or.inl hok
      · exact Or.inr ⟨rfl, m, herr⟩
    | ConstantValue i =>
      simp only [attr_resolved] at h
      obtain ⟨h1, h2, h3⟩ := h
      left
      show Attribute.resolve_fuel ((u16_be i).length + 1) cp (ni, .Any (u16_be i)) = _
      simp only [Attribute.resolve_fuel]
      rw [h2]
      try dsimp only
      rw [Attribute.resolve_body, if_pos rfl]
      have hi : CPIndex.deserialize (u16_be i) = .ok (i, []) := by
        have := CPIndex_inverse h3 []
        simpa using this
      rw [hi]
    | Exceptions tl =>
      simp only [attr_resolved] at h
      obtain ⟨h1, h2, h3, h4⟩ := h
      left
      show Attribute.resolve_fuel ((serialize_vec u16_be tl).length + 1) cp
        (ni, .Any (serialize_vec u16_be tl)) = _
      simp only [Attribute.resolve_fuel]
      rw [h2]
      try dsimp only
      rw [Attribute.resolve_body, if_neg (by decide), if_neg (by decide), if_pos rfl]
      have hvec : Vec.deserialize CPIndex.deserialize (serialize_vec u16_be tl) =
          .ok (tl, []) := by
        have := vec_inverse h3 [] fun a ha t2 => CPIndex_inverse (h4 a ha) t2
        simpa using this
      rw [hvec]
    | Code ms ml code et attrs =>
      simp only [attr_resolved] at h
      obtain ⟨h1, h2, h3, h4, h5, h6, h7, h8, h9, h10⟩ := h
      left
      cases n with
      | zero => omega
      | succ n1 =>
      have hlen6 : ∀ a ∈ attrs, (AttributeInfo.serialize a.2).length + 6 ≤
          (AttributeInfo.serialize (.Code ms ml code et attrs)).length := by
        intro a ha
        have := mem_serialize_attr_list_le ha
        simp only [AttributeInfo.serialize, List.length_append]
        omega
      have hfix : Attribute.resolve cp (structAny (ni, .Code ms ml code et attrs)) =
          Attribute.resolve_fuel (n1 + 1) cp
            (ni, .Any (AttributeInfo.serialize (.Code ms ml code et attrs))) := by
        apply resolve_eq_fuel
        show (AttributeInfo.serialize (.Code ms ml code et attrs)).length + 1 ≤ n1 + 1
        omega
      rw [hfix]
      simp only [Attribute.resolve_fuel]
      rw [h2]
      try dsimp only
      rw [Attribute.resolve_body, if_neg (by decide), if_pos rfl]
      -- the nested fueled resolver coincides with Attribute::resolve
      have hcong : resolve_each (fun a2 => Attribute.resolve_fuel n1 cp a2)
            (attrs.map structAny) =
          resolve_each (fun x => Attribute.resolve cp x) (attrs.map structAny) := by
        apply resolve_each_congr
        intro x hx
        obtain ⟨a, ha, hax⟩ := List.mem_map.mp hx
        subst hax
        have hf : Attribute.fuel (structAny a) =
            (AttributeInfo.serialize a.2).length + 1 := by
          obtain ⟨ni2, info2⟩ := a
          rfl
        exact ((resolve_eq_fuel (by rw [hf]; have := hlen6 a ha; omega)).symm)
      have hsteps : resolve_each (fun x => Attribute.resolve cp x)
          (attrs.map structAny) = .ok attrs := by
        apply resolve_each_of_steps
        intro a ha
        have hres : attr_resolved cp (a.1, a.2) := attrs_resolved_forall.mp h9 a ha
        have := ih n1 (by omega) cp a.1 a.2 hres (by have := hlen6 a ha; omega)
        simpa using this
      -- now walk the body parse over the serialized Code payload
      simp only [AttributeInfo.serialize, bind, Except.bind,
        read_u16_u16_be_lt h3]
      try dsimp only
      rw [read_u16_u16_be_lt h4]
      try dsimp only
      rw [read_u32_u32_be_lt h5]
      try dsimp only
      rw [code_vec_inverse]
      try dsimp only
      rw [vec_inverse h6 _ fun e he t2 => ete_inverse (h7 e he) t2]
      try dsimp only
      have hattrs : Vec.deserialize Attribute.deserialize
          (u16_be attrs.length ++ serialize_attr_list attrs) =
          .ok (attrs.map structAny, []) := by
        rw [serialize_attr_list_eq_flatMap]
        have : u16_be attrs.length ++ attrs.flatMap Attribute.serialize =
            serialize_vec Attribute.serialize attrs ++ [] := by
          simp [serialize_vec]
        rw [this]
        exact vec_inverse_map h8 [] fun a ha t2 =>
          attr_struct_inverse (attrs_resolved_forall.mp h9 a ha) t2
      rw [hattrs]
      try dsimp only
      rw [hcong, hsteps]

/-- Re-resolving a list of reserialized resolved attributes recovers the list. -/
theorem re_resolve_each {cp : ConstantPool} {attrs : List Attribute}
    (h : attrs_resolved cp attrs) :
    resolve_each (fun x => Attribute.resolve cp x) (attrs.map structAny) =
      .ok attrs := by
  apply resolve_each_of_steps
  intro a ha
  have hres : attr_resolved cp (a.1, a.2) := attrs_resolved_forall.mp h a ha
  have := re_resolve_one ((AttributeInfo.serialize a.2).length + 1) cp a.1 a.2 hres
    (by omega)
  simpa using this

/-! ### Class-level inverse -/

theorem deserialize_super_zero (t : List Nat) :
    JavaClass.deserialize_super (0 :: 0 :: t) = (none, t) := by
  have h16 : read_u16 (0 :: 0 :: t) = .ok (0, t) := by
    simpa using read_u16_cons 0 0 t
  simp [JavaClass.deserialize_super, CPIndex.deserialize, h16]

/-- The structural image of a serialized field. -/
def structField (f : Field) : Field :=
  ⟨f.access_flags, f.name_index, f.descriptor_index, f.attributes.map structAny⟩

/-- The structural image of a serialized method. -/
def structMethod (m : Method) : Method :=
  ⟨m.access_flags, m.name_index, m.descriptor_index, m.attributes.map structAny⟩

theorem resolve_fields_struct {cp : ConstantPool} :
    ∀ fls : List Field, (∀ f ∈ fls, field_wf cp f) →
      resolve_fields cp (fls.map structField) = .ok fls := by
  intro fls
  induction fls with
  | nil => intro h; rfl
  | cons f r ih =>
    intro h
    have hf := h f (List.mem_cons_self _ _)
    have hattrs := re_resolve_each hf.2.2.2.2
    simp only [List.map_cons, resolve_fields, bind, Except.bind, structField, hattrs,
      ih fun x hx => h x (List.mem_cons_of_mem _ hx)]

theorem resolve_methods_struct {cp : ConstantPool} :
    ∀ mts : List Method, (∀ m ∈ mts, method_wf cp m) →
      resolve_methods cp (mts.map structMethod) = .ok mts := by
  intro mts
  induction mts with
  | nil => intro h; rfl
  | cons m r ih =>
    intro h
    have hm := h m (List.mem_cons_self _ _)
    have hattrs := re_resolve_each hm.2.2.2.2
    simp only [List.map_cons, resolve_methods, bind, Except.bind, structMethod, hattrs,
      ih fun x hx => h x (List.mem_cons_of_mem _ hx)]

theorem class_struct_inverse {c : JavaClass} (h : class_wf c)
    (hshort : pool_utf8_short c.constant_pool) :
    JavaClass.deserialize_struct (JavaClass.serialize c) =
      .ok ({ c with
              fields := c.fields.map structField,
              methods := c.methods.map structMethod,
              attributes := c.attributes.map structAny }, []) := by
  obtain ⟨h1, h2, h3, h4, h5, h6, h7, h8, h9, h10, h11, h12, h13, h14, h15⟩ := h
  have hattrs : Vec.deserialize Attribute.deserialize
      (serialize_vec Attribute.serialize c.attributes) =
      .ok (c.attributes.map structAny, []) := by
    have := vec_inverse_map h14 [] fun a ha t2 =>
      attr_struct_inverse (attrs_resolved_forall.mp h15 a ha) t2
    simpa using this
  have hmeths : ∀ t, Vec.deserialize Method.deserialize
      (serialize_vec Method.serialize c.methods ++ t) =
      .ok (c.methods.map structMethod, t) := fun t =>
    vec_inverse_map h12 t fun m hm t2 => method_struct_inverse (h13 m hm) t2
  have hflds : ∀ t, Vec.deserialize Field.deserialize
      (serialize_vec Field.serialize c.fields ++ t) =
      .ok (c.fields.map structField, t) := fun t =>
    vec_inverse_map h10 t fun f hf t2 => field_struct_inverse (h11 f hf) t2
  have hifaces : ∀ t, Vec.deserialize CPIndex.deserialize
      (serialize_vec u16_be c.interfaces ++ t) = .ok (c.interfaces, t) := fun t =>
    vec_inverse h8 t fun i hi t2 => CPIndex_inverse (h9 i hi) t2
  have hsuper : ∀ t, JavaClass.deserialize_super
      (u16_be (c.super_class.getD 0) ++ t) = (c.super_class, t) := by
    intro t
    cases hsc : c.super_class with
    | none => simpa [Option.getD, u16_be] using deserialize_super_zero t
    | some i =>
      have hi := h7 i hsc
      simp only [Option.getD, JavaClass.deserialize_super, CPIndex_inverse hi t]
  simp only [JavaClass.serialize, List.append_assoc, JavaClass.deserialize_struct,
    bind, Except.bind, read_u32_u32_be_lt h1, read_u16_u16_be_lt h2,
    read_u16_u16_be_lt h3, pool_inverse ⟨h4.1, h4.2.1, h4.2.2⟩ hshort,
    AccessFlags_inverse h5, CPIndex_inverse h6, hsuper, hifaces, hflds, hmeths,
    hattrs]

/-- A well-formed class whose Utf8 constants all fit their 16-bit length
prefixes decodes back from its own serialization, exactly. -/
theorem class_inverse {c : JavaClass} (h : class_wf c)
    (hshort : pool_utf8_short c.constant_pool) :
    JavaClass.deserialize (JavaClass.serialize c) = .ok (c, []) := by
  rw [deserialize_eq_struct_resolve, class_struct_inverse h hshort]
  try dsimp only
  rw [resolve_fields_struct c.fields h.2.2.2.2.2.2.2.2.2.2.1]
  try dsimp only
  rw [resolve_methods_struct c.methods h.2.2.2.2.2.2.2.2.2.2.2.2.1]
  try dsimp only
  rw [re_resolve_each h.2.2.2.2.2.2.2.2.2.2.2.2.2.2]

/-! ### Decode establishes well-formedness: primitives -/

theorem read_map_ok_of {n : Nat} {s : List Nat} {v : Nat} {r : List Nat}
    (hs : ByteStream s)
    (h : (read_bytes s n).map (fun p => (be_val p.1, p.2)) = .ok (v, r)) :
    v < 256 ^ n ∧ ByteStream r ∧ r = s.drop n := by
  cases hrb : read_bytes s n with
  | error e => rw [hrb] at h; simp [Except.map] at h
  | ok p =>
    rw [hrb] at h
    simp only [Except.map, Except.ok.injEq, Prod.mk.injEq] at h
    obtain ⟨hl, hr, hlen, -⟩ := read_bytes_ok_of hrb
    have hbs : ByteStream p.1 := hl ▸ hs.take n
    have := be_val_lt hbs
    rw [hlen] at this
    exact ⟨h.1 ▸ this, h.2 ▸ hr ▸ hs.drop n, h.2 ▸ hr⟩

theorem read_u8_ok_of {s : List Nat} {v : Nat} {r : List Nat} (hs : ByteStream s)
    (h : read_u8 s = .ok (v, r)) : v < 256 ∧ ByteStream r := by
  rw [read_u8] at h
  have := read_map_ok_of hs h
  exact ⟨by simpa using this.1, this.2.1⟩

theorem read_u32_ok_of {s : List Nat} {v : Nat} {r : List Nat} (hs : ByteStream s)
    (h : read_u32 s = .ok (v, r)) : v < 4294967296 ∧ ByteStream r := by
  rw [read_u32] at h
  have := read_map_ok_of hs h
  exact ⟨by norm_num at this ⊢; exact this.1, this.2.1⟩

theorem read_i32_ok_of {s : List Nat} {v : Nat} {r : List Nat} (hs : ByteStream s)
    (h : read_i32 s = .ok (v, r)) : v < 4294967296 ∧ ByteStream r := by
  rw [read_i32] at h
  have := read_map_ok_of hs h
  exact ⟨by norm_num at this ⊢; exact this.1, this.2.1⟩

theorem read_f32_ok_of {s : List Nat} {v : Nat} {r : List Nat} (hs : ByteStream s)
    (h : read_f32 s = .ok (v, r)) : v < 4294967296 ∧ ByteStream r := by
  rw [read_f32] at h
  have := read_map_ok_of hs h
  exact ⟨by norm_num at this ⊢; exact this.1, this.2.1⟩

theorem read_i64_ok_of {s : List Nat} {v : Nat} {r : List Nat} (hs : ByteStream s)
    (h : read_i64 s = .ok (v, r)) : v < 18446744073709551616 ∧ ByteStream r := by
  rw [read_i64] at h
  have := read_map_ok_of hs h
  exact ⟨by norm_num at this ⊢; exact this.1, this.2.1⟩

theorem read_f64_ok_of {s : List Nat} {v : Nat} {r : List Nat} (hs : ByteStream s)
    (h : read_f64 s = .ok (v, r)) : v < 18446744073709551616 ∧ ByteStream r := by
  rw [read_f64] at h
  have := read_map_ok_of hs h
  exact ⟨by norm_num at this ⊢; exact this.1, this.2.1⟩

theorem bind_ok_inv {α β : Type} {x : Except DecErr α} {f : α → Except DecErr β}
    {out : β} (h : (x >>= f) = .ok out) : ∃ a, x = .ok a ∧ f a = .ok out := by
  cases x with
  | error e => simp [bind, Except.bind] at h
  | ok a => exact ⟨a, rfl, h⟩

theorem CPIndex_ok_of {s : List Nat} {v : Nat} {r : List Nat} (hs : ByteStream s)
    (h : CPIndex.deserialize s = .ok (v, r)) : cpindex_wf v ∧ ByteStream r := by
  rw [CPIndex.deserialize] at h
  cases h16 : read_u16 s with
  | error e => rw [h16] at h; simp at h
  | ok p =>
    obtain ⟨v0, r0⟩ := p
    simp only [h16] at h
    by_cases hv : v0 = 0
    · rw [if_pos hv] at h; simp at h
    · rw [if_neg hv] at h
      simp only [Except.ok.injEq, Prod.mk.injEq] at h
      obtain ⟨hb, hbs, -⟩ := read_u16_ok_of h16 hs
      exact ⟨⟨by omega, h.1 ▸ hb⟩, h.2 ▸ hbs⟩

theorem RefKind_ok_of {s : List Nat} {k : ReferenceKind} {r : List Nat}
    (hs : ByteStream s) (h : ReferenceKind.deserialize s = .ok (k, r)) :
    ByteStream r := by
  rw [ReferenceKind.deserialize] at h
  cases h8 : read_u8 s with
  | error e => rw [h8] at h; simp at h
  | ok p =>
    obtain ⟨v, r0⟩ := p
    simp only [h8] at h
    cases htf : ReferenceKind.try_from v with
    | none => rw [htf] at h; simp at h
    | some k2 =>
      rw [htf] at h
      simp only [Except.ok.injEq, Prod.mk.injEq] at h
      exact h.2 ▸ (read_u8_ok_of hs h8).2

theorem AccessFlags_ok_of {s : List Nat} {v : Nat} {r : List Nat} (hs : ByteStream s)
    (h : AccessFlags.deserialize s = .ok (v, r)) : v < 32768 ∧ ByteStream r := by
  rw [AccessFlags.deserialize] at h
  cases h16 : read_u16 s with
  | error e => rw [h16] at h; simp at h
  | ok p =>
    obtain ⟨v0, r0⟩ := p
    simp only [h16] at h
    by_cases hv : v0 < 32768
    · rw [if_pos hv] at h
      simp only [Except.ok.injEq, Prod.mk.injEq] at h
      exact ⟨h.1 ▸ hv, h.2 ▸ (read_u16_ok_of h16 hs).2.1⟩
    · rw [if_neg hv] at h; simp at h

/-- A successfully decoded constant-pool entry satisfies the field bounds of
`entry_wf` (the Utf8 text being a lossy-decoder fixed point), and the remaining
cursor is still a byte stream. -/
theorem entry_deserialize_wf {s : List Nat} {e : ConstantPoolEntry} {r : List Nat}
    (hs : ByteStream s) (h : ConstantPoolEntry.deserialize s = .ok (e, r)) :
    entry_wf e ∧ ByteStream r := by
  rw [ConstantPoolEntry.deserialize] at h
  obtain ⟨⟨tag, s1⟩, h8, h⟩ := bind_ok_inv h
  have hs1 : ByteStream s1 := (read_u8_ok_of hs h8).2
  clear h8
  try dsimp only at h
  rcases tag with _|_|_|_|_|_|_|_|_|_|_|_|_|_|_|_|_|_|_|tag
  -- tag 0: unknown
  · simp at h
  -- tag 1: Utf8
  · try dsimp only at h
    obtain ⟨⟨len, s2⟩, hlen, h⟩ := bind_ok_inv h
    try dsimp only at h
    obtain ⟨⟨buf, s3⟩, hbuf, h⟩ := bind_ok_inv h
    try dsimp only at h
    simp only [Except.ok.injEq, Prod.mk.injEq] at h
    obtain ⟨he, hr⟩ := h
    subst he; subst hr
    obtain ⟨-, hd3, -, -⟩ := read_bytes_ok_of hbuf
    have hs2 : ByteStream s2 := (read_u16_ok_of hlen hs1).2.1
    exact ⟨utf8_lossy_idem buf, hd3 ▸ hs2.drop len⟩
  -- tag 2: unknown
  · simp at h
  -- tag 3: Integer
  · try dsimp only at h
    obtain ⟨⟨v, s2⟩, hv, h⟩ := bind_ok_inv h
    try dsimp only at h
    simp only [Except.ok.injEq, Prod.mk.injEq] at h
    obtain ⟨he, hr⟩ := h
    subst he; subst hr
    exact read_i32_ok_of hs1 hv
  -- tag 4: Float
  · try dsimp only at h
    obtain ⟨⟨v, s2⟩, hv, h⟩ := bind_ok_inv h
    try dsimp only at h
    simp only [Except.ok.injEq, Prod.mk.injEq] at h
    obtain ⟨he, hr⟩ := h
    subst he; subst hr
    exact read_f32_ok_of hs1 hv
  -- tag 5: Long
  · try dsimp only at h
    obtain ⟨⟨v, s2⟩, hv, h⟩ := bind_ok_inv h
    try dsimp only at h
    simp only [Except.ok.injEq, Prod.mk.injEq] at h
    obtain ⟨he, hr⟩ := h
    subst he; subst hr
    exact read_i64_ok_of hs1 hv
  -- tag 6: Double
  · try dsimp only at h
    obtain ⟨⟨v, s2⟩, hv, h⟩ := bind_ok_inv h
    try dsimp only at h
    simp only [Except.ok.injEq, Prod.mk.injEq] at h
    obtain ⟨he, hr⟩ := h
    subst he; subst hr
    exact read_f64_ok_of hs1 hv
  -- tag 7: Class
  · try dsimp only at h
    obtain ⟨⟨ni, s2⟩, hni, h⟩ := bind_ok_inv h
    try dsimp only at h
    simp only [Except.ok.injEq, Prod.mk.injEq] at h
    obtain ⟨he, hr⟩ := h
    subst he; subst hr
    exact CPIndex_ok_of hs1 hni
  -- tag 8: String
  · try dsimp only at h
    obtain ⟨⟨si, s2⟩, hsi, h⟩ := bind_ok_inv h
    try dsimp only at h
    simp only [Except.ok.injEq, Prod.mk.injEq] at h
    obtain ⟨he, hr⟩ := h
    subst he; subst hr
    exact CPIndex_ok_of hs1 hsi
  -- tag 9: FieldRef
  · try dsimp only at h
    obtain ⟨⟨ci, s2⟩, hci, h⟩ := bind_ok_inv h
    try dsimp only at h
    obtain ⟨⟨nti, s3⟩, hnti, h⟩ := bind_ok_inv h
    try dsimp only at h
    simp only [Except.ok.injEq, Prod.mk.injEq] at h
    obtain ⟨he, hr⟩ := h
    subst he; subst hr
    obtain ⟨hw1, hb2⟩ := CPIndex_ok_of hs1 hci
    obtain ⟨hw2, hb3⟩ := CPIndex_ok_of hb2 hnti
    exact ⟨⟨hw1, hw2⟩, hb3⟩
  -- tag 10: MethodRef
  · try dsimp only at h
    obtain ⟨⟨ci, s2⟩, hci, h⟩ := bind_ok_inv h
    try dsimp only at h
    obtain ⟨⟨nti, s3⟩, hnti, h⟩ := bind_ok_inv h
    try dsimp only at h
    simp only [Except.ok.injEq, Prod.mk.injEq] at h
    obtain ⟨he, hr⟩ := h
    subst he; subst hr
    obtain ⟨hw1, hb2⟩ := CPIndex_ok_of hs1 hci
    obtain ⟨hw2, hb3⟩ := CPIndex_ok_of hb2 hnti
    exact ⟨⟨hw1, hw2⟩, hb3⟩
  -- tag 11: InterfaceMethodRef
  · try dsimp only at h
    obtain ⟨⟨ci, s2⟩, hci, h⟩ := bind_ok_inv h
    try dsimp only at h
    obtain ⟨⟨nti, s3⟩, hnti, h⟩ := bind_ok_inv h
    try dsimp only at h
    simp only [Except.ok.injEq, Prod.mk.injEq] at h
    obtain ⟨he, hr⟩ := h
    subst he; subst hr
    obtain ⟨hw1, hb2⟩ := CPIndex_ok_of hs1 hci
    obtain ⟨hw2, hb3⟩ := CPIndex_ok_of hb2 hnti
    exact ⟨⟨hw1, hw2⟩, hb3⟩
  -- tag 12: NameAndType
  · try dsimp only at h
    obtain ⟨⟨ni, s2⟩, hni, h⟩ := bind_ok_inv h
    try dsimp only at h
    obtain ⟨⟨di, s3⟩, hdi, h⟩ := bind_ok_inv h
    try dsimp only at h
    simp only [Except.ok.injEq, Prod.mk.injEq] at h
    obtain ⟨he, hr⟩ := h
    subst he; subst hr
    obtain ⟨hw1, hb2⟩ := CPIndex_ok_of hs1 hni
    obtain ⟨hw2, hb3⟩ := CPIndex_ok_of hb2 hdi
    exact ⟨⟨hw1, hw2⟩, hb3⟩
  -- tag 13: unknown
  · simp at h
  -- tag 14: unknown
  · simp at h
  -- tag 15: MethodHandle
  · try dsimp only at h
    obtain ⟨⟨k, s2⟩, hk, h⟩ := bind_ok_inv h
    try dsimp only at h
    obtain ⟨⟨ri, s3⟩, hri, h⟩ := bind_ok_inv h
    try dsimp only at h
    simp only [Except.ok.injEq, Prod.mk.injEq] at h
    obtain ⟨he, hr⟩ := h
    subst he; subst hr
    have hb2 : ByteStream s2 := RefKind_ok_of hs1 hk
    obtain ⟨hw, hb3⟩ := CPIndex_ok_of hb2 hri
    exact ⟨hw, hb3⟩
  -- tag 16: MethodType
  · try dsimp only at h
    obtain ⟨⟨di, s2⟩, hdi, h⟩ := bind_ok_inv h
    try dsimp only at h
    simp only [Except.ok.injEq, Prod.mk.injEq] at h
    obtain ⟨he, hr⟩ := h
    subst he; subst hr
    exact CPIndex_ok_of hs1 hdi
  -- tag 17: unknown
  · simp at h
  -- tag 18: InvokeDynamic
  · try dsimp only at h
    obtain ⟨⟨bmai, s2⟩, hbmai, h⟩ := bind_ok_inv h
    try dsimp only at h
    obtain ⟨⟨nti, s3⟩, hnti, h⟩ := bind_ok_inv h
    try dsimp only at h
    simp only [Except.ok.injEq, Prod.mk.injEq] at h
    obtain ⟨he, hr⟩ := h
    subst he; subst hr
    obtain ⟨hb, hb2, -⟩ := read_u16_ok_of hbmai hs1
    obtain ⟨hw, hb3⟩ := CPIndex_ok_of hb2 hnti
    exact ⟨⟨hb, hw⟩, hb3⟩
  -- tag 19 and above: unknown
  · simp at h

theorem entries_loop_bytes {fuel count : Nat} :
    ∀ {index : Nat} {s : List Nat} {pool : ConstantPool} {r : List Nat},
      ByteStream s → ConstantPool.entries_loop fuel count index s = .ok (pool, r) →
      (∀ p ∈ pool, entry_wf p.2) ∧ ByteStream r := by
  induction fuel with
  | zero => intro index s pool r hs h; simp [ConstantPool.entries_loop] at h
  | succ f ih =>
    intro index s pool r hs h
    by_cases hlt : index < count
    · simp only [ConstantPool.entries_loop, if_pos hlt] at h
      cases hde : ConstantPoolEntry.deserialize s with
      | error e => rw [hde] at h; simp at h
      | ok p =>
        obtain ⟨entry, s1⟩ := p
        simp only [hde] at h
        by_cases h0 : index = 0
        · rw [if_pos h0] at h; simp at h
        · rw [if_neg h0] at h
          cases hrec : ConstantPool.entries_loop f count ((index + entry.size) % 65536) s1 with
          | error e => rw [hrec] at h; simp at h
          | ok q =>
            obtain ⟨rest, r1⟩ := q
            rw [hrec] at h
            simp only [Except.ok.injEq, Prod.mk.injEq] at h
            obtain ⟨hpool, hr⟩ := h
            obtain ⟨hwf, hs1⟩ := entry_deserialize_wf hs hde
            obtain ⟨hall, hbr⟩ := ih hs1 hrec
            subst hpool
            refine ⟨?_, hr ▸ hbr⟩
            intro q hq
            rcases List.mem_cons.mp hq with hq | hq
            · rw [hq]; exact hwf
            · exact hall q hq
    · simp only [ConstantPool.entries_loop, if_neg hlt, Except.ok.injEq,
        Prod.mk.injEq] at h
      obtain ⟨hpool, hr⟩ := h
      subst hpool
      exact ⟨by simp, hr ▸ hs⟩

/-- A successfully decoded constant pool is well-formed, and the remaining
cursor is still a byte stream. -/
theorem pool_deserialize_wf {s : List Nat} {cp : ConstantPool} {r : List Nat}
    (hs : ByteStream s) (h : ConstantPool.deserialize s = .ok (cp, r)) :
    pool_wf cp ∧ ByteStream r := by
  simp only [ConstantPool.deserialize, bind, Except.bind] at h
  cases hcnt : read_u16 s with
  | error e => rw [hcnt] at h; simp at h
  | ok p =>
    obtain ⟨count, s1⟩ := p
    rw [hcnt] at h
    obtain ⟨hc, hs1, -⟩ := read_u16_ok_of hcnt hs
    obtain ⟨hshape, hfin, -, -⟩ := entries_loop_ok hc (by norm_num) (by norm_num) h
    obtain ⟨hall, hbr⟩ := entries_loop_bytes hs1 h
    exact ⟨⟨hshape, hfin, hall⟩, hbr⟩

/-! ### Generic vector decode facts -/

theorem deserialize_vec_length {α : Type} {d : List Nat → Except DecErr (α × List Nat)} :
    ∀ {n : Nat} {s : List Nat} {l : List α} {r : List Nat},
      deserialize_vec d n s = .ok (l, r) → l.length = n := by
  intro n
  induction n with
  | zero =>
    intro s l r h
    simp only [deserialize_vec, Except.ok.injEq, Prod.mk.injEq] at h
    rw [← h.1]
    rfl
  | succ n ih =>
    intro s l r h
    simp only [deserialize_vec, bind, Except.bind] at h
    cases h1 : d s with
    | error e => rw [h1] at h; simp at h
    | ok p =>
      obtain ⟨x, s1⟩ := p
      simp only [h1] at h
      cases h2 : deserialize_vec d n s1 with
      | error e => rw [h2] at h; simp at h
      | ok q =>
        obtain ⟨xs, r1⟩ := q
        simp only [h2] at h
        simp only [Except.ok.injEq, Prod.mk.injEq] at h
        rw [← h.1]
        simp [ih h2]

theorem deserialize_vec_wf {α : Type} {P : α → Prop}
    {d : List Nat → Except DecErr (α × List Nat)}
    (hd : ∀ {s2 : List Nat} {x : α} {r2 : List Nat},
      ByteStream s2 → d s2 = .ok (x, r2) → P x ∧ ByteStream r2) :
    ∀ {n : Nat} {s : List Nat} {l : List α} {r : List Nat},
      ByteStream s → deserialize_vec d n s = .ok (l, r) →
      (∀ x ∈ l, P x) ∧ ByteStream r := by
  intro n
  induction n with
  | zero =>
    intro s l r hs h
    simp only [deserialize_vec, Except.ok.injEq, Prod.mk.injEq] at h
    exact ⟨by rw [← h.1]; simp, h.2 ▸ hs⟩
  | succ n ih =>
    intro s l r hs h
    simp only [deserialize_vec, bind, Except.bind] at h
    cases h1 : d s with
    | error e => rw [h1] at h; simp at h
    | ok p =>
      obtain ⟨x, s1⟩ := p
      simp only [h1] at h
      cases h2 : deserialize_vec d n s1 with
      | error e => rw [h2] at h; simp at h
      | ok q =>
        obtain ⟨xs, r1⟩ := q
        simp only [h2] at h
        simp only [Except.ok.injEq, Prod.mk.injEq] at h
        obtain ⟨hx, hs1⟩ := hd hs h1
        obtain ⟨hxs, hbr⟩ := ih hs1 h2
        refine ⟨?_, h.2 ▸ hbr⟩
        intro y hy
        rw [← h.1] at hy
        rcases List.mem_cons.mp hy with hy | hy
        · rw [hy]; exact hx
        · exact hxs y hy

theorem Vec_deserialize_wf {α : Type} {P : α → Prop}
    {d : List Nat → Except DecErr (α × List Nat)}
    (hd : ∀ {s2 : List Nat} {x : α} {r2 : List Nat},
      ByteStream s2 → d s2 = .ok (x, r2) → P x ∧ ByteStream r2)
    {s : List Nat} {l : List α} {r : List Nat}
    (hs : ByteStream s) (h : Vec.deserialize d s = .ok (l, r)) :
    (∀ x ∈ l, P x) ∧ l.length < 65536 ∧ ByteStream r := by
  simp only [Vec.deserialize, bind, Except.bind] at h
  cases h1 : read_u16 s with
  | error e => rw [h1] at h; simp at h
  | ok p =>
    obtain ⟨count, s1⟩ := p
    rw [h1] at h
    obtain ⟨hc, hs1, -⟩ := read_u16_ok_of h1 hs
    obtain ⟨hall, hbr⟩ := deserialize_vec_wf hd hs1 h
    exact ⟨hall, deserialize_vec_length h ▸ hc, hbr⟩

/-- A successfully decoded exception-table entry is well-formed. -/
theorem ETE_ok_of {s : List Nat} {e : ExceptionTableEntry} {r : List Nat}
    (hs : ByteStream s) (h : ExceptionTableEntry.deserialize s = .ok (e, r)) :
    ete_wf e ∧ ByteStream r := by
  rw [ExceptionTableEntry.deserialize] at h
  obtain ⟨⟨v1, s1⟩, h1, h⟩ := bind_ok_inv h
  try dsimp only at h
  obtain ⟨⟨v2, s2⟩, h2, h⟩ := bind_ok_inv h
  try dsimp only at h
  obtain ⟨⟨v3, s3⟩, h3, h⟩ := bind_ok_inv h
  try dsimp only at h
  obtain ⟨⟨v4, s4⟩, h4, h⟩ := bind_ok_inv h
  try dsimp only at h
  simp only [Except.ok.injEq, Prod.mk.injEq] at h
  obtain ⟨he, hr⟩ := h
  subst he; subst hr
  obtain ⟨hb1, hs1, -⟩ := read_u16_ok_of h1 hs
  obtain ⟨hb2, hs2, -⟩ := read_u16_ok_of h2 hs1
  obtain ⟨hb3, hs3, -⟩ := read_u16_ok_of h3 hs2
  obtain ⟨hw4, hs4⟩ := CPIndex_ok_of hs3 h4
  exact ⟨⟨hb1, hb2, hb3, hw4⟩, hs4⟩

theorem ETE_consumes_exact {s : List Nat} {e : ExceptionTableEntry} {r : List Nat}
    (h : ExceptionTableEntry.deserialize s = .ok (e, r)) :
    s.length = 8 + r.length := by
  rw [ExceptionTableEntry.deserialize] at h
  obtain ⟨⟨v1, s1⟩, h1, h⟩ := bind_ok_inv h
  try dsimp only at h
  obtain ⟨⟨v2, s2⟩, h2, h⟩ := bind_ok_inv h
  try dsimp only at h
  obtain ⟨⟨v3, s3⟩, h3, h⟩ := bind_ok_inv h
  try dsimp only at h
  obtain ⟨⟨v4, s4⟩, h4, h⟩ := bind_ok_inv h
  try dsimp only at h
  simp only [Except.ok.injEq, Prod.mk.injEq] at h
  obtain ⟨hd1, hl1⟩ := read_u16_consumes h1
  obtain ⟨hd2, hl2⟩ := read_u16_consumes h2
  obtain ⟨hd3, hl3⟩ := read_u16_consumes h3
  obtain ⟨hd4, hl4, -⟩ := CPIndex_deserialize_consumes h4
  have e1 : s1.length = s.length - 2 := by rw [hd1, List.length_drop]
  have e2 : s2.length = s1.length - 2 := by rw [hd2, List.length_drop]
  have e3 : s3.length = s2.length - 2 := by rw [hd3, List.length_drop]
  have e4 : s4.length = s3.length - 2 := by rw [hd4, List.length_drop]
  have := h.2
  subst this
  omega

/-- The wire footprint of a freshly decoded (still opaque) attribute: name
index, 32-bit size, blob. -/
def blob_size : Attribute → Nat
  | (_, .Any b) => 6 + b.length
  | (_, _) => 6

theorem code_vec_consumes :
    ∀ {n : Nat} {s code r : List Nat},
      deserialize_vec CodeByte.deserialize n s = .ok (code, r) →
      code.length = n ∧ s.length = n + r.length := by
  intro n
  induction n with
  | zero =>
    intro s code r h
    simp only [deserialize_vec, Except.ok.injEq, Prod.mk.injEq] at h
    constructor
    · rw [← h.1]; rfl
    · rw [← h.2]; simp
  | succ n ih =>
    intro s code r h
    simp only [deserialize_vec, bind, Except.bind] at h
    cases h1 : CodeByte.deserialize s with
    | error e => rw [h1] at h; simp at h
    | ok p =>
      obtain ⟨x, s1⟩ := p
      simp only [h1] at h
      cases h2 : deserialize_vec CodeByte.deserialize n s1 with
      | error e => rw [h2] at h; simp at h
      | ok q =>
        obtain ⟨xs, r1⟩ := q
        simp only [h2] at h
        simp only [Except.ok.injEq, Prod.mk.injEq] at h
        obtain ⟨hlen, hsum⟩ := ih h2
        obtain ⟨hd, hle⟩ := read_u8_consumes h1
        have e1 : s1.length = s.length - 1 := by rw [hd, List.length_drop]
        have := h.2
        subst this
        constructor
        · rw [← h.1]; simp [hlen]
        · omega

theorem ete_vec_consumes :
    ∀ {n : Nat} {s : List Nat} {et : List ExceptionTableEntry} {r : List Nat},
      deserialize_vec ExceptionTableEntry.deserialize n s = .ok (et, r) →
      s.length = 8 * n + r.length := by
  intro n
  induction n with
  | zero =>
    intro s et r h
    simp only [deserialize_vec, Except.ok.injEq, Prod.mk.injEq] at h
    rw [← h.2]
    simp
  | succ n ih =>
    intro s et r h
    simp only [deserialize_vec, bind, Except.bind] at h
    cases h1 : ExceptionTableEntry.deserialize s with
    | error e => rw [h1] at h; simp at h
    | ok p =>
      obtain ⟨x, s1⟩ := p
      simp only [h1] at h
      cases h2 : deserialize_vec ExceptionTableEntry.deserialize n s1 with
      | error e => rw [h2] at h; simp at h
      | ok q =>
        obtain ⟨xs, r1⟩ := q
        simp only [h2] at h
        simp only [Except.ok.injEq, Prod.mk.injEq] at h
        have hsum := ih h2
        have h8 := ETE_consumes_exact h1
        have := h.2
        subst this
        omega

theorem cpi_vec_consumes :
    ∀ {n : Nat} {s : List Nat} {t : List Nat} {r : List Nat},
      deserialize_vec CPIndex.deserialize n s = .ok (t, r) →
      s.length = 2 * n + r.length := by
  intro n
  induction n with
  | zero =>
    intro s t r h
    simp only [deserialize_vec, Except.ok.injEq, Prod.mk.injEq] at h
    rw [← h.2]
    simp
  | succ n ih =>
    intro s t r h
    simp only [deserialize_vec, bind, Except.bind] at h
    cases h1 : CPIndex.deserialize s with
    | error e => rw [h1] at h; simp at h
    | ok p =>
      obtain ⟨x, s1⟩ := p
      simp only [h1] at h
      cases h2 : deserialize_vec CPIndex.deserialize n s1 with
      | error e => rw [h2] at h; simp at h
      | ok q =>
        obtain ⟨xs, r1⟩ := q
        simp only [h2] at h
        simp only [Except.ok.injEq, Prod.mk.injEq] at h
        have hsum := ih h2
        obtain ⟨hd, hle, -⟩ := CPIndex_deserialize_consumes h1
        have e1 : s1.length = s.length - 2 := by rw [hd, List.length_drop]
        have := h.2
        subst this
        omega

theorem attr_vec_consumes :
    ∀ {n : Nat} {s : List Nat} {attrs : List Attribute} {r : List Nat},
      deserialize_vec Attribute.deserialize n s = .ok (attrs, r) →
      s.length = (attrs.map blob_size).sum + r.length := by
  intro n
  induction n with
  | zero =>
    intro s attrs r h
    simp only [deserialize_vec, Except.ok.injEq, Prod.mk.injEq] at h
    rw [← h.1, ← h.2]
    simp
  | succ n ih =>
    intro s attrs r h
    simp only [deserialize_vec, bind, Except.bind] at h
    cases h1 : Attribute.deserialize s with
    | error e => rw [h1] at h; simp at h
    | ok p =>
      obtain ⟨a, s1⟩ := p
      simp only [h1] at h
      cases h2 : deserialize_vec Attribute.deserialize n s1 with
      | error e => rw [h2] at h; simp at h
      | ok q =>
        obtain ⟨xs, r1⟩ := q
        simp only [h2] at h
        simp only [Except.ok.injEq, Prod.mk.injEq] at h
        have hsum := ih h2
        obtain ⟨ni, b, hab, -, hlen⟩ := Attribute_deserialize_ok h1
        have := h.2
        subst this
        rw [← h.1]
        simp only [List.map_cons, List.sum_cons, hab, blob_size]
        omega

/-- A successfully decoded attribute is an opaque blob with a valid nonzero
16-bit name index, a blob below the 32-bit size prefix's range, and byte-valued
contents. -/
theorem Attribute_ok_of {s : List Nat} {a : Attribute} {r : List Nat}
    (hs : ByteStream s) (h : Attribute.deserialize s = .ok (a, r)) :
    (∃ ni b, a = (ni, .Any b) ∧ cpindex_wf ni ∧ ByteStream b ∧
      b.length < 4294967296) ∧ ByteStream r := by
  rw [Attribute.deserialize] at h
  obtain ⟨⟨ni, s1⟩, hni, h⟩ := bind_ok_inv h
  try dsimp only at h
  obtain ⟨⟨info, s2⟩, hinfo, h⟩ := bind_ok_inv h
  try dsimp only at h
  simp only [Except.ok.injEq, Prod.mk.injEq] at h
  obtain ⟨ha, hr⟩ := h
  obtain ⟨hwni, hs1⟩ := CPIndex_ok_of hs hni
  rw [AttributeInfo.deserialize] at hinfo
  obtain ⟨⟨size, s12⟩, hsize, hinfo⟩ := bind_ok_inv hinfo
  try dsimp only at hinfo
  obtain ⟨⟨b, s13⟩, hb, hinfo⟩ := bind_ok_inv hinfo
  try dsimp only at hinfo
  simp only [Except.ok.injEq, Prod.mk.injEq] at hinfo
  obtain ⟨hia, hir⟩ := hinfo
  obtain ⟨hsz, hs12⟩ := read_u32_ok_of hs1 hsize
  obtain ⟨htk, hdr, hblen, -⟩ := read_bytes_ok_of hb
  refine ⟨⟨ni, b, ?_, hwni, htk ▸ hs12.take size, by omega⟩, ?_⟩
  · rw [← ha, ← hia]
  · rw [← hr, ← hir, hdr]
    exact hs12.drop size

/-- The wf facts of a decoded attribute vector (count-prefixed). -/
theorem attr_vec_wf {s : List Nat} {attrs : List Attribute} {r : List Nat}
    (hs : ByteStream s) (h : Vec.deserialize Attribute.deserialize s = .ok (attrs, r)) :
    (∀ a ∈ attrs, ∃ ni b, a = (ni, .Any b) ∧ cpindex_wf ni ∧ ByteStream b ∧
      b.length < 4294967296) ∧ attrs.length < 65536 ∧ ByteStream r :=
  Vec_deserialize_wf (fun hs2 h2 => Attribute_ok_of hs2 h2) hs h

theorem ETE_serialize_length (e : ExceptionTableEntry) :
    (ExceptionTableEntry.serialize e).length = 8 := by
  simp [ExceptionTableEntry.serialize, u16_be]

theorem flatMap_ete_length (et : List ExceptionTableEntry) :
    (et.flatMap ExceptionTableEntry.serialize).length = 8 * et.length := by
  induction et with
  | nil => rfl
  | cons e rest ih =>
    simp only [List.flatMap_cons, List.length_append, ih, ETE_serialize_length,
      List.length_cons]
    ring

/-- Running the swallow-errors resolution pass over a list of freshly decoded
(opaque, bounded) attributes yields a list of resolved attributes whose
serialized bodies are no longer than the original blobs. The per-attribute
resolution fact is taken as a hypothesis (it is supplied by `resolve_wf` at the
top level and by the induction hypothesis inside a Code attribute). -/
theorem resolve_each_wf {cp : ConstantPool} :
    ∀ {l l2 : List Attribute},
      (∀ a ∈ l, ∃ ni b, a = (ni, .Any b) ∧ cpindex_wf ni ∧ b.length < 4294967296 ∧
        ∀ a2, Attribute.resolve cp a = .ok a2 →
          attr_resolved cp a2 ∧ (AttributeInfo.serialize a2.2).length ≤ b.length) →
      resolve_each (fun x => Attribute.resolve cp x) l = .ok l2 →
      attrs_resolved cp l2 ∧ l2.length = l.length ∧
        (serialize_attr_list l2).length ≤ (l.map blob_size).sum := by
  intro l
  induction l with
  | nil =>
    intro l2 hl h
    simp only [resolve_each, Except.ok.injEq] at h
    subst h
    exact ⟨attrs_resolved_forall.mpr (by simp), rfl, by simp [serialize_attr_list]⟩
  | cons a r ih =>
    intro l2 hl h
    obtain ⟨ni, b, hab, hwni, hblen, hres⟩ := hl a (List.mem_cons_self _ _)
    subst hab
    simp only [resolve_each] at h
    cases hre : Attribute.resolve cp (ni, .Any b) with
    | ok a2 =>
      simp only [hre] at h
      cases hrr : resolve_each (fun x => Attribute.resolve cp x) r with
      | error e => rw [hrr] at h; simp [Except.map] at h
      | ok r2 =>
        rw [hrr] at h
        simp only [Except.map, Except.ok.injEq] at h
        subst h
        obtain ⟨hres2, hser⟩ := hres a2 hre
        obtain ⟨hr2, hlen2, hser2⟩ :=
          ih (fun x hx => hl x (List.mem_cons_of_mem _ hx)) hrr
        refine ⟨attrs_resolved_forall.mpr ?_, by simp [hlen2], ?_⟩
        · intro x hx
          rcases List.mem_cons.mp hx with hx | hx
          · rw [hx]; exact hres2
          · exact attrs_resolved_forall.mp hr2 x hx
        · simp only [serialize_attr_list, List.length_append,
            attribute_serialize_length, List.map_cons, List.sum_cons, blob_size]
          omega
    | error e =>
      cases e with
      | panic => simp only [hre] at h; simp at h
      | msg m =>
        simp only [hre] at h
        cases hrr : resolve_each (fun x => Attribute.resolve cp x) r with
        | error e2 => rw [hrr] at h; simp [Except.map] at h
        | ok r2 =>
          rw [hrr] at h
          simp only [Except.map, Except.ok.injEq] at h
          subst h
          obtain ⟨hr2, hlen2, hser2⟩ :=
            ih (fun x hx => hl x (List.mem_cons_of_mem _ hx)) hrr
          refine ⟨attrs_resolved_forall.mpr ?_, by simp [hlen2], ?_⟩
          · intro x hx
            rcases List.mem_cons.mp hx with hx | hx
            · rw [hx]
              simp only [attr_resolved]
              exact ⟨hwni, hblen, Or.inr ⟨m, hre⟩⟩
            · exact attrs_resolved_forall.mp hr2 x hx
          · simp only [serialize_attr_list, List.length_append,
              attribute_serialize_length, List.map_cons, List.sum_cons, blob_size]
            simp only [AttributeInfo.serialize]
            omega

theorem code_serialize_length (ms ml : Nat) (code : List Nat)
    (et : List ExceptionTableEntry) (attrs : List Attribute) :
    (AttributeInfo.serialize (.Code ms ml code et attrs)).length =
      12 + code.length + 8 * et.length + (serialize_attr_list attrs).length := by
  simp only [AttributeInfo.serialize, serialize_vec, List.length_append,
    flatMap_ete_length, u16_be, u32_be, List.length_cons, List.length_nil]
  omega

/-- Successful resolution of a decoded opaque attribute yields a `attr_resolved`
attribute whose serialized body fits inside the original blob. -/
theorem resolve_fuel_wf :
    ∀ n : Nat, ∀ (cp : ConstantPool) (ni : Nat) (b : List Nat) (aOut : Attribute),
      b.length + 1 ≤ n → cpindex_wf ni → ByteStream b → b.length < 4294967296 →
      Attribute.resolve_fuel n cp (ni, .Any b) = .ok aOut →
      attr_resolved cp aOut ∧ (AttributeInfo.serialize aOut.2).length ≤ b.length := by
  intro n
  induction n using Nat.strong_induction_on with
  | _ n ih =>
    intro cp ni b aOut hfuel hwni hbs hblen h
    cases n with
    | zero => simp [Attribute.resolve_fuel] at h
    | succ m =>
      simp only [Attribute.resolve_fuel] at h
      cases hlk : List.lookup ni cp with
      | none => simp [hlk] at h
      | some entry =>
        simp only [hlk] at h
        cases entry
        case Utf8 name =>
          try dsimp only at h
          cases hbody : Attribute.resolve_body
              (fun x => Attribute.resolve_fuel m cp x) name b with
          | error e => rw [hbody] at h; simp at h
          | ok info2 =>
            simp only [hbody, Except.ok.injEq] at h
            subst h
            simp only [Attribute.resolve_body] at hbody
            by_cases hcv : name = constantValueName
            · subst hcv
              rw [if_pos rfl] at hbody
              cases hcpi : CPIndex.deserialize b with
              | error e => rw [hcpi] at hbody; simp at hbody
              | ok p =>
                obtain ⟨i, s2⟩ := p
                simp only [hcpi, Except.ok.injEq] at hbody
                subst hbody
                obtain ⟨hwi, -⟩ := CPIndex_ok_of hbs hcpi
                obtain ⟨-, hle2, -⟩ := CPIndex_deserialize_consumes hcpi
                constructor
                · simp only [attr_resolved]
                  exact ⟨hwni, hlk, hwi⟩
                · simpa [AttributeInfo.serialize, u16_be] using hle2
            · rw [if_neg hcv] at hbody
              by_cases hcd : name = codeName
              · subst hcd
                rw [if_pos rfl] at hbody
                obtain ⟨⟨ms, s1⟩, hms, hbody⟩ := bind_ok_inv hbody
                try dsimp only at hbody
                obtain ⟨⟨ml, s2⟩, hml, hbody⟩ := bind_ok_inv hbody
                try dsimp only at hbody
                obtain ⟨⟨cl, s3⟩, hcl, hbody⟩ := bind_ok_inv hbody
                try dsimp only at hbody
                obtain ⟨⟨code, s4⟩, hcode, hbody⟩ := bind_ok_inv hbody
                try dsimp only at hbody
                obtain ⟨⟨et, s5⟩, het, hbody⟩ := bind_ok_inv hbody
                try dsimp only at hbody
                obtain ⟨⟨attrs0, s6⟩, hat, hbody⟩ := bind_ok_inv hbody
                try dsimp only at hbody
                obtain ⟨attrs2, hre, hbody⟩ := bind_ok_inv hbody
                try dsimp only at hbody
                simp only [Except.ok.injEq] at hbody
                subst hbody
                obtain ⟨hms16, hs1, -⟩ := read_u16_ok_of hms hbs
                obtain ⟨hml16, hs2, -⟩ := read_u16_ok_of hml hs1
                obtain ⟨hcl32, hs3⟩ := read_u32_ok_of hs2 hcl
                obtain ⟨hcodelen, hs3len⟩ := code_vec_consumes hcode
                have hs4 : ByteStream s4 :=
                  (deserialize_vec_wf (P := fun _ => True)
                    (fun hsx hx => ⟨trivial, (read_u8_ok_of hsx hx).2⟩) hs3 hcode).2
                rw [Vec.deserialize] at het
                obtain ⟨⟨etc, s41⟩, hetc, het⟩ := bind_ok_inv het
                try dsimp only at het
                obtain ⟨hetc16, hs41, -⟩ := read_u16_ok_of hetc hs4
                obtain ⟨hd41, hle41⟩ := read_u16_consumes hetc
                obtain ⟨hetwf, hs5⟩ :=
                  deserialize_vec_wf (fun hsx hx => ETE_ok_of hsx hx) hs41 het
                have hetlen := deserialize_vec_length het
                have hs41len := ete_vec_consumes het
                rw [Vec.deserialize] at hat
                obtain ⟨⟨atc, s51⟩, hatc, hat⟩ := bind_ok_inv hat
                try dsimp only at hat
                obtain ⟨hatc16, hs51, -⟩ := read_u16_ok_of hatc hs5
                obtain ⟨hd51, hle51⟩ := read_u16_consumes hatc
                obtain ⟨hashape, hs6⟩ :=
                  deserialize_vec_wf (fun hsx hx => Attribute_ok_of hsx hx) hs51 hat
                have hatlen := deserialize_vec_length hat
                have hs51len := attr_vec_consumes hat
                obtain ⟨hdm, hlem⟩ := read_u16_consumes hms
                obtain ⟨hdl, hlel⟩ := read_u16_consumes hml
                obtain ⟨hdc, hlec⟩ := read_u32_consumes hcl
                have e1 : s1.length = b.length - 2 := by rw [hdm, List.length_drop]
                have e2 : s2.length = s1.length - 2 := by rw [hdl, List.length_drop]
                have e3 : s3.length = s2.length - 4 := by rw [hdc, List.length_drop]
                have e41 : s41.length = s4.length - 2 := by rw [hd41, List.length_drop]
                have e51 : s51.length = s5.length - 2 := by rw [hd51, List.length_drop]
                have hbacct :
                    12 + cl + 8 * etc + (attrs0.map blob_size).sum + s6.length =
                      b.length := by
                  omega
                have hblob : ∀ a ∈ attrs0, blob_size a ≤ (attrs0.map blob_size).sum :=
                  fun a ha => List.single_le_sum (fun x _ => Nat.zero_le x) _
                    (List.mem_map_of_mem blob_size ha)
                have hsmall : ∀ a ∈ attrs0, Attribute.fuel a ≤ m := by
                  intro a ha
                  obtain ⟨ni2, b2, hab2, -, -, -⟩ := hashape a ha
                  have h6 : blob_size a ≤ (attrs0.map blob_size).sum := hblob a ha
                  rw [hab2] at h6 ⊢
                  simp only [blob_size] at h6
                  show b2.length + 1 ≤ m
                  omega
                have hconv : ∀ a ∈ attrs0,
                    Attribute.resolve_fuel m cp a = Attribute.resolve cp a :=
                  fun a ha => (resolve_eq_fuel (hsmall a ha)).symm
                rw [resolve_each_congr hconv] at hre
                have hl2 : ∀ a ∈ attrs0, ∃ ni2 b2, a = (ni2, .Any b2) ∧
                    cpindex_wf ni2 ∧ b2.length < 4294967296 ∧
                    ∀ a2, Attribute.resolve cp a = .ok a2 →
                      attr_resolved cp a2 ∧
                        (AttributeInfo.serialize a2.2).length ≤ b2.length := by
                  intro a ha
                  obtain ⟨ni2, b2, hab2, hw2, hbs2, hlt2⟩ := hashape a ha
                  refine ⟨ni2, b2, hab2, hw2, hlt2, ?_⟩
                  intro a2 hres2
                  have hfm := hsmall a ha
                  rw [hab2] at hfm hres2
                  have hltm : b2.length + 1 < m + 1 := by
                    simp only [Attribute.fuel] at hfm
                    omega
                  exact ih (b2.length + 1) hltm cp ni2 b2 a2 (le_refl _) hw2 hbs2
                    hlt2 hres2
                obtain ⟨hres2, hleneq, hser2⟩ := resolve_each_wf hl2 hre
                constructor
                · simp only [attr_resolved]
                  refine ⟨hwni, hlk, hms16, hml16, ?_, ?_, ?_, ?_, hres2, ?_⟩
                  · rw [hcodelen]; exact hcl32
                  · rw [hetlen]; exact hetc16
                  · exact hetwf
                  · rw [hleneq, hatlen]; exact hatc16
                  · rw [code_serialize_length]
                    omega
                · simp only [code_serialize_length]
                  omega
              · rw [if_neg hcd] at hbody
                by_cases hex : name = exceptionsName
                · subst hex
                  rw [if_pos rfl] at hbody
                  cases hvec : Vec.deserialize CPIndex.deserialize b with
                  | error e => rw [hvec] at hbody; simp at hbody
                  | ok p =>
                    obtain ⟨t, s2⟩ := p
                    simp only [hvec, Except.ok.injEq] at hbody
                    subst hbody
                    rw [Vec.deserialize] at hvec
                    obtain ⟨⟨tc, s1⟩, htc, hvec⟩ := bind_ok_inv hvec
                    try dsimp only at hvec
                    obtain ⟨htc16, hs1, -⟩ := read_u16_ok_of htc hbs
                    obtain ⟨hd1, hle1⟩ := read_u16_consumes htc
                    obtain ⟨htwf, -⟩ :=
                      deserialize_vec_wf (fun hsx hx => CPIndex_ok_of hsx hx) hs1 hvec
                    have htlen := deserialize_vec_length hvec
                    have hs1len := cpi_vec_consumes hvec
                    have e1 : s1.length = b.length - 2 := by rw [hd1, List.length_drop]
                    constructor
                    · simp only [attr_resolved]
                      exact ⟨hwni, hlk, htlen ▸ htc16, htwf⟩
                    · simp only [AttributeInfo.serialize, List.length_append,
                        flatMap_u16_be_length, u16_be, List.length_cons,
                        List.length_nil]
                      omega
                · rw [if_neg hex] at hbody
                  simp at hbody
        all_goals simp at h

theorem resolve_wf {cp : ConstantPool} {ni : Nat} {b : List Nat} {aOut : Attribute}
    (hwni : cpindex_wf ni) (hbs : ByteStream b) (hblen : b.length < 4294967296)
    (h : Attribute.resolve cp (ni, .Any b) = .ok aOut) :
    attr_resolved cp aOut ∧ (AttributeInfo.serialize aOut.2).length ≤ b.length :=
  resolve_fuel_wf (b.length + 1) cp ni b aOut (le_refl _) hwni hbs hblen h

/-- The shape every freshly decoded attribute has. -/
def decoded_attr (a : Attribute) : Prop :=
  ∃ ni b, a = (ni, .Any b) ∧ cpindex_wf ni ∧ ByteStream b ∧ b.length < 4294967296

theorem resolve_each_decoded {cp : ConstantPool} {l l2 : List Attribute}
    (hshape : ∀ a ∈ l, decoded_attr a)
    (h : resolve_each (fun x => Attribute.resolve cp x) l = .ok l2) :
    attrs_resolved cp l2 ∧ l2.length = l.length := by
  have hl : ∀ a ∈ l, ∃ ni b, a = (ni, .Any b) ∧ cpindex_wf ni ∧
      b.length < 4294967296 ∧
      ∀ a2, Attribute.resolve cp a = .ok a2 →
        attr_resolved cp a2 ∧ (AttributeInfo.serialize a2.2).length ≤ b.length := by
    intro a ha
    obtain ⟨ni, b, hab, hw, hbs, hlt⟩ := hshape a ha
    exact ⟨ni, b, hab, hw, hlt, fun a2 h2 => resolve_wf hw hbs hlt (hab ▸ h2)⟩
  obtain ⟨h1, h2, -⟩ := resolve_each_wf hl h
  exact ⟨h1, h2⟩

/-- The bounds a successful field decode establishes. -/
def decoded_field (f : Field) : Prop :=
  f.access_flags < 32768 ∧ cpindex_wf f.name_index ∧ cpindex_wf f.descriptor_index ∧
  f.attributes.length < 65536 ∧ ∀ a ∈ f.attributes, decoded_attr a

/-- The bounds a successful method decode establishes. -/
def decoded_method (m : Method) : Prop :=
  m.access_flags < 32768 ∧ cpindex_wf m.name_index ∧ cpindex_wf m.descriptor_index ∧
  m.attributes.length < 65536 ∧ ∀ a ∈ m.attributes, decoded_attr a

theorem Field_ok_of {s : List Nat} {f : Field} {r : List Nat}
    (hs : ByteStream s) (h : Field.deserialize s = .ok (f, r)) :
    decoded_field f ∧ ByteStream r := by
  rw [Field.deserialize] at h
  obtain ⟨⟨fl, s1⟩, hfl, h⟩ := bind_ok_inv h
  try dsimp only at h
  obtain ⟨⟨niv, s2⟩, hni, h⟩ := bind_ok_inv h
  try dsimp only at h
  obtain ⟨⟨div, s3⟩, hdi, h⟩ := bind_ok_inv h
  try dsimp only at h
  obtain ⟨⟨attrs, s4⟩, hat, h⟩ := bind_ok_inv h
  try dsimp only at h
  simp only [Except.ok.injEq, Prod.mk.injEq] at h
  obtain ⟨hf, hr⟩ := h
  subst hf; subst hr
  obtain ⟨h1, hs1⟩ := AccessFlags_ok_of hs hfl
  obtain ⟨h2, hs2⟩ := CPIndex_ok_of hs1 hni
  obtain ⟨h3, hs3⟩ := CPIndex_ok_of hs2 hdi
  obtain ⟨h4, h5, hs4⟩ := attr_vec_wf hs3 hat
  exact ⟨⟨h1, h2, h3, h5, fun a ha => h4 a ha⟩, hs4⟩

theorem Method_ok_of {s : List Nat} {m : Method} {r : List Nat}
    (hs : ByteStream s) (h : Method.deserialize s = .ok (m, r)) :
    decoded_method m ∧ ByteStream r := by
  rw [Method.deserialize] at h
  obtain ⟨⟨fl, s1⟩, hfl, h⟩ := bind_ok_inv h
  try dsimp only at h
  obtain ⟨⟨niv, s2⟩, hni, h⟩ := bind_ok_inv h
  try dsimp only at h
  obtain ⟨⟨div, s3⟩, hdi, h⟩ := bind_ok_inv h
  try dsimp only at h
  obtain ⟨⟨attrs, s4⟩, hat, h⟩ := bind_ok_inv h
  try dsimp only at h
  simp only [Except.ok.injEq, Prod.mk.injEq] at h
  obtain ⟨hf, hr⟩ := h
  subst hf; subst hr
  obtain ⟨h1, hs1⟩ := AccessFlags_ok_of hs hfl
  obtain ⟨h2, hs2⟩ := CPIndex_ok_of hs1 hni
  obtain ⟨h3, hs3⟩ := CPIndex_ok_of hs2 hdi
  obtain ⟨h4, h5, hs4⟩ := attr_vec_wf hs3 hat
  exact ⟨⟨h1, h2, h3, h5, fun a ha => h4 a ha⟩, hs4⟩

theorem resolve_fields_wf {cp : ConstantPool} :
    ∀ {fls fls2 : List Field},
      (∀ f ∈ fls, decoded_field f) → resolve_fields cp fls = .ok fls2 →
      (∀ f ∈ fls2, field_wf cp f) ∧ fls2.length = fls.length := by
  intro fls
  induction fls with
  | nil =>
    intro fls2 hl h
    simp only [resolve_fields, Except.ok.injEq] at h
    subst h
    exact ⟨by simp, rfl⟩
  | cons f rest ih =>
    intro fls2 hl h
    simp only [resolve_fields, bind, Except.bind] at h
    cases hre : resolve_each (fun a => Attribute.resolve cp a) f.attributes with
    | error e => rw [hre] at h; simp at h
    | ok attrs2 =>
      simp only [hre] at h
      cases hrr : resolve_fields cp rest with
      | error e => rw [hrr] at h; simp at h
      | ok r2 =>
        simp only [hrr, Except.ok.injEq] at h
        subst h
        obtain ⟨hf1, hf2, hf3, hf4, hf5⟩ := hl f (List.mem_cons_self _ _)
        obtain ⟨hres, hlen⟩ := resolve_each_decoded hf5 hre
        obtain ⟨hr2, hlen2⟩ := ih (fun x hx => hl x (List.mem_cons_of_mem _ hx)) hrr
        refine ⟨?_, by simp [hlen2]⟩
        intro x hx
        rcases List.mem_cons.mp hx with hx | hx
        · subst hx
          exact ⟨hf1, hf2, hf3, by simpa [hlen] using hf4, hres⟩
        · exact hr2 x hx

theorem resolve_methods_wf {cp : ConstantPool} :
    ∀ {mts mts2 : List Method},
      (∀ m ∈ mts, decoded_method m) → resolve_methods cp mts = .ok mts2 →
      (∀ m ∈ mts2, method_wf cp m) ∧ mts2.length = mts.length := by
  intro mts
  induction mts with
  | nil =>
    intro mts2 hl h
    simp only [resolve_methods, Except.ok.injEq] at h
    subst h
    exact ⟨by simp, rfl⟩
  | cons m rest ih =>
    intro mts2 hl h
    simp only [resolve_methods, bind, Except.bind] at h
    cases hre : resolve_each (fun a => Attribute.resolve cp a) m.attributes with
    | error e => rw [hre] at h; simp at h
    | ok attrs2 =>
      simp only [hre] at h
      cases hrr : resolve_methods cp rest with
      | error e => rw [hrr] at h; simp at h
      | ok r2 =>
        simp only [hrr, Except.ok.injEq] at h
        subst h
        obtain ⟨hf1, hf2, hf3, hf4, hf5⟩ := hl m (List.mem_cons_self _ _)
        obtain ⟨hres, hlen⟩ := resolve_each_decoded hf5 hre
        obtain ⟨hr2, hlen2⟩ := ih (fun x hx => hl x (List.mem_cons_of_mem _ hx)) hrr
        refine ⟨?_, by simp [hlen2]⟩
        intro x hx
        rcases List.mem_cons.mp hx with hx | hx
        · subst hx
          exact ⟨hf1, hf2, hf3, by simpa [hlen] using hf4, hres⟩
        · exact hr2 x hx

theorem deserialize_super_ok {s : List Nat} (hs : ByteStream s) :
    (∀ i, (JavaClass.deserialize_super s).1 = some i → cpindex_wf i) ∧
      ByteStream (JavaClass.deserialize_super s).2 := by
  rw [JavaClass.deserialize_super]
  cases hc : CPIndex.deserialize s with
  | ok p =>
    obtain ⟨v, s2⟩ := p
    obtain ⟨hw, hbs⟩ := CPIndex_ok_of hs hc
    refine ⟨?_, hbs⟩
    intro i hi
    simp only [Option.some.injEq] at hi
    exact hi ▸ hw
  | error e =>
    cases h16 : read_u16 s with
    | ok p =>
      obtain ⟨v, s2⟩ := p
      exact ⟨fun i hi => by simp at hi, (read_u16_ok_of h16 hs).2.1⟩
    | error e2 => exact ⟨fun i hi => by simp at hi, hs⟩

/-- Everything the structural decode phase guarantees. -/
theorem deserialize_struct_wf {s : List Nat} {c : JavaClass} {r : List Nat}
    (hs : ByteStream s) (h : JavaClass.deserialize_struct s = .ok (c, r)) :
    c.magic_bytes < 4294967296 ∧ c.minor_version < 65536 ∧ c.major_version < 65536 ∧
    pool_wf c.constant_pool ∧ c.access_flags < 32768 ∧ cpindex_wf c.this_class ∧
    (∀ i, c.super_class = some i → cpindex_wf i) ∧
    c.interfaces.length < 65536 ∧ (∀ i ∈ c.interfaces, cpindex_wf i) ∧
    c.fields.length < 65536 ∧ (∀ f ∈ c.fields, decoded_field f) ∧
    c.methods.length < 65536 ∧ (∀ m ∈ c.methods, decoded_method m) ∧
    c.attributes.length < 65536 ∧ (∀ a ∈ c.attributes, decoded_attr a) := by
  rw [JavaClass.deserialize_struct] at h
  obtain ⟨⟨magic, s1⟩, h1, h⟩ := bind_ok_inv h
  try dsimp only at h
  obtain ⟨⟨minor, s2⟩, h2, h⟩ := bind_ok_inv h
  try dsimp only at h
  obtain ⟨⟨major, s3⟩, h3, h⟩ := bind_ok_inv h
  try dsimp only at h
  obtain ⟨⟨cpool, s4⟩, h4, h⟩ := bind_ok_inv h
  try dsimp only at h
  obtain ⟨⟨flags, s5⟩, h5, h⟩ := bind_ok_inv h
  try dsimp only at h
  obtain ⟨⟨thisc, s6⟩, h6, h⟩ := bind_ok_inv h
  try dsimp only at h
  cases hsup : JavaClass.deserialize_super s6 with
  | mk superc s7 =>
    simp only [hsup] at h
    try dsimp only at h
    obtain ⟨⟨ifaces, s8⟩, h8, h⟩ := bind_ok_inv h
    try dsimp only at h
    obtain ⟨⟨fls, s9⟩, h9, h⟩ := bind_ok_inv h
    try dsimp only at h
    obtain ⟨⟨mts, s10⟩, h10, h⟩ := bind_ok_inv h
    try dsimp only at h
    obtain ⟨⟨ats, s11⟩, h11, h⟩ := bind_ok_inv h
    try dsimp only at h
    simp only [Except.ok.injEq, Prod.mk.injEq] at h
    obtain ⟨hc, hr⟩ := h
    subst hc; subst hr
    obtain ⟨hmagic, hb1⟩ := read_u32_ok_of hs h1
    obtain ⟨hminor, hb2, -⟩ := read_u16_ok_of h2 hb1
    obtain ⟨hmajor, hb3, -⟩ := read_u16_ok_of h3 hb2
    obtain ⟨hpool, hb4⟩ := pool_deserialize_wf hb3 h4
    obtain ⟨hflags, hb5⟩ := AccessFlags_ok_of hb4 h5
    obtain ⟨hthis, hb6⟩ := CPIndex_ok_of hb5 h6
    have hsupok := deserialize_super_ok hb6
    rw [hsup] at hsupok
    obtain ⟨hsuper, hb7⟩ := hsupok
    obtain ⟨hif, hiflen, hb8⟩ :=
      Vec_deserialize_wf (fun hsx hx => CPIndex_ok_of hsx hx) hb7 h8
    obtain ⟨hfl, hfllen, hb9⟩ :=
      Vec_deserialize_wf (fun hsx hx => Field_ok_of hsx hx) hb8 h9
    obtain ⟨hmt, hmtlen, hb10⟩ :=
      Vec_deserialize_wf (fun hsx hx => Method_ok_of hsx hx) hb9 h10
    obtain ⟨hat, hatlen, hb11⟩ :=
      Vec_deserialize_wf (fun hsx hx => Attribute_ok_of hsx hx) hb10 h11
    exact ⟨hmagic, hminor, hmajor, hpool, hflags, hthis, hsuper, hiflen, hif,
      hfllen, hfl, hmtlen, hmt, hatlen, hat⟩

/-- A successful decode from a genuine byte stream yields a well-formed class. -/
theorem deserialize_class_wf {s : List Nat} {c : JavaClass} {r : List Nat}
    (hs : ByteStream s) (h : JavaClass.deserialize s = .ok (c, r)) : class_wf c := by
  rw [deserialize_eq_struct_resolve] at h
  cases hst : JavaClass.deserialize_struct s with
  | error e => rw [hst] at h; simp at h
  | ok p =>
    obtain ⟨c0, r0⟩ := p
    simp only [hst] at h
    cases hrf : resolve_fields c0.constant_pool c0.fields with
    | error e => rw [hrf] at h; simp at h
    | ok fls2 =>
      simp only [hrf] at h
      cases hrm : resolve_methods c0.constant_pool c0.methods with
      | error e => rw [hrm] at h; simp at h
      | ok mts2 =>
        simp only [hrm] at h
        cases hra : resolve_each (fun a => Attribute.resolve c0.constant_pool a)
            c0.attributes with
        | error e => rw [hra] at h; simp at h
        | ok ats2 =>
          simp only [hra, Except.ok.injEq, Prod.mk.injEq] at h
          obtain ⟨hc, -⟩ := h
          obtain ⟨w1, w2, w3, w4, w5, w6, w7, w8, w9, w10, w11, w12, w13, w14,
            w15⟩ := deserialize_struct_wf hs hst
          obtain ⟨hfl2, hfllen2⟩ := resolve_fields_wf w11 hrf
          obtain ⟨hmt2, hmtlen2⟩ := resolve_methods_wf w13 hrm
          obtain ⟨hat2, hatlen2⟩ := resolve_each_decoded w15 hra
          rw [← hc]
          exact ⟨w1, w2, w3, w4, w5, w6, w7, w8, w9, by rw [hfllen2]; exact w10,
            hfl2, by rw [hmtlen2]; exact w12, hmt2, by rw [hatlen2]; exact w14,
            hat2⟩

/-- C1 (amended) — round-trip identity for decoded classes whose Utf8 constants
fit their 16-bit length prefixes: if a class `c` is obtained from a successful
decode of a byte stream and every Utf8 constant in its pool is shorter than
65536 bytes, then serializing `c` and decoding the result yields exactly `c`
(with an empty remainder) — same pool contents and indices, same field, method,
and attribute trees, including attributes left unresolved as opaque blobs.
Without the Utf8 length bound the claim is false, see
`roundtrip_identity_cex`. -/
theorem roundtrip_identity_amended {bytes : List Nat} {c : JavaClass}
    {r : List Nat} (hs : ByteStream bytes)
    (h : JavaClass.deserialize bytes = .ok (c, r))
    (hshort : pool_utf8_short c.constant_pool) :
    JavaClass.deserialize (JavaClass.serialize c) = .ok (c, []) :=
  class_inverse (deserialize_class_wf hs h) hshort

/-- A minimal decodable class file: magic 0, versions 0, empty pool (count 1),
flags 0, this-class 1, super 0 (absent), no interfaces, fields, methods or
attributes. -/
def c1in : List Nat :=
  [0, 0, 0, 0, 0, 0, 0, 0, 0, 1, 0, 0, 0, 1, 0, 0, 0, 0, 0, 0, 0, 0, 0, 0]

/-- The class `c1in` decodes to. -/
def c1class : JavaClass := ⟨0, 0, 0, [], 0, 1, none, [], [], [], []⟩

theorem roundtrip_identity_amended_witness :
    JavaClass.deserialize (JavaClass.serialize c1class) = .ok (c1class, []) :=
  @roundtrip_identity_amended c1in c1class [] (by decide) rfl
    (fun p hp => by simp [c1class] at hp)

/-! ### C1: the round-trip counterexample — a Utf8 constant whose lossy-decoded
text overflows the 16-bit length prefix -/

/-- 21846 `0xFF` bytes: each is invalid UTF-8, so the lossy decoder turns each
into the 3-byte replacement character, tripling the length. -/
def bigRaw : List Nat := List.replicate 21846 255

/-- The stored text of the decoded Utf8 constant: 65538 bytes, which no longer
fits the `u16` length prefix the serializer writes (`s.len() as u16`). -/
def bigS : List Nat := utf8_lossy bigRaw

/-- The class-file bytes following the constant pool: flags 0, this-class 1,
super 0, no interfaces, fields, methods or attributes. -/
def cexTail : List Nat := [0, 0, 0, 1, 0, 0, 0, 0, 0, 0, 0, 0, 0, 0]

/-- A complete, valid class file: magic `0xCAFEBABE`, versions 0, pool count 2
with a single Utf8 entry of declared length 21846 (`0x5556` = bytes 85, 86)
holding `bigRaw`, then `cexTail`. -/
def cexInput : List Nat :=
  [202, 254, 186, 190, 0, 0, 0, 0, 0, 2, 1, 85, 86] ++ bigRaw ++ cexTail

/-- The class `cexInput` decodes to. -/
def cexClass : JavaClass :=
  ⟨3405691582, 0, 0, [(1, .Utf8 bigS)], 0, 1, none, [], [], [], []⟩

theorem bigRaw_length : bigRaw.length = 21846 := List.length_replicate _ _

theorem bigRaw_bytes : ByteStream bigRaw := by
  intro b hb
  have h2 : b ∈ List.replicate 21846 255 := hb
  rw [List.mem_replicate] at h2
  omega

theorem bigS_length : bigS.length = 65538 := by
  show (utf8_lossy (List.replicate 21846 255)).length = 65538
  rw [utf8_lossy_replicate_255_length]

theorem bigS_cons : bigS =
    239 :: 191 :: 189 :: 239 :: 191 :: 189 :: utf8_lossy (List.replicate 21844 255) := by
  show utf8_lossy (List.replicate 21846 255) = _
  rw [(by norm_num : (21846 : Nat) = 21845 + 1), List.replicate_succ, utf8_lossy_255,
    (by norm_num : (21845 : Nat) = 21844 + 1), List.replicate_succ, utf8_lossy_255]
  simp only [replacementChar, List.cons_append, List.nil_append]

/-- One unfolding step of the pool decode loop. -/
theorem entries_loop_step (f count index : Nat) (s : List Nat) :
    ConstantPool.entries_loop (f + 1) count index s =
      (if index < count then
        match ConstantPoolEntry.deserialize s with
        | .error e => .error e
        | .ok (entry, s) =>
          if index = 0 then .error .panic
          else
            match ConstantPool.entries_loop f count
                ((index + entry.size) % 65536) s with
            | .error e => .error e
            | .ok (rest, s) => .ok ((index, entry) :: rest, s)
      else .ok ([], s)) := rfl



theorem cex_pool_gen (t : List Nat) (hrb : read_bytes t 21846 = .ok (bigRaw, cexTail)) :
    ConstantPool.deserialize (0 :: 2 :: 1 :: 85 :: 86 :: t) =
      .ok ([(1, .Utf8 bigS)], cexTail) := by
  have hentry : ConstantPoolEntry.deserialize (1 :: 85 :: 86 :: t) =
      .ok (.Utf8 bigS, cexTail) := by
    simp only [ConstantPoolEntry.deserialize, bind, Except.bind, read_u8_cons,
      read_u16_cons]
    rw [(by norm_num : 256 * 85 + 86 = 21846), hrb]
    rfl
  simp only [ConstantPool.deserialize, bind, Except.bind, read_u16_cons]
  rw [(by norm_num : 256 * 0 + 2 = 2)]
  rw [entries_loop_step]
  rw [if_pos (by norm_num : (1 : Nat) < 2)]
  simp only [hentry]
  rw [if_neg (by norm_num : ¬(1 : Nat) = 0)]
  simp only [ConstantPoolEntry.size]
  rw [(by norm_num : (1 + 1) % 65536 = 2)]
  rw [show ConstantPool.entries_loop 2 2 2 cexTail = .ok ([], cexTail) from rfl]

theorem cex_pool :
    ConstantPool.deserialize (0 :: 2 :: 1 :: 85 :: 86 :: (bigRaw ++ cexTail)) =
      .ok ([(1, .Utf8 bigS)], cexTail) :=
  cex_pool_gen _ (by
    have h := read_bytes_append bigRaw cexTail
    rwa [bigRaw_length] at h)

theorem cex_decode_gen (t : List Nat)
    (hpool : ConstantPool.deserialize (0 :: 2 :: 1 :: 85 :: 86 :: t) =
      .ok ([(1, .Utf8 bigS)], cexTail)) :
    JavaClass.deserialize (202 :: 254 :: 186 :: 190 :: 0 :: 0 :: 0 :: 0 :: 0 :: 2 ::
      1 :: 85 :: 86 :: t) = .ok (cexClass, []) := by
  simp only [JavaClass.deserialize, bind, Except.bind, read_u32_cons, read_u16_cons,
    hpool]
  rfl

theorem cex_decode : JavaClass.deserialize cexInput = .ok (cexClass, []) :=
  cex_decode_gen (bigRaw ++ cexTail) cex_pool

theorem cex_ser_gen (x : List Nat) (hlen : x.length = 65538) :
    JavaClass.serialize ⟨3405691582, 0, 0, [(1, .Utf8 x)], 0, 1, none, [], [], [], []⟩ =
      202 :: 254 :: 186 :: 190 :: 0 :: 0 :: 0 :: 0 :: 0 :: 2 :: 1 :: 0 :: 2 ::
        (x ++ cexTail) := by
  have hpoolser : ConstantPool.serialize [(1, ConstantPoolEntry.Utf8 x)] =
      0 :: 2 :: 1 :: 0 :: 2 :: x := by
    rw [ConstantPool.serialize]
    rw [show ConstantPool.size [(1, ConstantPoolEntry.Utf8 x)] = 2 from rfl]
    rw [show List.insertionSort (fun p q : Nat × ConstantPoolEntry => p.1 ≤ q.1)
      [(1, ConstantPoolEntry.Utf8 x)] = [(1, ConstantPoolEntry.Utf8 x)] from rfl]
    simp only [List.flatMap_cons, List.flatMap_nil, ConstantPoolEntry.serialize, hlen]
    rw [show u16_be 2 = [0, 2] from rfl, show u16_be 65538 = [0, 2] from rfl]
    simp only [List.append_nil, List.cons_append, List.nil_append]
  rw [JavaClass.serialize]
  simp only [hpoolser, Option.getD_none,
    show u32_be 3405691582 = [202, 254, 186, 190] from rfl,
    show u16_be 0 = [0, 0] from rfl, show u16_be 1 = [0, 1] from rfl,
    show serialize_vec u16_be ([] : List Nat) = [0, 0] from rfl,
    show serialize_vec Field.serialize ([] : List Field) = [0, 0] from rfl,
    show serialize_vec Method.serialize ([] : List Method) = [0, 0] from rfl,
    show serialize_vec Attribute.serialize ([] : List Attribute) = [0, 0] from rfl]
  simp only [cexTail, List.append_assoc, List.cons_append, List.nil_append]

theorem cex_ser : JavaClass.serialize cexClass =
    202 :: 254 :: 186 :: 190 :: 0 :: 0 :: 0 :: 0 :: 0 :: 2 :: 1 :: 0 :: 2 ::
      (bigS ++ cexTail) :=
  cex_ser_gen bigS bigS_length

theorem cex_reencode_gen (u : List Nat) :
    JavaClass.deserialize (202 :: 254 :: 186 :: 190 :: 0 :: 0 :: 0 :: 0 :: 0 :: 2 ::
      1 :: 0 :: 2 :: 239 :: 191 :: 189 :: 239 :: 191 :: 189 :: u) =
      .error (.msg "Error when trying to convert u16 to AccessFlags") := by
  have hrb2 : read_bytes (239 :: 191 :: 189 :: 239 :: 191 :: 189 :: u) 2 =
      .ok ([239, 191], 189 :: 239 :: 191 :: 189 :: u) := by
    have h := read_bytes_append [239, 191] (189 :: 239 :: 191 :: 189 :: u)
    simpa using h
  have hentry2 : ConstantPoolEntry.deserialize
      (1 :: 0 :: 2 :: 239 :: 191 :: 189 :: 239 :: 191 :: 189 :: u) =
      .ok (.Utf8 (utf8_lossy [239, 191]), 189 :: 239 :: 191 :: 189 :: u) := by
    simp only [ConstantPoolEntry.deserialize, bind, Except.bind, read_u8_cons,
      read_u16_cons]
    rw [(by norm_num : 256 * 0 + 2 = 2), hrb2]
  have hpool2 : ConstantPool.deserialize
      (0 :: 2 :: 1 :: 0 :: 2 :: 239 :: 191 :: 189 :: 239 :: 191 :: 189 :: u) =
      .ok ([(1, .Utf8 (utf8_lossy [239, 191]))], 189 :: 239 :: 191 :: 189 :: u) := by
    simp only [ConstantPool.deserialize, bind, Except.bind, read_u16_cons]
    rw [(by norm_num : 256 * 0 + 2 = 2)]
    rw [entries_loop_step]
    rw [if_pos (by norm_num : (1 : Nat) < 2)]
    simp only [hentry2]
    rw [if_neg (by norm_num : ¬(1 : Nat) = 0)]
    simp only [ConstantPoolEntry.size]
    rw [(by norm_num : (1 + 1) % 65536 = 2)]
    rw [show ConstantPool.entries_loop 2 2 2 (189 :: 239 :: 191 :: 189 :: u) =
      .ok ([], 189 :: 239 :: 191 :: 189 :: u) from rfl]
  have hflags : AccessFlags.deserialize (189 :: 239 :: 191 :: 189 :: u) =
      .error (.msg "Error when trying to convert u16 to AccessFlags") := by
    simp only [AccessFlags.deserialize, read_u16_cons]
    rw [if_neg (by norm_num : ¬256 * 189 + 239 < 32768)]
  simp only [JavaClass.deserialize, bind, Except.bind, read_u32_cons, read_u16_cons,
    hpool2, hflags]

theorem cex_reencode_assemble (x X : List Nat)
    (hx : x = 239 :: 191 :: 189 :: 239 :: 191 :: 189 :: X)
    (hser : JavaClass.serialize cexClass = 202 :: 254 :: 186 :: 190 :: 0 :: 0 :: 0 ::
      0 :: 0 :: 2 :: 1 :: 0 :: 2 :: (x ++ cexTail)) :
    JavaClass.deserialize (JavaClass.serialize cexClass) =
      .error (.msg "Error when trying to convert u16 to AccessFlags") := by
  rw [hser, hx]
  simp only [List.cons_append]
  exact cex_reencode_gen (X ++ cexTail)

theorem cex_reencode : JavaClass.deserialize (JavaClass.serialize cexClass) =
    .error (.msg "Error when trying to convert u16 to AccessFlags") :=
  cex_reencode_assemble bigS (utf8_lossy (List.replicate 21844 255)) bigS_cons cex_ser

/-- C1 — counterexample to the unconditional round-trip claim: `cexInput` is a
genuine byte stream that decodes successfully to `cexClass`, whose single Utf8
constant holds 21846 invalid (`0xFF`) bytes that the lossy UTF-8 conversion
expands into a 65538-byte string; on serialization its length is written
`as u16` (65538 mod 65536 = 2), so decoding the serialized bytes reads a
2-byte string, goes out of step, and fails — it does not yield a class equal to
`cexClass` (it yields no class at all). -/
theorem roundtrip_identity_cex :
    ByteStream cexInput ∧
    JavaClass.deserialize cexInput = .ok (cexClass, []) ∧
    JavaClass.deserialize (JavaClass.serialize cexClass) =
      .error (.msg "Error when trying to convert u16 to AccessFlags") := by
  refine ⟨?_, cex_decode, cex_reencode⟩
  show ByteStream ([202, 254, 186, 190, 0, 0, 0, 0, 0, 2, 1, 85, 86] ++ bigRaw ++ cexTail)
  rw [ByteStream.append_iff, ByteStream.append_iff]
  exact ⟨⟨by decide, bigRaw_bytes⟩, by decide⟩

end Javd
